import Mathlib

/-!
# dist-mapreduce: the coordinator's scheduling engine

A shallow embedding of `internal/common/rpc.go`, `internal/coordinator/coordinator.go`,
the submission handler of `internal/api/server.go` and `internal/worker/worker.go`: the
request/report loop as the coordinator sees it, `ihash`, the partitioning and the file
names of `doMap`, `doReduce`, `MapFunc` and `ReduceFunc`.

Modelling conventions.

* Go `int` is `Int`.  The only counter that is ever incremented is `nextJob`; every
  increment stores one more job in a map from which nothing is ever deleted, so the
  64-bit range cannot be exhausted in a run and wrap-around is not modelled.
* `time.Time` is a `Nat` (an instant on some clock).  Each call of `time.Now()` in the
  source is a parameter of the embedded function.
* The Go map `c.jobs : map[int]*Job` is a list of key/value entries read with
  `jobsGet` (first entry for a key) and written with `jobsSet` (replace the entry for
  the key, or add one).  `for _, job := range c.jobs` visits the keys in an order
  that the language leaves unspecified, so every function that ranges over the map
  takes the visiting order as the parameter `order`.
* The map holds pointers `*Job`.  `SubmitJob` is the only writer of the map and stores
  a freshly allocated `Job` each time, so no two keys share a job and a job is a value
  of the entry.
* The mutex `c.mu` is held for the whole of each operation, so each operation is an
  atomic function from state to state.
-/

namespace common

/-- The constant `TaskTypeMap` (iota = 0) of type `TaskType int`. -/
abbrev TaskTypeMap : Int := 0

/-- The constant `TaskTypeReduce` (iota = 1). -/
abbrev TaskTypeReduce : Int := 1

/-- The constant `TaskStatusIdle` (iota = 0) of type `TaskStatus int`. -/
abbrev TaskStatusIdle : Int := 0

/-- The constant `TaskStatusInProgress` (iota = 1). -/
abbrev TaskStatusInProgress : Int := 1

/-- The constant `TaskStatusCompleted` (iota = 2). -/
abbrev TaskStatusCompleted : Int := 2

/-- The constant `TaskStatusFailed` (iota = 3). -/
abbrev TaskStatusFailed : Int := 3

/-- The struct `Task`: a unit of work (the field `Type` is written `Typ`). -/
structure Task where
  ID : Int
  JobID : Int
  Typ : Int
  Status : Int
  FileName : String
  StartTime : Nat
  WorkerID : String
  deriving DecidableEq, Repr

/-- The struct `TaskArgs`: the arguments of a task request. -/
structure TaskArgs where
  WorkerID : String
  deriving DecidableEq, Repr

/-- The struct `TaskReply`: the task details handed to a worker. -/
structure TaskReply where
  JobID : Int
  TaskType : Int
  TaskID : Int
  FileName : String
  NReduce : Int
  NMap : Int
  Timestamp : Nat
  Task : Option Task
  deriving DecidableEq, Repr

/-- The struct `ReportTaskArgs`: the arguments of a completion report. -/
structure ReportTaskArgs where
  JobID : Int
  TaskID : Int
  TaskType : Int
  WorkerID : String
  deriving DecidableEq, Repr

/-- The struct `ReportTaskReply`: the response to a completion report. -/
structure ReportTaskReply where
  Ack : Bool
  deriving DecidableEq, Repr

/-- The zero value `common.Task{}`. -/
def Task.zero : Task :=
  { ID := 0, JobID := 0, Typ := 0, Status := 0, FileName := "", StartTime := 0, WorkerID := "" }

/-- The zero value `&common.TaskReply{}`. -/
def TaskReply.zero : TaskReply :=
  { JobID := 0, TaskType := 0, TaskID := 0, FileName := "", NReduce := 0, NMap := 0,
    Timestamp := 0, Task := none }

/-- The zero value `&common.ReportTaskReply{}`. -/
def ReportTaskReply.zero : ReportTaskReply := { Ack := false }

end common

namespace coordinator

open common

/-- The struct `Job`. -/
structure Job where
  ID : Int
  Files : List String
  NReduce : Int
  MapTasks : List Task
  ReduceTasks : List Task
  StartTime : Nat
  Status : String
  deriving DecidableEq, Repr

/-- The struct `Coordinator` without its mutex: `jobs` holds the entries of the Go
map, `workers` those of the (never written) heartbeat map. -/
structure Coordinator where
  jobs : List (Int × Job)
  nextJob : Int
  workers : List (String × Nat)
  deriving DecidableEq, Repr

/-- Map read `c.jobs[k]` with the comma-ok form: the value stored under `k`. -/
def jobsGet : List (Int × Job) → Int → Option Job
  | [], _ => none
  | (k, v) :: rest, key => if k = key then some v else jobsGet rest key

/-- Map write `c.jobs[k] = v`: the entry of `k` is replaced, or added when absent. -/
def jobsSet : List (Int × Job) → Int → Job → List (Int × Job)
  | [], key, v => [(key, v)]
  | (k, w) :: rest, key, v =>
    if k = key then (k, v) :: rest else (k, w) :: jobsSet rest key v

/-- The keys of the map. -/
def jobsKeys (jobs : List (Int × Job)) : List Int := jobs.map Prod.fst

/-- The function `NewCoordinator`. -/
def NewCoordinator : Coordinator :=
  { jobs := [], nextJob := 0, workers := [] }

/-- The first loop of `SubmitJob`: one MAP task per file, `ID` the index. -/
def initMapTasks (files : List String) : List Task :=
  files.enum.map fun (p : Nat × String) =>
    { Task.zero with ID := (p.1 : Int), Typ := TaskTypeMap, Status := TaskStatusIdle,
                     FileName := p.2 }

/-- The second loop of `SubmitJob`: `for i := 0; i < nReduce; i++`. -/
def initReduceTasks (nReduce : Int) : List Task :=
  (List.range nReduce.toNat).map fun (i : Nat) =>
    { Task.zero with ID := (i : Int), Typ := TaskTypeReduce, Status := TaskStatusIdle }

/-- The method `SubmitJob`; `now` is the value of `time.Now()`.  Returns the new
state and the job ID. -/
def SubmitJob (c : Coordinator) (files : List String) (nReduce : Int) (now : Nat) :
    Coordinator × Int :=
  let jobID := c.nextJob
  let job : Job :=
    { ID := jobID, Files := files, NReduce := nReduce,
      MapTasks := initMapTasks files, ReduceTasks := initReduceTasks nReduce,
      StartTime := now, Status := "IN_PROGRESS" }
  ({ c with jobs := jobsSet c.jobs jobID job, nextJob := c.nextJob + 1 }, jobID)

/-- The method `GetJobStatus`: the stored job and the ok flag. -/
def GetJobStatus (c : Coordinator) (jobID : Int) : Option Job :=
  jobsGet c.jobs jobID

/-- The loop `for i, task := range tasks { if task.Status == TaskStatusIdle ... }`
started at index `i`: the first idle task with its index. -/
def findIdle : List Task → Nat → Option (Nat × Task)
  | [], _ => none
  | t :: ts, i => if t.Status = TaskStatusIdle then some (i, t) else findIdle ts (i + 1)

/-- The loops computing `allMapsDone` and `allReducesDone`: no task has a status
other than COMPLETED. -/
def allDone : List Task → Bool
  | [] => true
  | t :: ts => if t.Status ≠ TaskStatusCompleted then false else allDone ts

/-- The three assignments `tasks[i].Status = InProgress; tasks[i].WorkerID = w;
tasks[i].StartTime = now` where `task` is the copy of `tasks[i]` made by `range`. -/
def assign (tasks : List Task) (i : Nat) (task : Task) (w : String) (now : Nat) : List Task :=
  tasks.set i { task with Status := TaskStatusInProgress, WorkerID := w, StartTime := now }

/-- The result of `GetTask`: state, reply and returned error. -/
structure GetTaskResult where
  c : Coordinator
  reply : TaskReply
  err : Option String
  deriving DecidableEq, Repr

/-- The method `GetTask`.  `order` is the order in which `range c.jobs` visits the
keys, `now` the value of the `time.Now()` stored in the task and `now2` the value of
the one stored in `reply.Timestamp`. -/
def GetTask (c : Coordinator) (order : List Int) (args : TaskArgs) (reply : TaskReply)
    (now now2 : Nat) : GetTaskResult :=
  match order with
  | [] => { c := c, reply := { reply with TaskType := -1 }, err := none }
  | k :: rest =>
    match jobsGet c.jobs k with
    | none => GetTask c rest args reply now now2
    | some job =>
      if job.Status = "COMPLETED" ∨ job.Status = "FAILED" then
        GetTask c rest args reply now now2
      else
        match findIdle job.MapTasks 0 with
        | some (i, task) =>
          let job1 : Job := { job with MapTasks := assign job.MapTasks i task args.WorkerID now }
          { c := { c with jobs := jobsSet c.jobs k job1 },
            reply := { reply with TaskType := TaskTypeMap, JobID := job.ID, TaskID := task.ID,
                                  FileName := task.FileName, NReduce := job.NReduce,
                                  NMap := (job.Files.length : Int), Timestamp := now2 },
            err := none }
        | none =>
          if allDone job.MapTasks = false then
            GetTask c rest args reply now now2
          else
            match findIdle job.ReduceTasks 0 with
            | some (i, task) =>
              let job1 : Job :=
                { job with ReduceTasks := assign job.ReduceTasks i task args.WorkerID now }
              { c := { c with jobs := jobsSet c.jobs k job1 },
                reply := { reply with TaskType := TaskTypeReduce, JobID := job.ID,
                                      TaskID := task.ID, NReduce := job.NReduce,
                                      NMap := (job.Files.length : Int) },
                err := none }
            | none =>
              if allDone job.ReduceTasks = true then
                GetTask { c with jobs := jobsSet c.jobs k { job with Status := "COMPLETED" } }
                  rest args reply now now2
              else
                GetTask c rest args reply now now2

/-- The result of `ReportTask`: state, reply and returned error. -/
structure ReportTaskResult where
  c : Coordinator
  reply : ReportTaskReply
  err : Option String
  deriving DecidableEq, Repr

/-- The slice chosen by `if args.TaskType == common.TaskTypeMap`. -/
def tasksOf (job : Job) (taskType : Int) : List Task :=
  if taskType = TaskTypeMap then job.MapTasks else job.ReduceTasks

/-- The statement `job.MapTasks[i].Status = Completed` (or the same on
`job.ReduceTasks`), by the type of the report. -/
def complete (job : Job) (taskType : Int) (i : Nat) (task : Task) : Job :=
  if taskType = TaskTypeMap then
    { job with MapTasks := job.MapTasks.set i { task with Status := TaskStatusCompleted } }
  else
    { job with ReduceTasks := job.ReduceTasks.set i { task with Status := TaskStatusCompleted } }

/-- The method `ReportTask`.  The index expression `tasks[args.TaskID]` behind the
range check cannot fail; its failure branch stands for the run-time panic. -/
def ReportTask (c : Coordinator) (args : ReportTaskArgs) (reply : ReportTaskReply) :
    ReportTaskResult :=
  match jobsGet c.jobs args.JobID with
  | none => { c := c, reply := reply, err := some "job not found" }
  | some job =>
    let tasks := tasksOf job args.TaskType
    if args.TaskID < 0 ∨ args.TaskID ≥ (tasks.length : Int) then
      { c := c, reply := reply, err := some "invalid task ID" }
    else
      match tasks[args.TaskID.toNat]? with
      | none => { c := c, reply := reply, err := some "panic: index out of range" }
      | some task =>
        if task.WorkerID = args.WorkerID then
          let job1 : Job := complete job args.TaskType args.TaskID.toNat task
          { c := { c with jobs := jobsSet c.jobs args.JobID job1 },
            reply := { reply with Ack := true },
            err := none }
        else
          { c := c, reply := reply, err := none }

/-- The loop of `Done`: `allDone` stays true until a job with a status other than
COMPLETED and FAILED is met. -/
def doneLoop (c : Coordinator) : List Int → Bool
  | [] => true
  | k :: rest =>
    match jobsGet c.jobs k with
    | none => doneLoop c rest
    | some job =>
      if job.Status ≠ "COMPLETED" ∧ job.Status ≠ "FAILED" then false else doneLoop c rest

/-- The method `Done`, returning the state it leaves and its result.  `order` is the
order in which `range c.jobs` visits the keys. -/
def Done (c : Coordinator) (order : List Int) : Coordinator × Bool :=
  if c.jobs.length = 0 then (c, false) else (c, doneLoop c order)

end coordinator

namespace api

open common coordinator

/-- The struct `SubmitJobRequest`: the decoded body of `POST /jobs`. -/
structure SubmitJobRequest where
  Files : List String
  NReduce : Int
  deriving DecidableEq, Repr

/-- The outcome of `handleJobs`: the coordinator state it leaves, the HTTP status
code and, for a created job, the `id` of the response body. -/
structure HandleJobsResult where
  c : Coordinator
  status : Nat
  JobID : Option Int
  deriving DecidableEq, Repr

/-- The method `Server.handleJobs`.  `method` is `r.Method`; `body` is the outcome of
`json.NewDecoder(r.Body).Decode(&req)` (`none` when decoding fails); `now` is the
clock read by `SubmitJob`.  Writing the response is not modelled. -/
def handleJobs (c : Coordinator) (method : String) (body : Option SubmitJobRequest)
    (now : Nat) : HandleJobsResult :=
  if method ≠ "POST" then
    { c := c, status := 405, JobID := none }
  else
    match body with
    | none => { c := c, status := 400, JobID := none }
    | some req =>
      if req.Files.length = 0 ∨ req.NReduce ≤ 0 then
        { c := c, status := 400, JobID := none }
      else
        let r := SubmitJob c req.Files req.NReduce now
        { c := r.1, status := 200, JobID := some r.2 }

end api

namespace coordinator

open common

/-- The states the coordinator can be in: those obtained from `NewCoordinator` by
calls of `SubmitJob`, `GetTask` and `ReportTask` with any arguments, where each
`GetTask` visits the keys of the job map in some order. -/
inductive Reachable : Coordinator → Prop
  | init : Reachable NewCoordinator
  | submit (c : Coordinator) (files : List String) (nReduce : Int) (now : Nat) :
      Reachable c → Reachable (SubmitJob c files nReduce now).1
  | getTask (c : Coordinator) (order : List Int) (args : TaskArgs) (reply : TaskReply)
      (now now2 : Nat) :
      Reachable c → order.Perm (jobsKeys c.jobs) →
      Reachable (GetTask c order args reply now now2).c
  | report (c : Coordinator) (args : ReportTaskArgs) (reply : ReportTaskReply) :
      Reachable c → Reachable (ReportTask c args reply).c

/-- A job that `GetTask` passes over: it is terminal, or it has no idle map task and
either a map task that is not COMPLETED or no idle reduce task. -/
def NotAssignable (job : Job) : Prop :=
  job.Status = "COMPLETED" ∨ job.Status = "FAILED" ∨
    (findIdle job.MapTasks 0 = none ∧
      (allDone job.MapTasks = false ∨ findIdle job.ReduceTasks 0 = none))

instance (job : Job) : Decidable (NotAssignable job) := by
  unfold NotAssignable; infer_instance

/-- What the scan of `GetTask` may do to a job it passes over: nothing, or set the
status of a running job all of whose tasks are COMPLETED to "COMPLETED". -/
def MarkedJob (j j1 : Job) : Prop :=
  j1 = j ∨
    (j1 = { j with Status := "COMPLETED" } ∧ j.Status ≠ "COMPLETED" ∧ j.Status ≠ "FAILED" ∧
      allDone j.MapTasks = true ∧ allDone j.ReduceTasks = true)

/-- The relation between the state before a scan and the state during or after it,
leaving aside the one task that is handed out. -/
def Marked (c c1 : Coordinator) : Prop :=
  c1.nextJob = c.nextJob ∧ c1.workers = c.workers ∧ jobsKeys c1.jobs = jobsKeys c.jobs ∧
    ∀ k, (jobsGet c.jobs k = none ∧ jobsGet c1.jobs k = none) ∨
      ∃ j j1, jobsGet c.jobs k = some j ∧ jobsGet c1.jobs k = some j1 ∧ MarkedJob j j1

/-- The shape of a stored job in a reachable state. -/
structure JobOK (k : Int) (job : Job) : Prop where
  id_eq : job.ID = k
  map_ids : ∀ (i : Nat) (t : Task), job.MapTasks[i]? = some t → t.ID = (i : Int)
  red_ids : ∀ (i : Nat) (t : Task), job.ReduceTasks[i]? = some t → t.ID = (i : Int)
  map_len : job.MapTasks.length = job.Files.length
  map_file : ∀ (i : Nat) (t : Task), job.MapTasks[i]? = some t → job.Files[i]? = some t.FileName
  red_len : job.ReduceTasks.length = job.NReduce.toNat
  status : job.Status = "IN_PROGRESS" ∨ job.Status = "COMPLETED"
  completed : job.Status = "COMPLETED" →
    (∀ t ∈ job.MapTasks, t.Status = TaskStatusCompleted) ∧
    (∀ t ∈ job.ReduceTasks, t.Status = TaskStatusCompleted)

/-- The invariant of the reachable states. -/
structure Inv (c : Coordinator) : Prop where
  next_nonneg : 0 ≤ c.nextJob
  keys : jobsKeys c.jobs = (List.range c.nextJob.toNat).map Int.ofNat
  jobs_ok : ∀ (k : Int) (job : Job), jobsGet c.jobs k = some job → JobOK k job

/-- The state and reply of a MAP assignment of task `i` of job `job`, stored under
`k`, made in state `cm`. -/
def mapOutcome (cm : Coordinator) (k : Int) (job : Job) (i : Nat) (task : Task)
    (args : TaskArgs) (reply : TaskReply) (now now2 : Nat) : GetTaskResult :=
  { c := { cm with jobs := jobsSet cm.jobs k
                    { job with MapTasks := assign job.MapTasks i task args.WorkerID now } },
    reply := { reply with TaskType := TaskTypeMap, JobID := job.ID, TaskID := task.ID,
                          FileName := task.FileName, NReduce := job.NReduce,
                          NMap := (job.Files.length : Int), Timestamp := now2 },
    err := none }

/-- The state and reply of a REDUCE assignment of task `i` of job `job`, stored under
`k`, made in state `cm`. -/
def reduceOutcome (cm : Coordinator) (k : Int) (job : Job) (i : Nat) (task : Task)
    (args : TaskArgs) (reply : TaskReply) (now : Nat) : GetTaskResult :=
  { c := { cm with jobs := jobsSet cm.jobs k
                    { job with
                      ReduceTasks := assign job.ReduceTasks i task args.WorkerID now } },
    reply := { reply with TaskType := TaskTypeReduce, JobID := job.ID, TaskID := task.ID,
                          NReduce := job.NReduce, NMap := (job.Files.length : Int) },
    err := none }

/-- The three outcomes of `GetTask c order args reply now now2`, as a relation with its
result `r`: Wait, after a scan that passed over every job; or an assignment from the
first job of `order` that is not passed over, of its first idle map task, or, when all
its map tasks are COMPLETED, of its first idle reduce task. -/
def GetTaskSpec (c : Coordinator) (order : List Int) (args : TaskArgs) (reply : TaskReply)
    (now now2 : Nat) (r : GetTaskResult) : Prop :=
  (r.err = none ∧ r.reply = { reply with TaskType := -1 } ∧ Marked c r.c ∧
      ∀ k ∈ order, ∀ job, jobsGet c.jobs k = some job → NotAssignable job) ∨
  ∃ (pre : List Int) (k : Int) (post : List Int) (cm : Coordinator) (job : Job) (i : Nat)
      (task : Task),
    order = pre ++ k :: post ∧
    (∀ k1 ∈ pre, ∀ job1, jobsGet c.jobs k1 = some job1 → NotAssignable job1) ∧
    Marked c cm ∧ jobsGet c.jobs k = some job ∧ jobsGet cm.jobs k = some job ∧
    job.Status ≠ "COMPLETED" ∧ job.Status ≠ "FAILED" ∧
    ((findIdle job.MapTasks 0 = some (i, task) ∧
        r = mapOutcome cm k job i task args reply now now2) ∨
     (findIdle job.MapTasks 0 = none ∧ allDone job.MapTasks = true ∧
        findIdle job.ReduceTasks 0 = some (i, task) ∧
        r = reduceOutcome cm k job i task args reply now))

end coordinator

namespace coordinator

open common

/-- A job in which `GetTask` finds nothing to do and nothing to mark: it is terminal,
or it has no idle map task and a map task that is not COMPLETED, or it has no idle
task at all and a reduce task that is not COMPLETED. -/
def Blocked (job : Job) : Prop :=
  job.Status = "COMPLETED" ∨ job.Status = "FAILED" ∨
    (findIdle job.MapTasks 0 = none ∧ allDone job.MapTasks = false) ∨
    (findIdle job.MapTasks 0 = none ∧ findIdle job.ReduceTasks 0 = none ∧
      allDone job.ReduceTasks = false)

instance (job : Job) : Decidable (Blocked job) := by
  unfold Blocked; infer_instance

end coordinator

namespace worker

open common coordinator

/-- One iteration of the loop of `Worker`, as the coordinator sees it: the call of
`GetTask` with a fresh reply and, for a MAP or a REDUCE reply, the call of `ReportTask`
made by `report` with the worker's own ID and a fresh reply.  Returns the state, the
task reply and the result of the report, if one was made. -/
def iteration (c : Coordinator) (order : List Int) (workerID : String) (now now2 : Nat) :
    Coordinator × TaskReply × Option ReportTaskResult :=
  let g := GetTask c order { WorkerID := workerID } TaskReply.zero now now2
  if g.reply.TaskType = TaskTypeMap ∨ g.reply.TaskType = TaskTypeReduce then
    let r := ReportTask g.c
      { JobID := g.reply.JobID, TaskID := g.reply.TaskID, TaskType := g.reply.TaskType,
        WorkerID := workerID } ReportTaskReply.zero
    (r.c, g.reply, some r)
  else
    (g.c, g.reply, none)

/-- The state after `n` iterations of one worker. -/
def iterations (order : List Int) (workerID : String) (now : Nat) :
    Nat → Coordinator → Coordinator
  | 0, c => c
  | n + 1, c => iterations order workerID now n (iteration c order workerID now now).1

end worker

/-! ## Example states -/

namespace coordinator

open common

/-- A new coordinator with one job of two partitions and fan-out 2. -/
def exTwoByTwo : Coordinator := (SubmitJob NewCoordinator ["a.txt", "b.txt"] 2 0).1

/-- The state of `exTwoByTwo` after worker "w1" has been given, and has reported, both
map tasks and both reduce tasks. -/
def exAllReported : Coordinator := worker.iterations [0] "w1" 1 4 exTwoByTwo

/-- The state of `exTwoByTwo` after worker "w1" has been given, and has reported, both
map tasks. -/
def exMapsReported : Coordinator := worker.iterations [0] "w1" 1 2 exTwoByTwo

/-- A job of one partition whose map task was handed to worker "w1" at time 0 and
has not been reported. -/
def exStalled : Coordinator :=
  (GetTask (SubmitJob NewCoordinator ["f1"] 1 0).1 [0] { WorkerID := "w1" } TaskReply.zero 0 0).c

/-- The state of `exAllReported` after one more `GetTask`. -/
def exCompleted : Coordinator :=
  (GetTask exAllReported [0] { WorkerID := "w1" } TaskReply.zero 9 9).c

/-- The state built by `TestCoordinator_Done`: one job of one partition and fan-out 1
whose tasks and status were set to COMPLETED. -/
def exDoneTest : Coordinator :=
  { jobs := [(0, { ID := 0, Files := ["f1"], NReduce := 1,
                   MapTasks := [{ Task.zero with Typ := TaskTypeMap,
                                                 Status := TaskStatusCompleted,
                                                 FileName := "f1" }],
                   ReduceTasks := [{ Task.zero with Typ := TaskTypeReduce,
                                                    Status := TaskStatusCompleted }],
                   StartTime := 0, Status := "COMPLETED" })],
    nextJob := 1, workers := [] }

end coordinator

/-! ## The job map -/

namespace coordinator

open common

theorem jobsGet_jobsSet_self (js : List (Int × Job)) (k : Int) (v : Job) :
    jobsGet (jobsSet js k v) k = some v := by
  induction js with
  | nil => simp [jobsSet, jobsGet]
  | cons e rest ih =>
    obtain ⟨k1, w⟩ := e
    by_cases h : k1 = k
    · simp [jobsSet, jobsGet, h]
    · simp [jobsSet, jobsGet, h, ih]

theorem jobsGet_jobsSet_ne (js : List (Int × Job)) (k k2 : Int) (v : Job) (hne : k2 ≠ k) :
    jobsGet (jobsSet js k v) k2 = jobsGet js k2 := by
  induction js with
  | nil =>
    have : ¬ k = k2 := fun h => hne h.symm
    simp [jobsSet, jobsGet, this]
  | cons e rest ih =>
    obtain ⟨k1, w⟩ := e
    by_cases h : k1 = k
    · subst h
      have : ¬ k1 = k2 := fun h => hne h.symm
      simp [jobsSet, jobsGet, this]
    · by_cases h2 : k1 = k2
      · subst h2
        simp [jobsSet, jobsGet, h]
      · simp [jobsSet, jobsGet, h, h2, ih]

theorem jobsGet_jobsSet (js : List (Int × Job)) (k k2 : Int) (v : Job) :
    jobsGet (jobsSet js k v) k2 = if k2 = k then some v else jobsGet js k2 := by
  by_cases h : k2 = k
  · subst h; simp [jobsGet_jobsSet_self]
  · simp [h, jobsGet_jobsSet_ne js k k2 v h]

theorem jobsKeys_jobsSet_of_some (js : List (Int × Job)) (k : Int) (v w : Job)
    (h : jobsGet js k = some w) : jobsKeys (jobsSet js k v) = jobsKeys js := by
  induction js with
  | nil => simp [jobsGet] at h
  | cons e rest ih =>
    obtain ⟨k1, u⟩ := e
    by_cases h1 : k1 = k
    · simp [jobsSet, jobsKeys, h1]
    · simp only [jobsGet, h1, if_false] at h
      have := ih h
      simp [jobsSet, jobsKeys, h1] at this ⊢
      exact this

theorem jobsKeys_jobsSet_of_none (js : List (Int × Job)) (k : Int) (v : Job)
    (h : jobsGet js k = none) : jobsKeys (jobsSet js k v) = jobsKeys js ++ [k] := by
  induction js with
  | nil => simp [jobsSet, jobsKeys]
  | cons e rest ih =>
    obtain ⟨k1, u⟩ := e
    by_cases h1 : k1 = k
    · simp [jobsGet, h1] at h
    · simp only [jobsGet, h1, if_false] at h
      have := ih h
      simp [jobsSet, jobsKeys, h1] at this ⊢
      exact this

theorem jobsGet_eq_none_iff (js : List (Int × Job)) (k : Int) :
    jobsGet js k = none ↔ k ∉ jobsKeys js := by
  induction js with
  | nil => simp [jobsGet, jobsKeys]
  | cons e rest ih =>
    obtain ⟨k1, u⟩ := e
    by_cases h1 : k1 = k
    · simp [jobsGet, jobsKeys, h1]
    · have h2 : ¬ k = k1 := fun h => h1 h.symm
      simp [jobsGet, jobsKeys, h1, h2] at ih ⊢
      exact ih

theorem jobsSet_same (js : List (Int × Job)) (k : Int) (v : Job)
    (h : jobsGet js k = some v) : jobsSet js k v = js := by
  induction js with
  | nil => simp [jobsGet] at h
  | cons e rest ih =>
    obtain ⟨k1, u⟩ := e
    by_cases h1 : k1 = k
    · simp [jobsGet, h1] at h
      simp [jobsSet, h1, h]
    · simp only [jobsGet, h1, if_false] at h
      simp [jobsSet, h1, ih h]

end coordinator

/-! ## Task lists -/

namespace coordinator

open common

theorem findIdle_some (ts : List Task) : ∀ (s i : Nat) (t : Task),
    findIdle ts s = some (i, t) →
    s ≤ i ∧ ts[i - s]? = some t ∧ t.Status = TaskStatusIdle ∧
      ∀ (j : Nat) (u : Task), j < i - s → ts[j]? = some u → u.Status ≠ TaskStatusIdle := by
  induction ts with
  | nil => intro s i t h; simp [findIdle] at h
  | cons a rest ih =>
    intro s i t h
    by_cases ha : a.Status = TaskStatusIdle
    · simp only [findIdle, ha, if_true, Option.some.injEq, Prod.mk.injEq] at h
      obtain ⟨h1, h2⟩ := h
      subst h1; subst h2
      refine ⟨le_refl _, by simp, ha, ?_⟩
      intro j u hj; simp at hj
    · simp only [findIdle, ha, if_false] at h
      obtain ⟨h1, h2, h3, h4⟩ := ih (s + 1) i t h
      have hi : i - s = (i - (s + 1)) + 1 := by omega
      refine ⟨by omega, ?_, h3, ?_⟩
      · rw [hi]; simpa using h2
      · intro j u hj hu
        cases j with
        | zero =>
          simp at hu; subst hu; exact ha
        | succ j =>
          simp at hu
          exact h4 j u (by omega) hu

theorem findIdle_none (ts : List Task) : ∀ (s : Nat),
    findIdle ts s = none ↔ ∀ t ∈ ts, t.Status ≠ TaskStatusIdle := by
  induction ts with
  | nil => intro s; simp [findIdle]
  | cons a rest ih =>
    intro s
    by_cases ha : a.Status = TaskStatusIdle
    · simp [findIdle, ha]
    · simp [findIdle, ha, ih (s + 1)]

theorem allDone_iff (ts : List Task) :
    allDone ts = true ↔ ∀ t ∈ ts, t.Status = TaskStatusCompleted := by
  induction ts with
  | nil => simp [allDone]
  | cons a rest ih =>
    by_cases ha : a.Status = TaskStatusCompleted
    · simp [allDone, ha, ih]
    · simp [allDone, ha]

theorem allDone_findIdle (ts : List Task) (h : allDone ts = true) : findIdle ts 0 = none := by
  rw [findIdle_none]
  intro t ht
  have := (allDone_iff ts).1 h t ht
  rw [this]; decide

end coordinator

/-! ## The scan of `GetTask` -/

namespace coordinator

open common

theorem MarkedJob.jobRefl (j : Job) : MarkedJob j j := Or.inl rfl

theorem Marked.stateRefl (c : Coordinator) : Marked c c := by
  refine ⟨rfl, rfl, rfl, ?_⟩
  intro k
  cases h : jobsGet c.jobs k with
  | none => exact Or.inl ⟨rfl, rfl⟩
  | some j => exact Or.inr ⟨j, j, rfl, rfl, MarkedJob.jobRefl j⟩

theorem MarkedJob.jobTrans {a b d : Job} (h1 : MarkedJob a b) (h2 : MarkedJob b d) :
    MarkedJob a d := by
  rcases h1 with h1 | ⟨h1, h1a, h1b, h1c, h1d⟩
  · subst h1; exact h2
  · rcases h2 with h2 | ⟨h2, h2a, _⟩
    · subst h2; exact Or.inr ⟨h1, h1a, h1b, h1c, h1d⟩
    · subst h1; simp at h2a

theorem Marked.stateTrans {a b d : Coordinator} (h1 : Marked a b) (h2 : Marked b d) :
    Marked a d := by
  obtain ⟨n1, w1, k1, g1⟩ := h1
  obtain ⟨n2, w2, k2, g2⟩ := h2
  refine ⟨n2.trans n1, w2.trans w1, k2.trans k1, ?_⟩
  intro k
  rcases g1 k with ⟨ha, hb⟩ | ⟨j, j1, ha, hb, hm⟩
  · rcases g2 k with ⟨hb2, hd⟩ | ⟨j2, j3, hb2, _, _⟩
    · exact Or.inl ⟨ha, hd⟩
    · rw [hb] at hb2; simp at hb2
  · rcases g2 k with ⟨hb2, _⟩ | ⟨j2, j3, hb2, hd, hm2⟩
    · rw [hb] at hb2; simp at hb2
    · rw [hb] at hb2
      simp at hb2; subst hb2
      exact Or.inr ⟨j, j3, ha, hd, hm.jobTrans hm2⟩

theorem Marked.markOne (c : Coordinator) (k : Int) (job : Job)
    (hj : jobsGet c.jobs k = some job)
    (hs1 : job.Status ≠ "COMPLETED") (hs2 : job.Status ≠ "FAILED")
    (hm : allDone job.MapTasks = true) (hr : allDone job.ReduceTasks = true) :
    Marked c { c with jobs := jobsSet c.jobs k { job with Status := "COMPLETED" } } := by
  refine ⟨rfl, rfl, jobsKeys_jobsSet_of_some _ _ _ _ hj, ?_⟩
  intro k2
  by_cases h : k2 = k
  · subst h
    exact Or.inr ⟨job, _, hj, jobsGet_jobsSet_self _ _ _, Or.inr ⟨rfl, hs1, hs2, hm, hr⟩⟩
  · simp only [jobsGet_jobsSet_ne _ _ _ _ h]
    cases h2 : jobsGet c.jobs k2 with
    | none => exact Or.inl ⟨rfl, rfl⟩
    | some j => exact Or.inr ⟨j, j, rfl, rfl, MarkedJob.jobRefl j⟩

theorem GetTaskSpec.skip {c : Coordinator} {k : Int} {rest : List Int} {args : TaskArgs}
    {reply : TaskReply} {now now2 : Nat} {r : GetTaskResult}
    (h : GetTaskSpec c rest args reply now now2 r)
    (hk : ∀ job, jobsGet c.jobs k = some job → NotAssignable job) :
    GetTaskSpec c (k :: rest) args reply now now2 r := by
  rcases h with ⟨he, hr, hm, hall⟩ | ⟨pre, k1, post, cm, job, i, task, ho, hpre, hrest⟩
  · refine Or.inl ⟨he, hr, hm, ?_⟩
    intro k2 hk2 job hjob
    rcases List.mem_cons.1 hk2 with h | h
    · subst h; exact hk job hjob
    · exact hall k2 h job hjob
  · refine Or.inr ⟨k :: pre, k1, post, cm, job, i, task, by simp [ho], ?_, hrest⟩
    intro k2 hk2 job2 hjob2
    rcases List.mem_cons.1 hk2 with h | h
    · subst h; exact hk job2 hjob2
    · exact hpre k2 h job2 hjob2

theorem GetTaskSpec.skipMarked {c : Coordinator} {k : Int} {rest : List Int} {args : TaskArgs}
    {reply : TaskReply} {now now2 : Nat} {r : GetTaskResult} {job : Job}
    (hj : jobsGet c.jobs k = some job)
    (hs1 : job.Status ≠ "COMPLETED") (hs2 : job.Status ≠ "FAILED")
    (hm : allDone job.MapTasks = true) (hr : allDone job.ReduceTasks = true)
    (h : GetTaskSpec { c with jobs := jobsSet c.jobs k { job with Status := "COMPLETED" } }
          rest args reply now now2 r) :
    GetTaskSpec c (k :: rest) args reply now now2 r := by
  have hmk := Marked.markOne c k job hj hs1 hs2 hm hr
  have hna : NotAssignable job :=
    Or.inr (Or.inr ⟨allDone_findIdle _ hm, Or.inr (allDone_findIdle _ hr)⟩)
  have back : ∀ k2 job2, jobsGet c.jobs k2 = some job2 →
      (∀ job3, jobsGet (jobsSet c.jobs k { job with Status := "COMPLETED" }) k2 = some job3 →
        NotAssignable job3) → NotAssignable job2 := by
    intro k2 job2 h2 h3
    by_cases hk : k2 = k
    · subst hk; rw [hj] at h2; simp at h2; subst h2; exact hna
    · rw [jobsGet_jobsSet_ne _ _ _ _ hk] at h3
      exact h3 job2 h2
  rcases h with ⟨he, hrep, hmr, hall⟩ | ⟨pre, k1, post, cm, job1, i, task, ho, hpre, hmc, hj1, hrest⟩
  · refine Or.inl ⟨he, hrep, hmk.stateTrans hmr, ?_⟩
    intro k2 hk2 job2 hjob2
    rcases List.mem_cons.1 hk2 with h | h
    · subst h; rw [hj] at hjob2; simp at hjob2; subst hjob2; exact hna
    · exact back k2 job2 hjob2 (fun job3 h3 => hall k2 h job3 h3)
  · have hne : k1 ≠ k := by
      intro h; subst h
      rw [show ({ c with jobs := jobsSet c.jobs k1 { job with Status := "COMPLETED" } } :
        Coordinator).jobs = jobsSet c.jobs k1 { job with Status := "COMPLETED" } from rfl,
        jobsGet_jobsSet_self] at hj1
      simp at hj1
      obtain ⟨_, hs, _⟩ := hrest
      rw [← hj1] at hs; simp at hs
    refine Or.inr ⟨k :: pre, k1, post, cm, job1, i, task, by simp [ho], ?_, hmk.stateTrans hmc, ?_,
      hrest⟩
    · intro k2 hk2 job2 hjob2
      rcases List.mem_cons.1 hk2 with h | h
      · subst h; rw [hj] at hjob2; simp at hjob2; subst hjob2; exact hna
      · exact back k2 job2 hjob2 (fun job3 h3 => hpre k2 h job3 h3)
    · have := hj1
      rw [show ({ c with jobs := jobsSet c.jobs k { job with Status := "COMPLETED" } } :
        Coordinator).jobs = jobsSet c.jobs k { job with Status := "COMPLETED" } from rfl,
        jobsGet_jobsSet_ne _ _ _ _ hne] at this
      exact this

theorem GetTask_spec (order : List Int) : ∀ (c : Coordinator) (args : TaskArgs)
    (reply : TaskReply) (now now2 : Nat),
    GetTaskSpec c order args reply now now2 (GetTask c order args reply now now2) := by
  induction order with
  | nil =>
    intro c args reply now now2
    exact Or.inl ⟨rfl, rfl, Marked.stateRefl c, by simp⟩
  | cons k rest ih =>
    intro c args reply now now2
    rw [GetTask]
    cases hj : jobsGet c.jobs k with
    | none =>
      simp only
      exact (ih c args reply now now2).skip (by intro job h; rw [hj] at h; simp at h)
    | some job =>
      simp only
      have hjob : ∀ job2, jobsGet c.jobs k = some job2 → job2 = job := by
        intro job2 h; rw [hj] at h; simp at h; exact h.symm
      by_cases hs : job.Status = "COMPLETED" ∨ job.Status = "FAILED"
      · rw [if_pos hs]
        refine (ih c args reply now now2).skip ?_
        intro job2 h; rw [hjob job2 h]
        rcases hs with hs | hs
        · exact Or.inl hs
        · exact Or.inr (Or.inl hs)
      · rw [if_neg hs]
        have hs1 : job.Status ≠ "COMPLETED" := fun h => hs (Or.inl h)
        have hs2 : job.Status ≠ "FAILED" := fun h => hs (Or.inr h)
        cases hm : findIdle job.MapTasks 0 with
        | some p =>
          obtain ⟨i, task⟩ := p
          simp only
          exact Or.inr ⟨[], k, rest, c, job, i, task, rfl, by simp, Marked.stateRefl c, hj, hj,
            hs1, hs2, Or.inl ⟨hm, rfl⟩⟩
        | none =>
          simp only
          by_cases hd : allDone job.MapTasks = false
          · rw [if_pos hd]
            refine (ih c args reply now now2).skip ?_
            intro job2 h; rw [hjob job2 h]
            exact Or.inr (Or.inr ⟨hm, Or.inl hd⟩)
          · rw [if_neg hd]
            have hd1 : allDone job.MapTasks = true := by simpa using hd
            cases hr : findIdle job.ReduceTasks 0 with
            | some p =>
              obtain ⟨i, task⟩ := p
              simp only
              exact Or.inr ⟨[], k, rest, c, job, i, task, rfl, by simp, Marked.stateRefl c, hj, hj,
                hs1, hs2, Or.inr ⟨hm, hd1, hr, rfl⟩⟩
            | none =>
              simp only
              by_cases hrd : allDone job.ReduceTasks = true
              · rw [if_pos hrd]
                exact GetTaskSpec.skipMarked hj hs1 hs2 hd1 hrd (ih _ args reply now now2)
              · rw [if_neg hrd]
                refine (ih c args reply now now2).skip ?_
                intro job2 h; rw [hjob job2 h]
                exact Or.inr (Or.inr ⟨hm, Or.inr hr⟩)

end coordinator

/-! ## The invariant of the reachable states -/

namespace coordinator

open common

theorem getElem?_initMapTasks (files : List String) (i : Nat) :
    (initMapTasks files)[i]? = (files[i]?).map fun f =>
      { Task.zero with ID := (i : Int), Typ := TaskTypeMap, Status := TaskStatusIdle,
                       FileName := f } := by
  unfold initMapTasks
  rw [List.getElem?_map, List.getElem?_enum]
  cases files[i]? <;> rfl

theorem getElem?_initReduceTasks (nReduce : Int) (i : Nat) :
    (initReduceTasks nReduce)[i]? = if i < nReduce.toNat then
      some { Task.zero with ID := (i : Int), Typ := TaskTypeReduce, Status := TaskStatusIdle }
      else none := by
  unfold initReduceTasks
  rw [List.getElem?_map]
  by_cases h : i < nReduce.toNat
  · rw [List.getElem?_range h, if_pos h]; rfl
  · rw [if_neg h, List.getElem?_eq_none (by simpa using h)]; rfl

theorem length_initMapTasks (files : List String) :
    (initMapTasks files).length = files.length := by
  simp [initMapTasks, List.enum_length]

theorem length_initReduceTasks (nReduce : Int) :
    (initReduceTasks nReduce).length = nReduce.toNat := by
  simp [initReduceTasks]

theorem status_initMapTasks (files : List String) :
    ∀ t ∈ initMapTasks files, t.Status = TaskStatusIdle := by
  intro t ht
  obtain ⟨i, hi⟩ := List.mem_iff_getElem?.1 ht
  rw [getElem?_initMapTasks] at hi
  cases hf : files[i]? with
  | none => rw [hf] at hi; simp at hi
  | some f => rw [hf] at hi; simp at hi; rw [← hi]

theorem status_initReduceTasks (nReduce : Int) :
    ∀ t ∈ initReduceTasks nReduce, t.Status = TaskStatusIdle := by
  intro t ht
  obtain ⟨i, hi⟩ := List.mem_iff_getElem?.1 ht
  rw [getElem?_initReduceTasks] at hi
  by_cases h : i < nReduce.toNat
  · rw [if_pos h] at hi; simp at hi; rw [← hi]
  · rw [if_neg h] at hi; simp at hi

theorem JobOK.submitted (k : Int) (files : List String) (nReduce : Int) (now : Nat) :
    JobOK k { ID := k, Files := files, NReduce := nReduce, MapTasks := initMapTasks files,
              ReduceTasks := initReduceTasks nReduce, StartTime := now,
              Status := "IN_PROGRESS" } := by
  refine ⟨rfl, ?_, ?_, length_initMapTasks files, ?_, length_initReduceTasks nReduce,
    Or.inl rfl, ?_⟩
  · intro i t h
    simp only [getElem?_initMapTasks] at h
    cases hf : files[i]? with
    | none => rw [hf] at h; simp at h
    | some f => rw [hf] at h; simp at h; rw [← h]
  · intro i t h
    simp only [getElem?_initReduceTasks] at h
    by_cases hi : i < nReduce.toNat
    · rw [if_pos hi] at h; simp at h; rw [← h]
    · rw [if_neg hi] at h; simp at h
  · intro i t h
    simp only [getElem?_initMapTasks] at h
    cases hf : files[i]? with
    | none => rw [hf] at h; simp at h
    | some f => rw [hf] at h; simp at h; rw [← h]
  · intro h; simp at h

theorem JobOK.ofMarkedJob {k : Int} {j j1 : Job} (h : JobOK k j) (hm : MarkedJob j j1) :
    JobOK k j1 := by
  rcases hm with hm | ⟨hm, _, _, hmaps, hreds⟩
  · subst hm; exact h
  · subst hm
    exact ⟨h.id_eq, h.map_ids, h.red_ids, h.map_len, h.map_file, h.red_len, Or.inr rfl,
      fun _ => ⟨(allDone_iff _).1 hmaps, (allDone_iff _).1 hreds⟩⟩

theorem JobOK.assignMap {k : Int} {job : Job} {i : Nat} {task : Task} (w : String) (now : Nat)
    (h : JobOK k job) (hs : job.Status ≠ "COMPLETED")
    (hf : findIdle job.MapTasks 0 = some (i, task)) :
    JobOK k { job with MapTasks := assign job.MapTasks i task w now } := by
  obtain ⟨_, hget, _, _⟩ := findIdle_some _ _ _ _ hf
  simp only [Nat.sub_zero] at hget
  refine ⟨h.id_eq, ?_, h.red_ids, ?_, ?_, h.red_len, h.status, fun hc => absurd hc hs⟩
  · intro j t ht
    simp only [assign, List.getElem?_set] at ht
    by_cases hij : i = j
    · subst hij
      rw [if_pos rfl] at ht
      by_cases hl : i < job.MapTasks.length
      · rw [if_pos hl] at ht; simp at ht; rw [← ht]; exact h.map_ids i task hget
      · rw [if_neg hl] at ht; simp at ht
    · rw [if_neg hij] at ht; exact h.map_ids j t ht
  · simp only [assign, List.length_set]; exact h.map_len
  · intro j t ht
    simp only [assign, List.getElem?_set] at ht
    by_cases hij : i = j
    · subst hij
      rw [if_pos rfl] at ht
      by_cases hl : i < job.MapTasks.length
      · rw [if_pos hl] at ht; simp at ht; rw [← ht]; exact h.map_file i task hget
      · rw [if_neg hl] at ht; simp at ht
    · rw [if_neg hij] at ht; exact h.map_file j t ht

theorem JobOK.assignReduce {k : Int} {job : Job} {i : Nat} {task : Task} (w : String)
    (now : Nat) (h : JobOK k job) (hs : job.Status ≠ "COMPLETED")
    (hf : findIdle job.ReduceTasks 0 = some (i, task)) :
    JobOK k { job with ReduceTasks := assign job.ReduceTasks i task w now } := by
  obtain ⟨_, hget, _, _⟩ := findIdle_some _ _ _ _ hf
  simp only [Nat.sub_zero] at hget
  refine ⟨h.id_eq, h.map_ids, ?_, h.map_len, h.map_file, ?_, h.status, fun hc => absurd hc hs⟩
  · intro j t ht
    simp only [assign, List.getElem?_set] at ht
    by_cases hij : i = j
    · subst hij
      rw [if_pos rfl] at ht
      by_cases hl : i < job.ReduceTasks.length
      · rw [if_pos hl] at ht; simp at ht; rw [← ht]; exact h.red_ids i task hget
      · rw [if_neg hl] at ht; simp at ht
    · rw [if_neg hij] at ht; exact h.red_ids j t ht
  · simp only [assign, List.length_set]; exact h.red_len

theorem JobOK.complete {k : Int} {job : Job} {i : Nat} {task : Task} (taskType : Int)
    (h : JobOK k job) (hget : (tasksOf job taskType)[i]? = some task) :
    JobOK k (complete job taskType i task) := by
  unfold tasksOf at hget
  unfold coordinator.complete
  by_cases ht : taskType = TaskTypeMap
  · rw [if_pos ht] at hget ⊢
    refine ⟨h.id_eq, ?_, h.red_ids, ?_, ?_, h.red_len, h.status, ?_⟩
    · intro j t htj
      simp only [List.getElem?_set] at htj
      by_cases hij : i = j
      · subst hij
        rw [if_pos rfl] at htj
        by_cases hl : i < job.MapTasks.length
        · rw [if_pos hl] at htj; simp at htj; rw [← htj]; exact h.map_ids i task hget
        · rw [if_neg hl] at htj; simp at htj
      · rw [if_neg hij] at htj; exact h.map_ids j t htj
    · simp only [List.length_set]; exact h.map_len
    · intro j t htj
      simp only [List.getElem?_set] at htj
      by_cases hij : i = j
      · subst hij
        rw [if_pos rfl] at htj
        by_cases hl : i < job.MapTasks.length
        · rw [if_pos hl] at htj; simp at htj; rw [← htj]; exact h.map_file i task hget
        · rw [if_neg hl] at htj; simp at htj
      · rw [if_neg hij] at htj; exact h.map_file j t htj
    · intro hc
      refine ⟨?_, (h.completed hc).2⟩
      intro t hmem
      rcases List.mem_or_eq_of_mem_set hmem with hm | hm
      · exact (h.completed hc).1 t hm
      · rw [hm]
  · rw [if_neg ht] at hget ⊢
    refine ⟨h.id_eq, h.map_ids, ?_, h.map_len, h.map_file, ?_, h.status, ?_⟩
    · intro j t htj
      simp only [List.getElem?_set] at htj
      by_cases hij : i = j
      · subst hij
        rw [if_pos rfl] at htj
        by_cases hl : i < job.ReduceTasks.length
        · rw [if_pos hl] at htj; simp at htj; rw [← htj]; exact h.red_ids i task hget
        · rw [if_neg hl] at htj; simp at htj
      · rw [if_neg hij] at htj; exact h.red_ids j t htj
    · simp only [List.length_set]; exact h.red_len
    · intro hc
      refine ⟨(h.completed hc).1, ?_⟩
      intro t hmem
      rcases List.mem_or_eq_of_mem_set hmem with hm | hm
      · exact (h.completed hc).2 t hm
      · rw [hm]

theorem Inv.init : Inv NewCoordinator :=
  ⟨le_refl _, rfl, by intro k job h; simp [NewCoordinator, jobsGet] at h⟩

theorem Inv.get_none {c : Coordinator} (h : Inv c) : jobsGet c.jobs c.nextJob = none := by
  rw [jobsGet_eq_none_iff, h.keys]
  intro hmem
  obtain ⟨n, hn, he⟩ := List.mem_map.1 hmem
  have hlt := List.mem_range.1 hn
  have := Int.toNat_of_nonneg h.next_nonneg
  have he2 : (n : Int) = c.nextJob := he
  omega

theorem Inv.submit {c : Coordinator} (h : Inv c) (files : List String) (nReduce : Int)
    (now : Nat) : Inv (SubmitJob c files nReduce now).1 := by
  refine ⟨?_, ?_, ?_⟩
  · have := h.next_nonneg
    show 0 ≤ c.nextJob + 1
    omega
  · show jobsKeys (jobsSet c.jobs c.nextJob _) = List.map Int.ofNat (List.range (c.nextJob + 1).toNat)
    rw [jobsKeys_jobsSet_of_none _ _ _ h.get_none, h.keys]
    have h1 : (c.nextJob + 1).toNat = c.nextJob.toNat + 1 :=
      Int.toNat_add_nat h.next_nonneg 1
    rw [h1, List.range_succ, List.map_append]
    simp [Int.toNat_of_nonneg h.next_nonneg]
  · intro k job hk
    have hk2 : jobsGet (jobsSet c.jobs c.nextJob _) k = some job := hk
    rw [jobsGet_jobsSet] at hk2
    by_cases hkn : k = c.nextJob
    · rw [if_pos hkn] at hk2
      simp at hk2
      rw [← hk2, hkn]
      exact JobOK.submitted _ _ _ _
    · rw [if_neg hkn] at hk2
      exact h.jobs_ok k job hk2

theorem Inv.ofMarked {c c1 : Coordinator} (h : Inv c) (hm : Marked c c1) : Inv c1 := by
  obtain ⟨hn, _, hk, hg⟩ := hm
  refine ⟨by rw [hn]; exact h.next_nonneg, by rw [hk, hn]; exact h.keys, ?_⟩
  intro k job hjob
  rcases hg k with ⟨_, hb⟩ | ⟨j, j1, ha, hb, hmj⟩
  · rw [hb] at hjob; simp at hjob
  · rw [hb] at hjob; simp at hjob; subst hjob
    exact (h.jobs_ok k j ha).ofMarkedJob hmj

theorem Inv.set {c : Coordinator} (h : Inv c) (k : Int) (job job1 : Job)
    (hj : jobsGet c.jobs k = some job) (hok : JobOK k job1) :
    Inv { c with jobs := jobsSet c.jobs k job1 } := by
  refine ⟨h.next_nonneg, ?_, ?_⟩
  · show jobsKeys (jobsSet c.jobs k job1) = _
    rw [jobsKeys_jobsSet_of_some _ _ _ _ hj]; exact h.keys
  · intro k2 job2 h2
    have h3 : jobsGet (jobsSet c.jobs k job1) k2 = some job2 := h2
    rw [jobsGet_jobsSet] at h3
    by_cases hk : k2 = k
    · rw [if_pos hk] at h3; simp at h3; rw [← h3, hk]; exact hok
    · rw [if_neg hk] at h3; exact h.jobs_ok k2 job2 h3

theorem Inv.getTask {c : Coordinator} (h : Inv c) (order : List Int) (args : TaskArgs)
    (reply : TaskReply) (now now2 : Nat) : Inv (GetTask c order args reply now now2).c := by
  rcases GetTask_spec order c args reply now now2 with
    ⟨_, _, hm, _⟩ | ⟨pre, k, post, cm, job, i, task, _, _, hm, _, hj, hs1, _, hcase⟩
  · exact h.ofMarked hm
  · have hcm := h.ofMarked hm
    rcases hcase with ⟨hf, hr⟩ | ⟨_, _, hf, hr⟩
    · rw [hr]
      exact hcm.set k job _ hj ((hcm.jobs_ok k job hj).assignMap _ _ hs1 hf)
    · rw [hr]
      exact hcm.set k job _ hj ((hcm.jobs_ok k job hj).assignReduce _ _ hs1 hf)

theorem Inv.report {c : Coordinator} (h : Inv c) (args : ReportTaskArgs)
    (reply : ReportTaskReply) : Inv (ReportTask c args reply).c := by
  unfold ReportTask
  cases hj : jobsGet c.jobs args.JobID with
  | none => exact h
  | some job =>
    simp only
    split
    · exact h
    · cases ht : (tasksOf job args.TaskType)[args.TaskID.toNat]? with
      | none => exact h
      | some task =>
        simp only
        split
        · exact h.set _ job _ hj ((h.jobs_ok _ job hj).complete _ ht)
        · exact h

theorem jobsKeys_GetTask (c : Coordinator) (order : List Int) (args : TaskArgs)
    (reply : TaskReply) (now now2 : Nat) :
    jobsKeys (GetTask c order args reply now now2).c.jobs = jobsKeys c.jobs := by
  rcases GetTask_spec order c args reply now now2 with
    ⟨_, _, hm, _⟩ | ⟨pre, k, post, cm, job, i, task, _, _, hm, _, hj, _, _, hcase⟩
  · exact hm.2.2.1
  · rcases hcase with ⟨_, hr⟩ | ⟨_, _, _, hr⟩
    · rw [hr]
      show jobsKeys (jobsSet cm.jobs k _) = _
      rw [jobsKeys_jobsSet_of_some _ _ _ _ hj]; exact hm.2.2.1
    · rw [hr]
      show jobsKeys (jobsSet cm.jobs k _) = _
      rw [jobsKeys_jobsSet_of_some _ _ _ _ hj]; exact hm.2.2.1

theorem jobsKeys_ReportTask (c : Coordinator) (args : ReportTaskArgs)
    (reply : ReportTaskReply) :
    jobsKeys (ReportTask c args reply).c.jobs = jobsKeys c.jobs := by
  unfold ReportTask
  cases hj : jobsGet c.jobs args.JobID with
  | none => rfl
  | some job =>
    simp only
    split
    · rfl
    · cases ht : (tasksOf job args.TaskType)[args.TaskID.toNat]? with
      | none => rfl
      | some task =>
        simp only
        split
        · exact jobsKeys_jobsSet_of_some _ _ _ _ hj
        · rfl

theorem jobsKeys_iteration (c : Coordinator) (order : List Int) (w : String)
    (now now2 : Nat) :
    jobsKeys (worker.iteration c order w now now2).1.jobs = jobsKeys c.jobs := by
  unfold worker.iteration
  simp only
  split
  · simp only [jobsKeys_ReportTask, jobsKeys_GetTask]
  · simp only [jobsKeys_GetTask]

theorem Reachable.iteration {c : Coordinator} (h : Reachable c) (order : List Int)
    (w : String) (now now2 : Nat) (hp : order.Perm (jobsKeys c.jobs)) :
    Reachable (worker.iteration c order w now now2).1 := by
  unfold worker.iteration
  simp only
  split
  · exact Reachable.report _ _ _ (Reachable.getTask _ _ _ _ _ _ h hp)
  · exact Reachable.getTask _ _ _ _ _ _ h hp

theorem Reachable.iterations (order : List Int) (w : String) (now : Nat) (n : Nat) :
    ∀ {c : Coordinator}, Reachable c → order.Perm (jobsKeys c.jobs) →
      Reachable (worker.iterations order w now n c) := by
  induction n with
  | zero => intro c h _; exact h
  | succ n ih =>
    intro c h hp
    exact ih (h.iteration order w now now hp) (by rw [jobsKeys_iteration]; exact hp)

theorem Reachable.inv {c : Coordinator} (h : Reachable c) : Inv c := by
  induction h with
  | init => exact Inv.init
  | submit c files nReduce now _ ih => exact ih.submit files nReduce now
  | getTask c order args reply now now2 _ _ ih => exact ih.getTask order args reply now now2
  | report c args reply _ ih => exact ih.report args reply

theorem reachable_exTwoByTwo : Reachable exTwoByTwo :=
  Reachable.submit _ _ _ _ Reachable.init

theorem reachable_exMapsReported : Reachable exMapsReported :=
  Reachable.iterations [0] "w1" 1 2 reachable_exTwoByTwo (List.Perm.refl _)

theorem reachable_exAllReported : Reachable exAllReported :=
  Reachable.iterations [0] "w1" 1 4 reachable_exTwoByTwo (List.Perm.refl _)

theorem reachable_exCompleted : Reachable exCompleted :=
  Reachable.getTask _ _ _ _ _ _ reachable_exAllReported (List.Perm.refl _)

theorem reachable_exStalled : Reachable exStalled :=
  Reachable.getTask _ _ _ _ _ _ (Reachable.submit _ _ _ _ Reachable.init) (List.Perm.refl _)

end coordinator

/-! ## Phase gating and assignment -/

namespace coordinator

open common

theorem getElem?_assign_self (ts : List Task) (i : Nat) (task t : Task) (w : String)
    (now : Nat) (h : ts[i]? = some t) :
    (assign ts i task w now)[i]? =
      some { task with Status := TaskStatusInProgress, WorkerID := w, StartTime := now } := by
  obtain ⟨hl, _⟩ := List.getElem?_eq_some.1 h
  simp [assign, List.getElem?_set, hl]

/-- C1 (phase gating).  Whenever `GetTask` answers with a REDUCE assignment, the reply
names a stored job that was visited, all of whose map tasks had status COMPLETED in the
state before the call, and it is a reduce task of that job that the call has marked
as handed out; where every stored job carries its own key as `ID`, this is the job
stored under the `JobID` of the reply.  States, visiting orders, workers, fan-outs and
partition counts are arbitrary. -/
theorem GetTask_reduce_only_after_maps (c : Coordinator) (order : List Int) (args : TaskArgs)
    (reply : TaskReply) (now now2 : Nat)
    (h : (GetTask c order args reply now now2).reply.TaskType = TaskTypeReduce) :
    (∃ (k : Int) (job : Job) (i : Nat) (task : Task),
        k ∈ order ∧ jobsGet c.jobs k = some job ∧
        job.ID = (GetTask c order args reply now now2).reply.JobID ∧
        (∀ t ∈ job.MapTasks, t.Status = TaskStatusCompleted) ∧
        job.ReduceTasks[i]? = some task ∧
        task.ID = (GetTask c order args reply now now2).reply.TaskID ∧
        jobsGet (GetTask c order args reply now now2).c.jobs k =
          some { job with ReduceTasks := assign job.ReduceTasks i task args.WorkerID now }) ∧
    ((∀ (k : Int) (job : Job), jobsGet c.jobs k = some job → job.ID = k) →
      ∀ job : Job, jobsGet c.jobs (GetTask c order args reply now now2).reply.JobID = some job →
        ∀ t ∈ job.MapTasks, t.Status = TaskStatusCompleted) := by
  have key : ∃ (k : Int) (job : Job) (i : Nat) (task : Task),
        k ∈ order ∧ jobsGet c.jobs k = some job ∧
        job.ID = (GetTask c order args reply now now2).reply.JobID ∧
        (∀ t ∈ job.MapTasks, t.Status = TaskStatusCompleted) ∧
        job.ReduceTasks[i]? = some task ∧
        task.ID = (GetTask c order args reply now now2).reply.TaskID ∧
        jobsGet (GetTask c order args reply now now2).c.jobs k =
          some { job with ReduceTasks := assign job.ReduceTasks i task args.WorkerID now } := by
    rcases GetTask_spec order c args reply now now2 with
      ⟨_, hr, _, _⟩ | ⟨pre, k, post, cm, job, i, task, ho, _, _, hj, _, _, _, hcase⟩
    · rw [hr] at h; simp at h
    · rcases hcase with ⟨_, hr⟩ | ⟨_, hd, hf, hr⟩
      · rw [hr] at h; simp [mapOutcome] at h
      · obtain ⟨_, hget, _, _⟩ := findIdle_some _ _ _ _ hf
        simp only [Nat.sub_zero] at hget
        refine ⟨k, job, i, task, by simp [ho], hj, ?_, (allDone_iff _).1 hd, hget, ?_, ?_⟩
        · rw [hr]; rfl
        · rw [hr]; rfl
        · rw [hr]; exact jobsGet_jobsSet_self _ _ _
  refine ⟨key, ?_⟩
  intro hwf job hjob
  obtain ⟨k, job1, _, _, _, hj, hid, hall, _⟩ := key
  have hk : k = (GetTask c order args reply now now2).reply.JobID := by
    rw [← hid]; exact (hwf k job1 hj).symm
  rw [← hk, hj] at hjob
  simp at hjob; subst hjob
  exact hall

/-- Witness of C1: in `exMapsReported` (both map tasks of the job COMPLETED) the next
`GetTask` hands out a reduce task. -/
theorem GetTask_reduce_only_after_maps_witness :
    (GetTask exMapsReported [0] { WorkerID := "w2" } TaskReply.zero 5 5).reply.TaskType
        = TaskTypeReduce ∧
    ∀ job : Job, jobsGet exMapsReported.jobs
        (GetTask exMapsReported [0] { WorkerID := "w2" } TaskReply.zero 5 5).reply.JobID
          = some job →
      ∀ t ∈ job.MapTasks, t.Status = TaskStatusCompleted :=
  ⟨by decide,
   (GetTask_reduce_only_after_maps exMapsReported [0] { WorkerID := "w2" } TaskReply.zero 5 5
      (by decide)).2 (fun k job hj => (reachable_exMapsReported.inv.jobs_ok k job hj).id_eq)⟩

end coordinator

namespace coordinator

open common

/-- C2 (no duplicate assignment).  In a reachable state, when `GetTask` answers with a
MAP or a REDUCE assignment, the task that the reply names (job `JobID`, phase
`TaskType`, index `TaskID`) is stored, and its status before the call was IDLE, hence
neither IN_PROGRESS nor COMPLETED; after the call that task is IN_PROGRESS and held by
the requesting worker. -/
theorem GetTask_assigns_only_idle (c : Coordinator) (hc : Reachable c) (order : List Int)
    (args : TaskArgs) (reply : TaskReply) (now now2 : Nat)
    (h : (GetTask c order args reply now now2).reply.TaskType = TaskTypeMap ∨
         (GetTask c order args reply now now2).reply.TaskType = TaskTypeReduce) :
    ∃ (job : Job) (task : Task),
      jobsGet c.jobs (GetTask c order args reply now now2).reply.JobID = some job ∧
      0 ≤ (GetTask c order args reply now now2).reply.TaskID ∧
      (tasksOf job (GetTask c order args reply now now2).reply.TaskType)[
          (GetTask c order args reply now now2).reply.TaskID.toNat]? = some task ∧
      task.Status = TaskStatusIdle ∧
      task.Status ≠ TaskStatusInProgress ∧ task.Status ≠ TaskStatusCompleted ∧
      ∃ job1 : Job,
        jobsGet (GetTask c order args reply now now2).c.jobs
          (GetTask c order args reply now now2).reply.JobID = some job1 ∧
        (tasksOf job1 (GetTask c order args reply now now2).reply.TaskType)[
            (GetTask c order args reply now now2).reply.TaskID.toNat]? =
          some { task with Status := TaskStatusInProgress, WorkerID := args.WorkerID,
                           StartTime := now } := by
  have hinv := hc.inv
  rcases GetTask_spec order c args reply now now2 with
    ⟨_, hr, _, _⟩ | ⟨pre, k, post, cm, job, i, task, ho, _, _, hj, _, _, _, hcase⟩
  · rw [hr] at h; simp at h
  · have hok := hinv.jobs_ok k job hj
    rcases hcase with ⟨hf, hr⟩ | ⟨_, _, hf, hr⟩
    · obtain ⟨_, hget, hidle, _⟩ := findIdle_some _ _ _ _ hf
      simp only [Nat.sub_zero] at hget
      have hid := hok.map_ids i task hget
      rw [hr]
      simp only [mapOutcome, hok.id_eq, hid, Int.toNat_ofNat, tasksOf, if_true]
      refine ⟨job, task, hj, Int.ofNat_nonneg i, hget, hidle, ?_, ?_, _,
        jobsGet_jobsSet_self _ _ _, ?_⟩
      · rw [hidle]; decide
      · rw [hidle]; decide
      · exact getElem?_assign_self _ _ _ _ _ _ hget
    · obtain ⟨_, hget, hidle, _⟩ := findIdle_some _ _ _ _ hf
      simp only [Nat.sub_zero] at hget
      have hid := hok.red_ids i task hget
      rw [hr]
      have hne : ¬ (TaskTypeReduce = TaskTypeMap) := by decide
      simp only [reduceOutcome, hok.id_eq, hid, Int.toNat_ofNat, tasksOf, if_neg hne]
      refine ⟨job, task, hj, Int.ofNat_nonneg i, hget, hidle, ?_, ?_, _,
        jobsGet_jobsSet_self _ _ _, ?_⟩
      · rw [hidle]; decide
      · rw [hidle]; decide
      · exact getElem?_assign_self _ _ _ _ _ _ hget

/-- Witness of C2: the first `GetTask` on `exTwoByTwo` hands out map task 0, idle
before the call. -/
theorem GetTask_assigns_only_idle_witness :
    Reachable exTwoByTwo ∧
    (GetTask exTwoByTwo [0] { WorkerID := "w1" } TaskReply.zero 1 1).reply.TaskType
      = TaskTypeMap ∧
    ∃ (job : Job) (task : Task),
      jobsGet exTwoByTwo.jobs
        (GetTask exTwoByTwo [0] { WorkerID := "w1" } TaskReply.zero 1 1).reply.JobID
          = some job ∧
      (tasksOf job (GetTask exTwoByTwo [0] { WorkerID := "w1" } TaskReply.zero 1 1).reply.TaskType)[
          (GetTask exTwoByTwo [0] { WorkerID := "w1" } TaskReply.zero 1 1).reply.TaskID.toNat]?
        = some task ∧
      task.Status = TaskStatusIdle := by
  refine ⟨reachable_exTwoByTwo, by decide, ?_⟩
  obtain ⟨job, task, h1, _, h3, h4, _⟩ :=
    GetTask_assigns_only_idle exTwoByTwo reachable_exTwoByTwo [0] { WorkerID := "w1" }
      TaskReply.zero 1 1 (Or.inl (by decide))
  exact ⟨job, task, h1, h3, h4⟩

/-- C3 (compare-and-set completion).  For a stored job and an in-range task ID of the
reported phase, `ReportTask` with a fresh reply returns no error, and returns
`Ack = true` exactly when the `WorkerID` recorded in the task is the reporting
worker's.  In that case the state is the old one with the status of that one task set
to COMPLETED; otherwise the state is unchanged and `Ack` stays false. -/
theorem ReportTask_compare_and_set (c : Coordinator) (args : ReportTaskArgs) (job : Job)
    (task : Task) (hj : jobsGet c.jobs args.JobID = some job) (h0 : 0 ≤ args.TaskID)
    (ht : (tasksOf job args.TaskType)[args.TaskID.toNat]? = some task) :
    (ReportTask c args { Ack := false }).err = none ∧
    ((ReportTask c args { Ack := false }).reply.Ack = true ↔
      task.WorkerID = args.WorkerID) ∧
    (task.WorkerID = args.WorkerID →
      (ReportTask c args { Ack := false }).c =
        { c with jobs := jobsSet c.jobs args.JobID
                          (complete job args.TaskType args.TaskID.toNat task) } ∧
      ∃ job1 : Job,
        jobsGet (ReportTask c args { Ack := false }).c.jobs args.JobID = some job1 ∧
        (tasksOf job1 args.TaskType)[args.TaskID.toNat]? =
          some { task with Status := TaskStatusCompleted } ∧
        (∀ i : Nat, i ≠ args.TaskID.toNat →
          (tasksOf job1 args.TaskType)[i]? = (tasksOf job args.TaskType)[i]?) ∧
        (∀ ty : Int, (ty = TaskTypeMap ↔ ¬ args.TaskType = TaskTypeMap) →
          tasksOf job1 ty = tasksOf job ty) ∧
        job1.Status = job.Status ∧ job1.ID = job.ID ∧ job1.Files = job.Files ∧
        job1.NReduce = job.NReduce ∧ job1.StartTime = job.StartTime) ∧
    (task.WorkerID ≠ args.WorkerID →
      (ReportTask c args { Ack := false }).c = c ∧
      (ReportTask c args { Ack := false }).reply.Ack = false) := by
  obtain ⟨hl, _⟩ := List.getElem?_eq_some.1 ht
  have hrange : ¬ (args.TaskID < 0 ∨ args.TaskID ≥ ((tasksOf job args.TaskType).length : Int)) := by
    have := Int.toNat_of_nonneg h0
    omega
  have hR : ReportTask c args { Ack := false } =
      if task.WorkerID = args.WorkerID then
        { c := { c with jobs := jobsSet c.jobs args.JobID
                          (complete job args.TaskType args.TaskID.toNat task) },
          reply := { Ack := true }, err := none }
      else { c := c, reply := { Ack := false }, err := none } := by
    unfold ReportTask
    simp only [hj, if_neg hrange, ht]
  rw [hR]
  by_cases hw : task.WorkerID = args.WorkerID
  · rw [if_pos hw]
    refine ⟨rfl, by simp [hw], ?_, fun hne => absurd hw hne⟩
    intro _
    refine ⟨rfl, complete job args.TaskType args.TaskID.toNat task,
      jobsGet_jobsSet_self _ _ _, ?_, ?_, ?_, ?_⟩
    · unfold tasksOf coordinator.complete at *
      by_cases hty : args.TaskType = TaskTypeMap
      · simp only [if_pos hty] at hl ⊢
        simp [List.getElem?_set, hl]
      · simp only [if_neg hty] at hl ⊢
        simp [List.getElem?_set, hl]
    · intro i hi
      unfold tasksOf coordinator.complete
      by_cases hty : args.TaskType = TaskTypeMap
      · simp only [if_pos hty]
        rw [List.getElem?_set_ne (fun h => hi h.symm)]
      · simp only [if_neg hty]
        rw [List.getElem?_set_ne (fun h => hi h.symm)]
    · intro ty hty
      unfold tasksOf coordinator.complete
      by_cases ha : args.TaskType = TaskTypeMap
      · have : ¬ ty = TaskTypeMap := fun h => (hty.1 h) ha
        simp only [if_pos ha, if_neg this]
      · have : ty = TaskTypeMap := hty.2 ha
        simp only [if_neg ha, if_pos this]
    · unfold coordinator.complete
      by_cases ha : args.TaskType = TaskTypeMap
      · simp only [if_pos ha, and_self]
      · simp only [if_neg ha, and_self]
  · rw [if_neg hw]
    exact ⟨rfl, by simp [hw], fun h => absurd h hw, fun _ => ⟨rfl, rfl⟩⟩

/-- Witness of C3: in `exStalled` map task 0 of job 0 is held by "w1"; a report by
"w2" is refused and changes nothing. -/
theorem ReportTask_compare_and_set_witness :
    (ReportTask exStalled { JobID := 0, TaskID := 0, TaskType := TaskTypeMap, WorkerID := "w2" }
        { Ack := false }).err = none ∧
    (ReportTask exStalled { JobID := 0, TaskID := 0, TaskType := TaskTypeMap, WorkerID := "w2" }
        { Ack := false }).c = exStalled ∧
    (ReportTask exStalled { JobID := 0, TaskID := 0, TaskType := TaskTypeMap, WorkerID := "w2" }
        { Ack := false }).reply.Ack = false :=
  have h := ReportTask_compare_and_set exStalled
    { JobID := 0, TaskID := 0, TaskType := TaskTypeMap, WorkerID := "w2" }
    { ID := 0, Files := ["f1"], NReduce := 1,
      MapTasks := [{ Task.zero with Status := TaskStatusInProgress, FileName := "f1",
                                    WorkerID := "w1" }],
      ReduceTasks := [{ Task.zero with Typ := TaskTypeReduce }],
      StartTime := 0, Status := "IN_PROGRESS" }
    { Task.zero with Status := TaskStatusInProgress, FileName := "f1", WorkerID := "w1" }
    (by decide) (by decide) (by decide)
  ⟨h.1, (h.2.2.2 (by decide)).1, (h.2.2.2 (by decide)).2⟩

end coordinator

/-! ## No liveness deadline -/

namespace coordinator

open common

theorem MarkedJob.tasks {j j1 : Job} (h : MarkedJob j j1) :
    j1.MapTasks = j.MapTasks ∧ j1.ReduceTasks = j.ReduceTasks := by
  rcases h with h | ⟨h, _⟩
  · subst h; exact ⟨rfl, rfl⟩
  · subst h; exact ⟨rfl, rfl⟩

theorem Marked.get {c c1 : Coordinator} (h : Marked c c1) {k : Int} {job : Job}
    (hj : jobsGet c.jobs k = some job) :
    ∃ job1 : Job, jobsGet c1.jobs k = some job1 ∧ MarkedJob job job1 := by
  rcases h.2.2.2 k with ⟨ha, _⟩ | ⟨j, j1, ha, hb, hm⟩
  · rw [hj] at ha; simp at ha
  · rw [hj] at ha; simp at ha; subst ha
    exact ⟨j1, hb, hm⟩

theorem getElem?_assign_keep (ts : List Task) (i j : Nat) (task t : Task) (w : String)
    (now : Nat) (hi : ts[i]? = some task) (hidle : task.Status = TaskStatusIdle)
    (hj : ts[j]? = some t) (hne : t.Status ≠ TaskStatusIdle) :
    (assign ts i task w now)[j]? = some t := by
  have hij : i ≠ j := by
    intro h; subst h
    rw [hi] at hj; simp at hj; subst hj
    exact hne hidle
  unfold assign
  rw [List.getElem?_set_ne hij]; exact hj

theorem GetTask_keeps_tasks (c : Coordinator) (order : List Int) (args : TaskArgs)
    (reply : TaskReply) (now now2 : Nat) (k : Int) (job : Job)
    (hj : jobsGet c.jobs k = some job) :
    ∃ job1 : Job, jobsGet (GetTask c order args reply now now2).c.jobs k = some job1 ∧
      (∀ (i : Nat) (t : Task), job.MapTasks[i]? = some t → t.Status ≠ TaskStatusIdle →
        job1.MapTasks[i]? = some t) ∧
      (∀ (i : Nat) (t : Task), job.ReduceTasks[i]? = some t → t.Status ≠ TaskStatusIdle →
        job1.ReduceTasks[i]? = some t) := by
  rcases GetTask_spec order c args reply now now2 with
    ⟨_, _, hm, _⟩ | ⟨pre, ka, post, cm, joba, i, task, _, _, hm, hja, hjm, _, _, hcase⟩
  · obtain ⟨job1, h1, hmj⟩ := hm.get hj
    refine ⟨job1, h1, ?_, ?_⟩
    · intro i t ht _; rw [hmj.tasks.1]; exact ht
    · intro i t ht _; rw [hmj.tasks.2]; exact ht
  · by_cases hk : k = ka
    · subst hk
      rw [hj] at hja; simp at hja; subst hja
      rcases hcase with ⟨hf, hr⟩ | ⟨_, _, hf, hr⟩
      · obtain ⟨_, hget, hidle, _⟩ := findIdle_some _ _ _ _ hf
        simp only [Nat.sub_zero] at hget
        rw [hr]
        refine ⟨_, jobsGet_jobsSet_self _ _ _, ?_, ?_⟩
        · intro j t ht hne
          exact getElem?_assign_keep _ _ _ _ _ _ _ hget hidle ht hne
        · intro j t ht _; exact ht
      · obtain ⟨_, hget, hidle, _⟩ := findIdle_some _ _ _ _ hf
        simp only [Nat.sub_zero] at hget
        rw [hr]
        refine ⟨_, jobsGet_jobsSet_self _ _ _, ?_, ?_⟩
        · intro j t ht _; exact ht
        · intro j t ht hne
          exact getElem?_assign_keep _ _ _ _ _ _ _ hget hidle ht hne
    · obtain ⟨job1, h1, hmj⟩ := hm.get hj
      have hsame : jobsGet (GetTask c order args reply now now2).c.jobs k = some job1 := by
        rcases hcase with ⟨_, hr⟩ | ⟨_, _, _, hr⟩
        · rw [hr]
          show jobsGet (jobsSet cm.jobs ka _) k = _
          rw [jobsGet_jobsSet_ne _ _ _ _ hk]; exact h1
        · rw [hr]
          show jobsGet (jobsSet cm.jobs ka _) k = _
          rw [jobsGet_jobsSet_ne _ _ _ _ hk]; exact h1
      refine ⟨job1, hsame, ?_, ?_⟩
      · intro i t ht _; rw [hmj.tasks.1]; exact ht
      · intro i t ht _; rw [hmj.tasks.2]; exact ht

theorem GetTask_blocked (order : List Int) (c : Coordinator) (args : TaskArgs)
    (reply : TaskReply) (now now2 : Nat)
    (h : ∀ k ∈ order, ∀ job : Job, jobsGet c.jobs k = some job → Blocked job) :
    GetTask c order args reply now now2 =
      { c := c, reply := { reply with TaskType := -1 }, err := none } := by
  induction order with
  | nil => rfl
  | cons k rest ih =>
    have ih1 := ih (fun k1 hk1 => h k1 (List.mem_cons_of_mem _ hk1))
    rw [GetTask]
    cases hj : jobsGet c.jobs k with
    | none => simp only; exact ih1
    | some job =>
      simp only
      rcases h k (List.mem_cons_self _ _) job hj with hb | hb | ⟨hb1, hb2⟩ | ⟨hb1, hb2, hb3⟩
      · rw [if_pos (Or.inl hb)]; exact ih1
      · rw [if_pos (Or.inr hb)]; exact ih1
      · by_cases hs : job.Status = "COMPLETED" ∨ job.Status = "FAILED"
        · rw [if_pos hs]; exact ih1
        · rw [if_neg hs, hb1]; simp only; rw [if_pos hb2]; exact ih1
      · by_cases hs : job.Status = "COMPLETED" ∨ job.Status = "FAILED"
        · rw [if_pos hs]; exact ih1
        · rw [if_neg hs, hb1]; simp only
          by_cases hd : allDone job.MapTasks = false
          · rw [if_pos hd]; exact ih1
          · rw [if_neg hd, hb2]; simp only
            rw [if_neg (by rw [hb3]; decide)]; exact ih1

theorem findIdle_none_of_busy (ts : List Task)
    (h : ∀ t ∈ ts, t.Status = TaskStatusInProgress ∨ t.Status = TaskStatusCompleted) :
    findIdle ts 0 = none := by
  rw [findIdle_none]
  intro t ht
  rcases h t ht with h1 | h1 <;> rw [h1] <;> decide

theorem allDone_false_of_mem (ts : List Task) (t : Task) (ht : t ∈ ts)
    (hs : t.Status = TaskStatusInProgress) : allDone ts = false := by
  cases hd : allDone ts with
  | false => rfl
  | true =>
    have := (allDone_iff ts).1 hd t ht
    rw [hs] at this
    exact absurd this (by decide)

/-- C4 as the code has it.  `GetTask` applies no liveness deadline: whatever the time
of the call and the `StartTime` of a task, every task that is not IDLE before the call
(so every IN_PROGRESS task) is the same task after it, with its status, holder and
`StartTime`; and when the only stored job has no IDLE map task and a map task that is
IN_PROGRESS, `GetTask` answers Wait to every worker and leaves the state as it was. -/
theorem GetTask_never_reverts (c : Coordinator) (order : List Int) (args : TaskArgs)
    (reply : TaskReply) (now now2 : Nat) :
    (∀ (k : Int) (job : Job), jobsGet c.jobs k = some job →
      ∃ job1 : Job, jobsGet (GetTask c order args reply now now2).c.jobs k = some job1 ∧
        (∀ (i : Nat) (t : Task), job.MapTasks[i]? = some t → t.Status ≠ TaskStatusIdle →
          job1.MapTasks[i]? = some t) ∧
        (∀ (i : Nat) (t : Task), job.ReduceTasks[i]? = some t → t.Status ≠ TaskStatusIdle →
          job1.ReduceTasks[i]? = some t)) ∧
    (∀ (k : Int) (job : Job), c.jobs = [(k, job)] →
      (∀ t ∈ job.MapTasks, t.Status = TaskStatusInProgress ∨ t.Status = TaskStatusCompleted) →
      (∃ t ∈ job.MapTasks, t.Status = TaskStatusInProgress) →
      (GetTask c order args reply now now2).reply.TaskType = -1 ∧
      (GetTask c order args reply now now2).c = c) := by
  refine ⟨fun k job hj => GetTask_keeps_tasks c order args reply now now2 k job hj, ?_⟩
  intro k job hc hall hex
  obtain ⟨t, ht, hts⟩ := hex
  have hb : Blocked job :=
    Or.inr (Or.inr (Or.inl ⟨findIdle_none_of_busy _ hall, allDone_false_of_mem _ t ht hts⟩))
  have := GetTask_blocked order c args reply now now2 (by
    intro k1 _ job1 h1
    rw [hc] at h1
    simp only [jobsGet] at h1
    split at h1
    · simp at h1; rw [← h1]; exact hb
    · simp at h1)
  rw [this]
  exact ⟨rfl, rfl⟩

/-- Witness of `GetTask_never_reverts`: in `exStalled`, a request by "w2" made
11000000000 clock units after the assignment to "w1" is answered by Wait. -/
theorem GetTask_never_reverts_witness :
    (GetTask exStalled [0] { WorkerID := "w2" } TaskReply.zero 11000000000
        11000000000).reply.TaskType = -1 ∧
    (GetTask exStalled [0] { WorkerID := "w2" } TaskReply.zero 11000000000 11000000000).c
      = exStalled :=
  (GetTask_never_reverts exStalled [0] { WorkerID := "w2" } TaskReply.zero 11000000000
      11000000000).2 0
    { ID := 0, Files := ["f1"], NReduce := 1,
      MapTasks := [{ Task.zero with Status := TaskStatusInProgress, FileName := "f1",
                                    WorkerID := "w1" }],
      ReduceTasks := [{ Task.zero with Typ := TaskTypeReduce }],
      StartTime := 0, Status := "IN_PROGRESS" }
    (by decide) (by decide) (by decide)

/-- Counterexample to C4: map task 0 of the only job is IN_PROGRESS, held by "w1",
with `StartTime` 0.  A `GetTask` by "w2" at time 11000000000 (more than ten seconds
later on a clock of seconds, milli-, micro- or nanoseconds) answers Wait, and the task
is still IN_PROGRESS and held by "w1". -/
theorem GetTask_timed_out_task_counterexample :
    jobsGet exStalled.jobs 0 =
      some { ID := 0, Files := ["f1"], NReduce := 1,
             MapTasks := [{ Task.zero with Status := TaskStatusInProgress, FileName := "f1",
                                           StartTime := 0, WorkerID := "w1" }],
             ReduceTasks := [{ Task.zero with Typ := TaskTypeReduce }],
             StartTime := 0, Status := "IN_PROGRESS" } ∧
    (GetTask exStalled [0] { WorkerID := "w2" } TaskReply.zero 11000000000
        11000000000).reply.TaskType = -1 ∧
    (GetTask exStalled [0] { WorkerID := "w2" } TaskReply.zero 11000000000 11000000000).c
      = exStalled := by
  decide

end coordinator

/-! ## Completion of a job and `Done` -/

namespace coordinator

open common

theorem doneLoop_iff (c : Coordinator) (order : List Int) :
    doneLoop c order = true ↔
      ∀ k ∈ order, ∀ job : Job, jobsGet c.jobs k = some job →
        job.Status = "COMPLETED" ∨ job.Status = "FAILED" := by
  induction order with
  | nil => simp [doneLoop]
  | cons k rest ih =>
    rw [doneLoop]
    cases hj : jobsGet c.jobs k with
    | none =>
      simp only [ih, List.mem_cons, forall_eq_or_imp, hj]
      simp
    | some job =>
      simp only [List.mem_cons, forall_eq_or_imp, hj, Option.some.injEq, forall_eq']
      by_cases hs : job.Status ≠ "COMPLETED" ∧ job.Status ≠ "FAILED"
      · rw [if_pos hs]
        constructor
        · intro h; simp at h
        · intro h
          rcases h.1 with h1 | h1
          · exact absurd h1 hs.1
          · exact absurd h1 hs.2
      · rw [if_neg hs, ih]
        have hterm : job.Status = "COMPLETED" ∨ job.Status = "FAILED" := by
          by_cases h1 : job.Status = "COMPLETED"
          · exact Or.inl h1
          · by_cases h2 : job.Status = "FAILED"
            · exact Or.inr h2
            · exact absurd ⟨h1, h2⟩ hs
        exact ⟨fun h => ⟨hterm, h⟩, fun h => h.2⟩

theorem jobsGet_some_mem_keys {js : List (Int × Job)} {k : Int} {job : Job}
    (h : jobsGet js k = some job) : k ∈ jobsKeys js := by
  by_contra hn
  rw [(jobsGet_eq_none_iff js k).2 hn] at h
  simp at h

theorem Done_iff_of_perm (c : Coordinator) (order : List Int)
    (hp : order.Perm (jobsKeys c.jobs)) :
    (Done c order).2 = true ↔
      (∃ (k : Int) (job : Job), jobsGet c.jobs k = some job) ∧
      ∀ (k : Int) (job : Job), jobsGet c.jobs k = some job →
        job.Status = "COMPLETED" ∨ job.Status = "FAILED" := by
  unfold Done
  by_cases h0 : c.jobs.length = 0
  · rw [if_pos h0]
    have hnil : c.jobs = [] := List.length_eq_zero.1 h0
    simp [hnil, jobsGet]
  · rw [if_neg h0]
    show doneLoop c order = true ↔ _
    rw [doneLoop_iff]
    have hex : ∃ (k : Int) (job : Job), jobsGet c.jobs k = some job := by
      cases hjs : c.jobs with
      | nil => rw [hjs] at h0; simp at h0
      | cons e rest =>
        obtain ⟨k, v⟩ := e
        exact ⟨k, v, by simp [jobsGet]⟩
    constructor
    · intro h
      refine ⟨hex, ?_⟩
      intro k job hj
      exact h k (hp.mem_iff.2 (jobsGet_some_mem_keys hj)) job hj
    · intro h k _ job hj
      exact h.2 k job hj

theorem ReportTask_status (c : Coordinator) (args : ReportTaskArgs) (reply : ReportTaskReply)
    (k : Int) :
    (jobsGet (ReportTask c args reply).c.jobs k).map Job.Status =
      (jobsGet c.jobs k).map Job.Status := by
  unfold ReportTask
  cases hj : jobsGet c.jobs args.JobID with
  | none => rfl
  | some job =>
    simp only
    split
    · rfl
    · cases ht : (tasksOf job args.TaskType)[args.TaskID.toNat]? with
      | none => rfl
      | some task =>
        simp only
        split
        · rw [jobsGet_jobsSet]
          by_cases hk : k = args.JobID
          · rw [if_pos hk, hk, hj]
            unfold coordinator.complete
            split <;> rfl
          · rw [if_neg hk]
        · rfl

theorem doneLoop_congr (c1 c2 : Coordinator) (order : List Int)
    (h : ∀ k, (jobsGet c1.jobs k).map Job.Status = (jobsGet c2.jobs k).map Job.Status) :
    doneLoop c1 order = doneLoop c2 order := by
  induction order with
  | nil => rfl
  | cons k rest ih =>
    rw [doneLoop, doneLoop]
    have hk := h k
    cases h1 : jobsGet c1.jobs k with
    | none =>
      cases h2 : jobsGet c2.jobs k with
      | none => simp only; exact ih
      | some j2 => rw [h1, h2] at hk; simp at hk
    | some j1 =>
      cases h2 : jobsGet c2.jobs k with
      | none => rw [h1, h2] at hk; simp at hk
      | some j2 =>
        rw [h1, h2] at hk
        simp only [Option.map_some', Option.some.injEq] at hk
        simp only [hk, ih]

theorem Done_ReportTask (c : Coordinator) (args : ReportTaskArgs) (reply : ReportTaskReply)
    (order : List Int) :
    (Done (ReportTask c args reply).c order).2 = (Done c order).2 := by
  have hlen : (ReportTask c args reply).c.jobs.length = c.jobs.length := by
    have := congrArg List.length (jobsKeys_ReportTask c args reply)
    simpa [jobsKeys] using this
  unfold Done
  rw [hlen]
  by_cases h0 : c.jobs.length = 0
  · rw [if_pos h0, if_pos h0]
  · rw [if_neg h0, if_neg h0]
    exact doneLoop_congr _ _ _ (ReportTask_status c args reply)

theorem GetTask_wait_marked (c : Coordinator) (order : List Int) (args : TaskArgs)
    (reply : TaskReply) (now now2 : Nat)
    (h : (GetTask c order args reply now now2).reply.TaskType = -1) :
    Marked c (GetTask c order args reply now now2).c := by
  rcases GetTask_spec order c args reply now now2 with
    ⟨_, _, hm, _⟩ | ⟨pre, k, post, cm, job, i, task, _, _, _, _, _, _, _, hcase⟩
  · exact hm
  · rcases hcase with ⟨_, hr⟩ | ⟨_, _, _, hr⟩
    · rw [hr] at h; simp [mapOutcome] at h
    · rw [hr] at h; simp [reduceOutcome] at h

theorem MarkedJob.terminal {j j1 : Job} (h : MarkedJob j j1)
    (ht : j.Status = "COMPLETED" ∨ j.Status = "FAILED") :
    j1.Status = "COMPLETED" ∨ j1.Status = "FAILED" := by
  rcases h with h | ⟨h, _⟩
  · subst h; exact ht
  · subst h; exact Or.inl rfl

theorem GetTask_cons_cases (c : Coordinator) (k : Int) (rest : List Int) (args : TaskArgs)
    (reply : TaskReply) (now now2 : Nat) :
    ((GetTask c (k :: rest) args reply now now2).reply.TaskType = TaskTypeMap ∨
      (GetTask c (k :: rest) args reply now now2).reply.TaskType = TaskTypeReduce) ∨
    ∃ c1 : Coordinator,
      GetTask c (k :: rest) args reply now now2 = GetTask c1 rest args reply now now2 ∧
      Marked c c1 ∧
      ∀ job : Job, jobsGet c.jobs k = some job → allDone job.MapTasks = true →
        allDone job.ReduceTasks = true →
        ∃ job1 : Job, jobsGet c1.jobs k = some job1 ∧
          (job1.Status = "COMPLETED" ∨ job1.Status = "FAILED") := by
  rw [GetTask]
  cases hj : jobsGet c.jobs k with
  | none =>
    simp only
    exact Or.inr ⟨c, rfl, Marked.stateRefl c, by intro job h; simp at h⟩
  | some job =>
    simp only
    by_cases hs : job.Status = "COMPLETED" ∨ job.Status = "FAILED"
    · rw [if_pos hs]
      refine Or.inr ⟨c, rfl, Marked.stateRefl c, ?_⟩
      intro job2 h2 _ _
      simp at h2; subst h2
      exact ⟨job, hj, hs⟩
    · rw [if_neg hs]
      cases hm : findIdle job.MapTasks 0 with
      | some p => exact Or.inl (Or.inl rfl)
      | none =>
        simp only
        by_cases hd : allDone job.MapTasks = false
        · rw [if_pos hd]
          refine Or.inr ⟨c, rfl, Marked.stateRefl c, ?_⟩
          intro job2 h2 hm2 _
          simp at h2; subst h2
          rw [hd] at hm2; simp at hm2
        · rw [if_neg hd]
          have hd1 : allDone job.MapTasks = true := by simpa using hd
          cases hr : findIdle job.ReduceTasks 0 with
          | some p => exact Or.inl (Or.inr rfl)
          | none =>
            simp only
            by_cases hrd : allDone job.ReduceTasks = true
            · rw [if_pos hrd]
              refine Or.inr ⟨_, rfl, Marked.markOne c k job hj (fun h => hs (Or.inl h))
                (fun h => hs (Or.inr h)) hd1 hrd, ?_⟩
              intro job2 _ _ _
              exact ⟨_, jobsGet_jobsSet_self _ _ _, Or.inl rfl⟩
            · rw [if_neg hrd]
              refine Or.inr ⟨c, rfl, Marked.stateRefl c, ?_⟩
              intro job2 h2 _ hr2
              simp at h2; subst h2
              exact absurd hr2 hrd

theorem GetTask_wait_marks (order : List Int) : ∀ (c : Coordinator) (args : TaskArgs)
    (reply : TaskReply) (now now2 : Nat),
    (GetTask c order args reply now now2).reply.TaskType = -1 →
    ∀ k ∈ order, ∀ job : Job, jobsGet c.jobs k = some job →
      allDone job.MapTasks = true → allDone job.ReduceTasks = true →
      ∃ job1 : Job, jobsGet (GetTask c order args reply now now2).c.jobs k = some job1 ∧
        MarkedJob job job1 ∧ (job1.Status = "COMPLETED" ∨ job1.Status = "FAILED") := by
  induction order with
  | nil => intro c args reply now now2 _ k hk; simp at hk
  | cons k0 rest ih =>
    intro c args reply now now2 hw k hk job hj hm hr
    rcases GetTask_cons_cases c k0 rest args reply now now2 with hassign | ⟨c1, heq, hmk, hterm⟩
    · rcases hassign with h | h <;> rw [h] at hw <;> simp at hw
    · rw [heq] at hw ⊢
      obtain ⟨jobm, hjm, hmj⟩ := hmk.get hj
      rcases List.mem_cons.1 hk with hk0 | hkr
      · subst hk0
        obtain ⟨job1, hj1, ht1⟩ := hterm job hj hm hr
        rw [hjm] at hj1; simp at hj1; subst hj1
        obtain ⟨job2, hj2, hmj2⟩ := (GetTask_wait_marked c1 rest args reply now now2 hw).get hjm
        exact ⟨job2, hj2, hmj.jobTrans hmj2, hmj2.terminal ht1⟩
      · have hm1 : allDone jobm.MapTasks = true := by rw [hmj.tasks.1]; exact hm
        have hr1 : allDone jobm.ReduceTasks = true := by rw [hmj.tasks.2]; exact hr
        obtain ⟨job2, hj2, hmj2, ht2⟩ :=
          ih c1 args reply now now2 hw k hkr jobm hjm hm1 hr1
        exact ⟨job2, hj2, hmj.jobTrans hmj2, ht2⟩

end coordinator

namespace coordinator

open common

theorem mem_keys_jobsGet {js : List (Int × Job)} {k : Int} (h : k ∈ jobsKeys js) :
    ∃ job : Job, jobsGet js k = some job := by
  cases hj : jobsGet js k with
  | none => exact absurd h ((jobsGet_eq_none_iff js k).1 hj)
  | some job => exact ⟨job, rfl⟩

theorem GetTask_wait_of_all_done (c : Coordinator) (order : List Int) (args : TaskArgs)
    (reply : TaskReply) (now now2 : Nat)
    (h : ∀ (k : Int) (job : Job), jobsGet c.jobs k = some job →
      allDone job.MapTasks = true ∧ allDone job.ReduceTasks = true) :
    (GetTask c order args reply now now2).reply.TaskType = -1 := by
  rcases GetTask_spec order c args reply now now2 with
    ⟨_, hr, _, _⟩ | ⟨pre, k, post, cm, job, i, task, _, _, _, hj, _, _, _, hcase⟩
  · rw [hr]
  · rcases hcase with ⟨hf, _⟩ | ⟨_, _, hf, _⟩
    · rw [allDone_findIdle _ (h k job hj).1] at hf; simp at hf
    · rw [allDone_findIdle _ (h k job hj).2] at hf; simp at hf

/-- C5 as the code has it.  `ReportTask` changes the `Status` of no job, so it never
changes the result of `Done`; the status of a job all of whose tasks are COMPLETED is
set by `GetTask`: a call that visits the job and answers Wait leaves it with status
COMPLETED (a FAILED job stays FAILED) and its tasks untouched; and when every stored
job has all its tasks COMPLETED, `GetTask` answers Wait and `Done` is true from then
on. -/
theorem job_completed_by_next_GetTask (c : Coordinator) :
    (∀ (args : ReportTaskArgs) (reply : ReportTaskReply) (k : Int),
      (jobsGet (ReportTask c args reply).c.jobs k).map Job.Status =
        (jobsGet c.jobs k).map Job.Status) ∧
    (∀ (args : ReportTaskArgs) (reply : ReportTaskReply) (order : List Int),
      (Done (ReportTask c args reply).c order).2 = (Done c order).2) ∧
    (∀ (order : List Int) (args : TaskArgs) (reply : TaskReply) (now now2 : Nat) (k : Int)
        (job : Job),
      k ∈ order → jobsGet c.jobs k = some job → job.Status ≠ "FAILED" →
      allDone job.MapTasks = true → allDone job.ReduceTasks = true →
      (GetTask c order args reply now now2).reply.TaskType = -1 →
      ∃ job1 : Job, jobsGet (GetTask c order args reply now now2).c.jobs k = some job1 ∧
        job1.Status = "COMPLETED" ∧ job1.MapTasks = job.MapTasks ∧
        job1.ReduceTasks = job.ReduceTasks) ∧
    (∀ (order : List Int) (args : TaskArgs) (reply : TaskReply) (now now2 : Nat),
      order.Perm (jobsKeys c.jobs) →
      (∃ (k : Int) (job : Job), jobsGet c.jobs k = some job) →
      (∀ (k : Int) (job : Job), jobsGet c.jobs k = some job →
        allDone job.MapTasks = true ∧ allDone job.ReduceTasks = true) →
      (GetTask c order args reply now now2).reply.TaskType = -1 ∧
      ∀ order2 : List Int, order2.Perm (jobsKeys (GetTask c order args reply now now2).c.jobs) →
        (Done (GetTask c order args reply now now2).c order2).2 = true) := by
  refine ⟨ReportTask_status c, Done_ReportTask c, ?_, ?_⟩
  · intro order args reply now now2 k job hk hj hnf hm hr hw
    obtain ⟨job1, hj1, hmj, ht⟩ :=
      GetTask_wait_marks order c args reply now now2 hw k hk job hj hm hr
    refine ⟨job1, hj1, ?_, hmj.tasks.1, hmj.tasks.2⟩
    rcases hmj with h | ⟨h, _⟩
    · subst h
      rcases ht with ht | ht
      · exact ht
      · exact absurd ht hnf
    · subst h; rfl
  · intro order args reply now now2 hp hex hall
    have hw := GetTask_wait_of_all_done c order args reply now now2 hall
    refine ⟨hw, ?_⟩
    intro order2 hp2
    rw [Done_iff_of_perm _ _ hp2]
    have hmk := GetTask_wait_marked c order args reply now now2 hw
    constructor
    · obtain ⟨k, job, hj⟩ := hex
      obtain ⟨job1, hj1, _⟩ := hmk.get hj
      exact ⟨k, job1, hj1⟩
    · intro k job1 hj1
      have hkeys : k ∈ jobsKeys c.jobs := by
        rw [← jobsKeys_GetTask c order args reply now now2]
        exact jobsGet_some_mem_keys hj1
      obtain ⟨job, hj⟩ := mem_keys_jobsGet hkeys
      obtain ⟨job2, hj2, _, ht⟩ :=
        GetTask_wait_marks order c args reply now now2 hw k (hp.mem_iff.2 hkeys) job hj
          (hall k job hj).1 (hall k job hj).2
      rw [hj1] at hj2; simp at hj2; subst hj2
      exact ht

/-- Witness of `job_completed_by_next_GetTask`: in `exAllReported` one more `GetTask`
answers Wait, and `Done` is true after it. -/
theorem job_completed_by_next_GetTask_witness :
    (GetTask exAllReported [0] { WorkerID := "w1" } TaskReply.zero 9 9).reply.TaskType = -1 ∧
    (Done (GetTask exAllReported [0] { WorkerID := "w1" } TaskReply.zero 9 9).c [0]).2 = true :=
  have h := (job_completed_by_next_GetTask exAllReported).2.2.2 [0] { WorkerID := "w1" }
    TaskReply.zero 9 9 (List.Perm.refl _) ⟨0, _, rfl⟩ (by
      intro k job hj
      have hk : k = 0 := by
        have hmem := jobsGet_some_mem_keys hj
        have hkeys : jobsKeys exAllReported.jobs = [0] := by decide
        rw [hkeys] at hmem
        simpa using hmem
      subst hk
      have : some job = jobsGet exAllReported.jobs 0 := hj.symm
      have hjob : job = _ := Option.some.inj this
      rw [hjob]
      decide)
  ⟨h.1, h.2 [0] (List.Perm.refl _)⟩

/-- Counterexample to C5: one job with 2 partitions and fan-out 2, after worker "w1"
has been given and has reported both map tasks and both reduce tasks.  All four tasks
are COMPLETED and the last `ReportTask` has returned, yet the job's status is still
"IN_PROGRESS" and `Done` is false. -/
theorem ReportTask_last_report_counterexample :
    (∃ job : Job, jobsGet exAllReported.jobs 0 = some job ∧
      allDone job.MapTasks = true ∧ allDone job.ReduceTasks = true ∧
      job.MapTasks.length = 2 ∧ job.ReduceTasks.length = 2 ∧
      job.Status = "IN_PROGRESS") ∧
    (Done exAllReported [0]).2 = false := by
  refine ⟨⟨_, rfl, ?_⟩, ?_⟩ <;> decide

end coordinator

/-! ## The job-completion invariant -/

namespace coordinator

open common

/-- C6 (job-completion invariant).  In every state reachable from `NewCoordinator`
through `SubmitJob`, `GetTask` and `ReportTask`, a stored job whose status is
"COMPLETED" has all its map tasks and all its reduce tasks in status COMPLETED, so
none of them is IDLE or IN_PROGRESS. -/
theorem completed_job_has_completed_tasks (c : Coordinator) (hc : Reachable c) (k : Int)
    (job : Job) (hj : jobsGet c.jobs k = some job) (hs : job.Status = "COMPLETED") :
    (∀ t ∈ job.MapTasks, t.Status = TaskStatusCompleted ∧ t.Status ≠ TaskStatusIdle ∧
      t.Status ≠ TaskStatusInProgress) ∧
    (∀ t ∈ job.ReduceTasks, t.Status = TaskStatusCompleted ∧ t.Status ≠ TaskStatusIdle ∧
      t.Status ≠ TaskStatusInProgress) := by
  have h := (hc.inv.jobs_ok k job hj).completed hs
  constructor
  · intro t ht
    have := h.1 t ht
    exact ⟨this, by rw [this]; decide, by rw [this]; decide⟩
  · intro t ht
    have := h.2 t ht
    exact ⟨this, by rw [this]; decide, by rw [this]; decide⟩

/-- Witness of C6: `exCompleted` is reachable and its job has status "COMPLETED". -/
theorem completed_job_has_completed_tasks_witness :
    Reachable exCompleted ∧
    ∃ job : Job, jobsGet exCompleted.jobs 0 = some job ∧ job.Status = "COMPLETED" ∧
      job.MapTasks.length = 2 ∧ job.ReduceTasks.length = 2 ∧
      (∀ t ∈ job.MapTasks, t.Status = TaskStatusCompleted ∧ t.Status ≠ TaskStatusIdle ∧
        t.Status ≠ TaskStatusInProgress) ∧
      (∀ t ∈ job.ReduceTasks, t.Status = TaskStatusCompleted ∧ t.Status ≠ TaskStatusIdle ∧
        t.Status ≠ TaskStatusInProgress) :=
  ⟨reachable_exCompleted, _, rfl, by decide, by decide, by decide,
    completed_job_has_completed_tasks exCompleted reachable_exCompleted 0 _ rfl (by decide)⟩

end coordinator

/-! ## `SubmitJob` -/

namespace coordinator

open common

/-- C7 (postcondition of `SubmitJob`).  In a reachable state, for every list of
partitions (of length at least one or not) and a fan-out of at least one, `SubmitJob`
returns the next job ID and
consumes it, and stores under that ID a job with that ID, the given partitions and
fan-out and the running status "IN_PROGRESS"; its map tasks are as many as the
partitions, task `i` having ID `i`, type MAP, status IDLE and the `i`-th partition
as `FileName`; its reduce tasks are as many as the fan-out, task `i` having ID `i`,
type REDUCE and status IDLE; every job stored before is stored unchanged, and nothing
else is stored. -/
theorem SubmitJob_post (c : Coordinator) (hc : Reachable c) (files : List String)
    (nReduce : Int) (now : Nat) (hm : 1 ≤ nReduce) :
    (SubmitJob c files nReduce now).2 = c.nextJob ∧
    (SubmitJob c files nReduce now).1.nextJob = c.nextJob + 1 ∧
    (∃ job : Job,
      jobsGet (SubmitJob c files nReduce now).1.jobs (SubmitJob c files nReduce now).2
        = some job ∧
      job.ID = (SubmitJob c files nReduce now).2 ∧ job.Files = files ∧
      job.NReduce = nReduce ∧ job.Status = "IN_PROGRESS" ∧
      job.Status ≠ "COMPLETED" ∧ job.Status ≠ "FAILED" ∧
      job.MapTasks.length = files.length ∧
      (∀ (i : Nat) (f : String), files[i]? = some f →
        job.MapTasks[i]? = some { ID := (i : Int), JobID := 0, Typ := TaskTypeMap,
                                  Status := TaskStatusIdle, FileName := f, StartTime := 0,
                                  WorkerID := "" }) ∧
      (job.ReduceTasks.length : Int) = nReduce ∧
      (∀ i : Nat, (i : Int) < nReduce →
        job.ReduceTasks[i]? = some { ID := (i : Int), JobID := 0, Typ := TaskTypeReduce,
                                     Status := TaskStatusIdle, FileName := "",
                                     StartTime := 0, WorkerID := "" })) ∧
    (∀ (k : Int) (job0 : Job), jobsGet c.jobs k = some job0 →
      jobsGet (SubmitJob c files nReduce now).1.jobs k = some job0) ∧
    (∀ k : Int, k ≠ (SubmitJob c files nReduce now).2 →
      jobsGet (SubmitJob c files nReduce now).1.jobs k = jobsGet c.jobs k) := by
  have hnone := hc.inv.get_none
  have hget : ∀ k, jobsGet (SubmitJob c files nReduce now).1.jobs k =
      if k = c.nextJob then some
        { ID := c.nextJob, Files := files, NReduce := nReduce,
          MapTasks := initMapTasks files, ReduceTasks := initReduceTasks nReduce,
          StartTime := now, Status := "IN_PROGRESS" }
      else jobsGet c.jobs k := fun k => jobsGet_jobsSet _ _ _ _
  refine ⟨rfl, rfl, ?_, ?_, ?_⟩
  · refine ⟨_, by rw [hget]; exact if_pos rfl, rfl, rfl, rfl, rfl, ?_, ?_,
      length_initMapTasks files, ?_, ?_, ?_⟩
    · show "IN_PROGRESS" ≠ "COMPLETED"
      decide
    · show "IN_PROGRESS" ≠ "FAILED"
      decide
    · intro i f hf
      show (initMapTasks files)[i]? = _
      rw [getElem?_initMapTasks, hf]; rfl
    · show ((initReduceTasks nReduce).length : Int) = nReduce
      rw [length_initReduceTasks]
      exact Int.toNat_of_nonneg (by omega)
    · intro i hi
      show (initReduceTasks nReduce)[i]? = _
      rw [getElem?_initReduceTasks, if_pos (by omega)]; rfl
  · intro k job0 hk
    rw [hget]
    by_cases hkn : k = c.nextJob
    · rw [hkn, hnone] at hk; simp at hk
    · rw [if_neg hkn]; exact hk
  · intro k hk
    have hk2 : k ≠ c.nextJob := hk
    rw [hget, if_neg hk2]

/-- Witness of C7: partitions `[a.txt, b.txt]` and fan-out 2 on a new coordinator give
map task IDs 0, 1 and reduce task IDs 0, 1. -/
theorem SubmitJob_post_witness :
    ∃ job : Job, jobsGet (SubmitJob NewCoordinator ["a.txt", "b.txt"] 2 0).1.jobs 0 = some job ∧
      job.MapTasks.map Task.ID = [0, 1] ∧ job.ReduceTasks.map Task.ID = [0, 1] ∧
      job.MapTasks.map Task.FileName = ["a.txt", "b.txt"] ∧
      job.Status = "IN_PROGRESS" ∧
      (job.ReduceTasks.length : Int) = 2 :=
  have h := (SubmitJob_post NewCoordinator Reachable.init ["a.txt", "b.txt"] 2 0
    (by decide)).2.2.1
  ⟨_, rfl, by decide, by decide, by decide, by decide, by
    obtain ⟨job, hj, _, _, _, _, _, _, _, _, hlen, _⟩ := h
    have hj2 : job = _ := (Option.some.inj hj).symm
    rw [← hj2]; exact hlen⟩

/-- Counterexample to C8: `SubmitJob` called on a new coordinator with an empty
partition list and fan-out 0, and with one partition and fan-out -1, returns ID 0,
stores a job and consumes the ID. -/
theorem SubmitJob_invalid_counterexample :
    SubmitJob NewCoordinator [] 0 0 =
      ({ jobs := [(0, { ID := 0, Files := [], NReduce := 0, MapTasks := [],
                        ReduceTasks := [], StartTime := 0, Status := "IN_PROGRESS" })],
         nextJob := 1, workers := [] }, 0) ∧
    (SubmitJob NewCoordinator ["a.txt"] (-1) 0).1 ≠ NewCoordinator ∧
    (SubmitJob NewCoordinator ["a.txt"] (-1) 0).1.nextJob = 1 ∧
    (jobsGet (SubmitJob NewCoordinator ["a.txt"] (-1) 0).1.jobs 0).isSome = true := by
  decide

end coordinator

namespace api

open common coordinator

/-- C8 as the code has it.  The check is made by the handler of `POST /jobs`: for a
decoded request with an empty file list or `nReduce <= 0`, `handleJobs` does not call
`SubmitJob`; it leaves the coordinator as it was (no job created, no ID consumed),
returns no job ID and answers 400 to a POST (405 to any other method). -/
theorem handleJobs_rejects_invalid (c : Coordinator) (method : String)
    (req : SubmitJobRequest) (now : Nat) (h : req.Files.length = 0 ∨ req.NReduce ≤ 0) :
    (handleJobs c method (some req) now).c = c ∧
    (handleJobs c method (some req) now).JobID = none ∧
    (method = "POST" → (handleJobs c method (some req) now).status = 400) ∧
    (method ≠ "POST" → (handleJobs c method (some req) now).status = 405) := by
  unfold handleJobs
  by_cases hmeth : method ≠ "POST"
  · rw [if_pos hmeth]
    exact ⟨rfl, rfl, fun hp => absurd hp hmeth, fun _ => rfl⟩
  · rw [if_neg hmeth]
    simp only [if_pos h]
    exact ⟨trivial, trivial, fun _ => trivial, fun hp => absurd hp hmeth⟩

/-- Witness of `handleJobs_rejects_invalid`: a POST with no files and `nReduce` 2 to a
new coordinator. -/
theorem handleJobs_rejects_invalid_witness :
    (handleJobs NewCoordinator "POST" (some { Files := [], NReduce := 2 }) 0).c
      = NewCoordinator ∧
    (handleJobs NewCoordinator "POST" (some { Files := [], NReduce := 2 }) 0).status = 400 :=
  have h := handleJobs_rejects_invalid NewCoordinator "POST" { Files := [], NReduce := 2 } 0
    (Or.inl (by decide))
  ⟨h.1, h.2.2.1 rfl⟩

end api

/-! ## Errors of `ReportTask`, and `Done` -/

namespace coordinator

open common

theorem ReportTask_of_none (c : Coordinator) (args : ReportTaskArgs)
    (reply : ReportTaskReply) (hj : jobsGet c.jobs args.JobID = none) :
    ReportTask c args reply = { c := c, reply := reply, err := some "job not found" } := by
  unfold ReportTask
  rw [hj]

theorem ReportTask_of_range (c : Coordinator) (args : ReportTaskArgs)
    (reply : ReportTaskReply) (job : Job) (hj : jobsGet c.jobs args.JobID = some job)
    (hr : args.TaskID < 0 ∨ ((tasksOf job args.TaskType).length : Int) ≤ args.TaskID) :
    ReportTask c args reply = { c := c, reply := reply, err := some "invalid task ID" } := by
  unfold ReportTask
  rw [hj]
  simp only
  rw [if_pos hr]

theorem ReportTask_of_ok (c : Coordinator) (args : ReportTaskArgs)
    (reply : ReportTaskReply) (job : Job) (hj : jobsGet c.jobs args.JobID = some job)
    (hr : ¬ (args.TaskID < 0 ∨ ((tasksOf job args.TaskType).length : Int) ≤ args.TaskID)) :
    (ReportTask c args reply).err = none := by
  have hlt : args.TaskID.toNat < (tasksOf job args.TaskType).length := by
    have h1 : 0 ≤ args.TaskID := by omega
    have := Int.toNat_of_nonneg h1
    omega
  unfold ReportTask
  rw [hj]
  simp only
  rw [if_neg hr, List.getElem?_eq_getElem hlt]
  simp only
  split <;> rfl

/-- C9 (errors of `ReportTask`).  `ReportTask` returns the error "job not found"
exactly when no job is stored under the reported job ID, and the error
"invalid task ID" exactly when the job is stored and the task ID is negative or not
less than the number of tasks of the reported phase; it returns no other error.
Whenever it returns an error, the state and the reply (so `Ack`) are as they were. -/
theorem ReportTask_error_iff (c : Coordinator) (args : ReportTaskArgs)
    (reply : ReportTaskReply) :
    ((ReportTask c args reply).err = some "job not found" ↔
      jobsGet c.jobs args.JobID = none) ∧
    ((ReportTask c args reply).err = some "invalid task ID" ↔
      ∃ job : Job, jobsGet c.jobs args.JobID = some job ∧
        (args.TaskID < 0 ∨ ((tasksOf job args.TaskType).length : Int) ≤ args.TaskID)) ∧
    ((ReportTask c args reply).err ≠ none ↔
      (jobsGet c.jobs args.JobID = none ∨
        ∃ job : Job, jobsGet c.jobs args.JobID = some job ∧
          (args.TaskID < 0 ∨ ((tasksOf job args.TaskType).length : Int) ≤ args.TaskID))) ∧
    ((ReportTask c args reply).err ≠ none →
      (ReportTask c args reply).c = c ∧ (ReportTask c args reply).reply = reply ∧
      ((ReportTask c args reply).reply.Ack = true → reply.Ack = true)) := by
  cases hj : jobsGet c.jobs args.JobID with
  | none =>
    rw [ReportTask_of_none c args reply hj]
    refine ⟨⟨fun _ => rfl, fun _ => rfl⟩, ?_, ⟨fun _ => Or.inl rfl, fun _ => by simp⟩,
      fun _ => ⟨rfl, rfl, id⟩⟩
    constructor
    · intro h
      have h2 : "job not found" = "invalid task ID" := Option.some.inj h
      exact absurd h2 (by decide)
    · rintro ⟨job, h, _⟩; simp at h
  | some job =>
    by_cases hr : args.TaskID < 0 ∨ ((tasksOf job args.TaskType).length : Int) ≤ args.TaskID
    · rw [ReportTask_of_range c args reply job hj hr]
      refine ⟨?_, ⟨fun _ => ⟨job, rfl, hr⟩, fun _ => rfl⟩,
        ⟨fun _ => Or.inr ⟨job, rfl, hr⟩, fun _ => by simp⟩, fun _ => ⟨rfl, rfl, id⟩⟩
      constructor
      · intro h
        have h2 : "invalid task ID" = "job not found" := Option.some.inj h
        exact absurd h2 (by decide)
      · intro h; simp at h
    · have hok := ReportTask_of_ok c args reply job hj hr
      have hno : ¬ ∃ job1 : Job, some job = some job1 ∧
          (args.TaskID < 0 ∨ ((tasksOf job1 args.TaskType).length : Int) ≤ args.TaskID) := by
        rintro ⟨job1, h1, h2⟩
        simp at h1; subst h1
        exact hr h2
      rw [hok]
      refine ⟨⟨fun h => by simp at h, fun h => by simp at h⟩,
        ⟨fun h => by simp at h, fun h => absurd h hno⟩, ?_, fun h => absurd rfl h⟩
      constructor
      · intro h; exact absurd rfl h
      · rintro (h | h)
        · simp at h
        · exact absurd h hno

/-- C10 (`Done`).  When `order` visits the keys of the job map, `Done` is true exactly
when at least one job is stored and every stored job has status "COMPLETED" or
"FAILED"; `Done` leaves the state as it is; it is false on a new coordinator and
false right after the first `SubmitJob` on a new coordinator. -/
theorem Done_spec (c : Coordinator) (order : List Int)
    (hp : order.Perm (jobsKeys c.jobs)) :
    ((Done c order).2 = true ↔
      (∃ (k : Int) (job : Job), jobsGet c.jobs k = some job) ∧
      ∀ (k : Int) (job : Job), jobsGet c.jobs k = some job →
        job.Status = "COMPLETED" ∨ job.Status = "FAILED") ∧
    (Done c order).1 = c ∧
    (Done NewCoordinator []).2 = false ∧
    (∀ (files : List String) (nReduce : Int) (now : Nat),
      jobsKeys (SubmitJob NewCoordinator files nReduce now).1.jobs = [0] ∧
      (Done (SubmitJob NewCoordinator files nReduce now).1 [0]).2 = false) := by
  refine ⟨Done_iff_of_perm c order hp, ?_, by decide, ?_⟩
  · unfold Done; split <;> rfl
  · intro files nReduce now
    exact ⟨rfl, rfl⟩

/-- Witness of C10: the state of `TestCoordinator_Done` (one job with 1 partition and
fan-out 1 whose tasks and status are COMPLETED) gives true. -/
theorem Done_spec_witness :
    [0].Perm (jobsKeys exDoneTest.jobs) ∧ (Done exDoneTest [0]).2 = true :=
  ⟨List.Perm.refl _,
   (Done_spec exDoneTest [0] (List.Perm.refl _)).1.2
    ⟨⟨0, _, rfl⟩, by
      intro k job hj
      have hmem := jobsGet_some_mem_keys hj
      have hk : k = 0 := by simpa [jobsKeys, exDoneTest] using hmem
      subst hk
      have hjob : job = _ := (Option.some.inj hj).symm
      rw [hjob]
      exact Or.inl rfl⟩⟩

end coordinator

/-! ## Wait -/

namespace coordinator

open common

/-- A job has an assignable task: one of its map tasks is IDLE, or all its map tasks
are COMPLETED and one of its reduce tasks is IDLE. -/
def HasAssignableTask (job : Job) : Prop :=
  (∃ t ∈ job.MapTasks, t.Status = TaskStatusIdle) ∨
    ((∀ t ∈ job.MapTasks, t.Status = TaskStatusCompleted) ∧
      ∃ t ∈ job.ReduceTasks, t.Status = TaskStatusIdle)

/-- Two jobs of one partition each; the map task of job 0 was handed to "w1" and has
not been reported, the map task of job 1 is IDLE. -/
def exTwoJobs : Coordinator :=
  (GetTask (SubmitJob (SubmitJob NewCoordinator ["a.txt"] 1 0).1 ["b.txt"] 1 0).1 [0, 1]
    { WorkerID := "w1" } TaskReply.zero 1 1).c

theorem findIdle_ne_none_iff (ts : List Task) :
    findIdle ts 0 ≠ none ↔ ∃ t ∈ ts, t.Status = TaskStatusIdle := by
  rw [Ne, findIdle_none]
  constructor
  · intro h
    by_contra hn
    exact h (fun t ht hs => hn ⟨t, ht, hs⟩)
  · rintro ⟨t, ht, hs⟩ h
    exact h t ht hs

theorem notAssignable_iff (job : Job) :
    NotAssignable job ↔
      (job.Status = "COMPLETED" ∨ job.Status = "FAILED" ∨ ¬ HasAssignableTask job) := by
  have key : ∀ (S1 S2 P Q R : Prop),
      (S1 ∨ S2 ∨ (¬ P ∧ (¬ Q ∨ ¬ R))) ↔ (S1 ∨ S2 ∨ ¬ (P ∨ (Q ∧ R))) := by
    intro S1 S2 P Q R; tauto
  unfold NotAssignable HasAssignableTask
  have hm : findIdle job.MapTasks 0 = none ↔ ¬ ∃ t ∈ job.MapTasks, t.Status = TaskStatusIdle := by
    rw [← findIdle_ne_none_iff]; simp
  have hr : findIdle job.ReduceTasks 0 = none ↔
      ¬ ∃ t ∈ job.ReduceTasks, t.Status = TaskStatusIdle := by
    rw [← findIdle_ne_none_iff]; simp
  have hd : allDone job.MapTasks = false ↔
      ¬ ∀ t ∈ job.MapTasks, t.Status = TaskStatusCompleted := by
    rw [← allDone_iff]; simp
  rw [hm, hr, hd]
  exact key _ _ _ _ _

theorem GetTask_type (c : Coordinator) (order : List Int) (args : TaskArgs)
    (reply : TaskReply) (now now2 : Nat) :
    (GetTask c order args reply now now2).reply.TaskType = -1 ∨
    (GetTask c order args reply now now2).reply.TaskType = TaskTypeMap ∨
    (GetTask c order args reply now now2).reply.TaskType = TaskTypeReduce := by
  rcases GetTask_spec order c args reply now now2 with
    ⟨_, hr, _, _⟩ | ⟨pre, k, post, cm, job, i, task, _, _, _, _, _, _, _, hcase⟩
  · rw [hr]; exact Or.inl rfl
  · rcases hcase with ⟨_, hr⟩ | ⟨_, _, _, hr⟩
    · rw [hr]; exact Or.inr (Or.inl rfl)
    · rw [hr]; exact Or.inr (Or.inr rfl)

theorem GetTask_wait_iff_notAssignable (c : Coordinator) (order : List Int) (args : TaskArgs)
    (reply : TaskReply) (now now2 : Nat) :
    (GetTask c order args reply now now2).reply.TaskType = -1 ↔
      ∀ k ∈ order, ∀ job : Job, jobsGet c.jobs k = some job → NotAssignable job := by
  rcases GetTask_spec order c args reply now now2 with
    ⟨_, hr, _, hall⟩ | ⟨pre, k, post, cm, job, i, task, ho, _, _, hj, _, hs1, hs2, hcase⟩
  · rw [hr]
    exact ⟨fun _ => hall, fun _ => rfl⟩
  · have hk : k ∈ order := by rw [ho]; simp
    constructor
    · intro h
      rcases hcase with ⟨_, hr⟩ | ⟨_, _, _, hr⟩
      · rw [hr] at h; simp [mapOutcome] at h
      · rw [hr] at h; simp [reduceOutcome] at h
    · intro h
      rcases h k hk job hj with h1 | h1 | ⟨h1, h2⟩
      · exact absurd h1 hs1
      · exact absurd h1 hs2
      · rcases hcase with ⟨hf, _⟩ | ⟨_, hd, hf, _⟩
        · rw [h1] at hf; simp at hf
        · rcases h2 with h2 | h2
          · rw [hd] at h2; simp at h2
          · rw [h2] at hf; simp at hf

/-- C11 (Wait exactly when nothing is assignable).  When `order` visits the keys of
the job map, `GetTask` answers Wait (`TaskType = -1`) if and only if no stored job
with a status other than "COMPLETED" and "FAILED" has an assignable task; a Wait
answer leaves every task list of every job as it was; and the answer is always Wait,
MAP or REDUCE. -/
theorem GetTask_wait_iff (c : Coordinator) (order : List Int) (args : TaskArgs)
    (reply : TaskReply) (now now2 : Nat) (hp : order.Perm (jobsKeys c.jobs)) :
    ((GetTask c order args reply now now2).reply.TaskType = -1 ↔
      ∀ (k : Int) (job : Job), jobsGet c.jobs k = some job →
        job.Status ≠ "COMPLETED" → job.Status ≠ "FAILED" → ¬ HasAssignableTask job) ∧
    ((GetTask c order args reply now now2).reply.TaskType = -1 →
      ∀ (k : Int) (job : Job), jobsGet c.jobs k = some job →
        ∃ job1 : Job, jobsGet (GetTask c order args reply now now2).c.jobs k = some job1 ∧
          job1.MapTasks = job.MapTasks ∧ job1.ReduceTasks = job.ReduceTasks) ∧
    ((GetTask c order args reply now now2).reply.TaskType = -1 ∨
      (GetTask c order args reply now now2).reply.TaskType = TaskTypeMap ∨
      (GetTask c order args reply now now2).reply.TaskType = TaskTypeReduce) := by
  refine ⟨?_, ?_, GetTask_type c order args reply now now2⟩
  · rw [GetTask_wait_iff_notAssignable]
    constructor
    · intro h k job hj hs1 hs2
      have hk : k ∈ order := hp.mem_iff.2 (jobsGet_some_mem_keys hj)
      rcases (notAssignable_iff job).1 (h k hk job hj) with h1 | h1 | h1
      · exact absurd h1 hs1
      · exact absurd h1 hs2
      · exact h1
    · intro h k _ job hj
      rw [notAssignable_iff]
      by_cases hs1 : job.Status = "COMPLETED"
      · exact Or.inl hs1
      · by_cases hs2 : job.Status = "FAILED"
        · exact Or.inr (Or.inl hs2)
        · exact Or.inr (Or.inr (h k job hj hs1 hs2))
  · intro hw k job hj
    obtain ⟨job1, hj1, hmj⟩ := (GetTask_wait_marked c order args reply now now2 hw).get hj
    exact ⟨job1, hj1, hmj.tasks.1, hmj.tasks.2⟩

/-- Witness of C11: in `exStalled` (one job, its only map task IN_PROGRESS) `GetTask`
answers Wait; in `exTwoJobs` (map task of job 0 IN_PROGRESS, map task of job 1 IDLE)
it hands out map task 0 of job 1, whichever job is visited first. -/
theorem GetTask_wait_iff_witness :
    (GetTask exStalled [0] { WorkerID := "w2" } TaskReply.zero 2 2).reply.TaskType = -1 ∧
    (GetTask exTwoJobs [0, 1] { WorkerID := "w2" } TaskReply.zero 2 2).reply.TaskType
      = TaskTypeMap ∧
    (GetTask exTwoJobs [0, 1] { WorkerID := "w2" } TaskReply.zero 2 2).reply.JobID = 1 ∧
    (GetTask exTwoJobs [0, 1] { WorkerID := "w2" } TaskReply.zero 2 2).reply.TaskID = 0 ∧
    (GetTask exTwoJobs [0, 1] { WorkerID := "w2" } TaskReply.zero 2 2).reply.FileName
      = "b.txt" ∧
    (GetTask exTwoJobs [1, 0] { WorkerID := "w2" } TaskReply.zero 2 2).reply.JobID = 1 :=
  ⟨(GetTask_wait_iff exStalled [0] { WorkerID := "w2" } TaskReply.zero 2 2
      (List.Perm.refl _)).1.2 (by
        intro k job hj _ _
        have hmem := jobsGet_some_mem_keys hj
        have hkeys : jobsKeys exStalled.jobs = [0] := by decide
        rw [hkeys] at hmem
        have hk : k = 0 := by simpa using hmem
        subst hk
        have hjob : job = _ := (Option.some.inj hj).symm
        rw [hjob]
        unfold HasAssignableTask
        decide),
   by decide, by decide, by decide, by decide, by decide⟩

/-- C12 as the code has it.  `GetTask` has one signal for "no assignment": it never
answers -2, its answer is always Wait (-1), MAP or REDUCE, and when the coordinator
holds no job at all it answers Wait (-1) and leaves the state as it was. -/
theorem GetTask_never_NoWork (c : Coordinator) (order : List Int) (args : TaskArgs)
    (reply : TaskReply) (now now2 : Nat) :
    (GetTask c order args reply now now2).reply.TaskType ≠ -2 ∧
    ((GetTask c order args reply now now2).reply.TaskType = -1 ∨
      (GetTask c order args reply now now2).reply.TaskType = TaskTypeMap ∨
      (GetTask c order args reply now now2).reply.TaskType = TaskTypeReduce) ∧
    (c.jobs = [] →
      (GetTask c order args reply now now2).reply.TaskType = -1 ∧
      (GetTask c order args reply now now2).c = c) := by
  have ht := GetTask_type c order args reply now now2
  refine ⟨?_, ht, ?_⟩
  · rcases ht with h | h | h <;> rw [h] <;> decide
  · intro hnil
    have := GetTask_blocked order c args reply now now2 (by
      intro k _ job hj
      rw [hnil] at hj
      simp [jobsGet] at hj)
    rw [this]
    exact ⟨rfl, rfl⟩

/-- Witness of `GetTask_never_NoWork`: a new coordinator answers Wait. -/
theorem GetTask_never_NoWork_witness :
    (GetTask NewCoordinator [] { WorkerID := "w1" } TaskReply.zero 0 0).reply.TaskType = -1 ∧
    (GetTask NewCoordinator [] { WorkerID := "w1" } TaskReply.zero 0 0).c = NewCoordinator :=
  (GetTask_never_NoWork NewCoordinator [] { WorkerID := "w1" } TaskReply.zero 0 0).2.2 rfl

/-- Counterexample to C12: a coordinator that holds no job answers -1, the Wait
signal, and not -2. -/
theorem GetTask_no_jobs_counterexample :
    NewCoordinator.jobs = [] ∧
    (GetTask NewCoordinator [] { WorkerID := "w1" } TaskReply.zero 0 0).reply.TaskType = -1 ∧
    (GetTask NewCoordinator [] { WorkerID := "w1" } TaskReply.zero 0 0).reply.TaskType ≠ -2 := by
  decide

end coordinator

/-! ## Assignment fidelity -/

namespace coordinator

open common

theorem getElem?_assign_ne (ts : List Task) (i j : Nat) (task : Task) (w : String)
    (now : Nat) (hij : j ≠ i) : (assign ts i task w now)[j]? = ts[j]? := by
  unfold assign
  rw [List.getElem?_set_ne (fun h => hij h.symm)]

theorem Marked.get_tasks {c cm : Coordinator} (h : Marked c cm) {k : Int} {job : Job}
    (hj : jobsGet c.jobs k = some job) :
    ∃ job1 : Job, jobsGet cm.jobs k = some job1 ∧ job1.MapTasks = job.MapTasks ∧
      job1.ReduceTasks = job.ReduceTasks := by
  obtain ⟨job1, h1, hmj⟩ := h.get hj
  exact ⟨job1, h1, hmj.tasks.1, hmj.tasks.2⟩

/-- C14 (assignment fidelity).  In a reachable state, when `GetTask` answers worker
`w` with a MAP or REDUCE assignment: the reply's `JobID` is the key and `ID` of a
stored, non-terminal job; the reply's `TaskID` is the index and `ID` of the first IDLE
task of that phase in the job; `NReduce` is the job's fan-out; `NMap` is the number
of its partitions and of its map tasks; for MAP, `FileName` is the task's `FileName`
and the partition at that index.  After the call that task is IN_PROGRESS with
`WorkerID = w` and `StartTime = now`, and every other task of the job, of either
phase, and every task of every other job is what it was. -/
theorem GetTask_assignment_fidelity (c : Coordinator) (hc : Reachable c) (order : List Int)
    (args : TaskArgs) (reply : TaskReply) (now now2 : Nat)
    (h : (GetTask c order args reply now now2).reply.TaskType = TaskTypeMap ∨
         (GetTask c order args reply now now2).reply.TaskType = TaskTypeReduce) :
    ∃ (job : Job) (i : Nat) (task : Task),
      jobsGet c.jobs (GetTask c order args reply now now2).reply.JobID = some job ∧
      job.ID = (GetTask c order args reply now now2).reply.JobID ∧
      job.Status ≠ "COMPLETED" ∧ job.Status ≠ "FAILED" ∧
      (tasksOf job (GetTask c order args reply now now2).reply.TaskType)[i]? = some task ∧
      task.Status = TaskStatusIdle ∧
      (∀ (j : Nat) (u : Task), j < i →
        (tasksOf job (GetTask c order args reply now now2).reply.TaskType)[j]? = some u →
        u.Status ≠ TaskStatusIdle) ∧
      (GetTask c order args reply now now2).reply.TaskID = (i : Int) ∧
      task.ID = (i : Int) ∧
      (GetTask c order args reply now now2).reply.NReduce = job.NReduce ∧
      (GetTask c order args reply now now2).reply.NMap = (job.Files.length : Int) ∧
      (GetTask c order args reply now now2).reply.NMap = (job.MapTasks.length : Int) ∧
      ((GetTask c order args reply now now2).reply.TaskType = TaskTypeMap →
        (GetTask c order args reply now now2).reply.FileName = task.FileName ∧
        job.Files[i]? = some (GetTask c order args reply now now2).reply.FileName) ∧
      (∃ job1 : Job,
        jobsGet (GetTask c order args reply now now2).c.jobs
          (GetTask c order args reply now now2).reply.JobID = some job1 ∧
        (tasksOf job1 (GetTask c order args reply now now2).reply.TaskType)[i]? =
          some { task with Status := TaskStatusInProgress, WorkerID := args.WorkerID,
                           StartTime := now } ∧
        (∀ j : Nat, j ≠ i →
          (tasksOf job1 (GetTask c order args reply now now2).reply.TaskType)[j]? =
            (tasksOf job (GetTask c order args reply now now2).reply.TaskType)[j]?) ∧
        (∀ ty : Int,
          (ty = TaskTypeMap ↔
            ¬ (GetTask c order args reply now now2).reply.TaskType = TaskTypeMap) →
          tasksOf job1 ty = tasksOf job ty)) ∧
      (∀ (k : Int) (jobk : Job),
        k ≠ (GetTask c order args reply now now2).reply.JobID →
        jobsGet c.jobs k = some jobk →
        ∃ jobk1 : Job, jobsGet (GetTask c order args reply now now2).c.jobs k = some jobk1 ∧
          jobk1.MapTasks = jobk.MapTasks ∧ jobk1.ReduceTasks = jobk.ReduceTasks) := by
  have hinv := hc.inv
  rcases GetTask_spec order c args reply now now2 with
    ⟨_, hr, _, _⟩ | ⟨pre, k, post, cm, job, i, task, ho, _, hm, hj, hjm, hs1, hs2, hcase⟩
  · rw [hr] at h; simp at h
  · have hok := hinv.jobs_ok k job hj
    rcases hcase with ⟨hf, hr⟩ | ⟨_, _, hf, hr⟩
    · obtain ⟨_, hget, hidle, hfirst⟩ := findIdle_some _ _ _ _ hf
      simp only [Nat.sub_zero] at hget hfirst
      have hid := hok.map_ids i task hget
      rw [hr]
      simp only [mapOutcome, hok.id_eq, hid, tasksOf, if_true]
      refine ⟨job, i, task, hj, hok.id_eq, hs1, hs2, hget, hidle, hfirst, rfl, hid, rfl, rfl,
        by rw [hok.map_len], fun _ => ⟨rfl, hok.map_file i task hget⟩, ?_, ?_⟩
      · refine ⟨_, jobsGet_jobsSet_self _ _ _, getElem?_assign_self _ _ _ _ _ _ hget, ?_, ?_⟩
        · intro j hji; exact getElem?_assign_ne _ _ _ _ _ _ hji
        · intro ty hty
          have : ¬ ty = TaskTypeMap := fun h => (hty.1 h) trivial
          simp only [if_neg this]
      · intro k2 jobk hk2 hjk
        obtain ⟨jobk1, h1, h2, h3⟩ := hm.get_tasks hjk
        refine ⟨jobk1, ?_, h2, h3⟩
        rw [jobsGet_jobsSet_ne _ _ _ _ hk2]; exact h1
    · obtain ⟨_, hget, hidle, hfirst⟩ := findIdle_some _ _ _ _ hf
      simp only [Nat.sub_zero] at hget hfirst
      have hid := hok.red_ids i task hget
      have hne : ¬ (TaskTypeReduce = TaskTypeMap) := by decide
      rw [hr]
      simp only [reduceOutcome, hok.id_eq, hid, tasksOf, if_neg hne]
      refine ⟨job, i, task, hj, hok.id_eq, hs1, hs2, hget, hidle, hfirst, rfl, hid, rfl, rfl,
        by rw [hok.map_len], fun h => absurd h hne, ?_, ?_⟩
      · refine ⟨_, jobsGet_jobsSet_self _ _ _, getElem?_assign_self _ _ _ _ _ _ hget, ?_, ?_⟩
        · intro j hji; exact getElem?_assign_ne _ _ _ _ _ _ hji
        · intro ty hty
          have : ty = TaskTypeMap := hty.2 hne
          simp only [if_pos this]
      · intro k2 jobk hk2 hjk
        obtain ⟨jobk1, h1, h2, h3⟩ := hm.get_tasks hjk
        refine ⟨jobk1, ?_, h2, h3⟩
        rw [jobsGet_jobsSet_ne _ _ _ _ hk2]; exact h1

/-- Witness of C14: the first `GetTask` on `exTwoByTwo`, by "w1", answers with map
task 0 of job 0, file "a.txt", `NReduce = 2` and `NMap = 2`. -/
theorem GetTask_assignment_fidelity_witness :
    (GetTask exTwoByTwo [0] { WorkerID := "w1" } TaskReply.zero 1 1).reply =
      { JobID := 0, TaskType := TaskTypeMap, TaskID := 0, FileName := "a.txt", NReduce := 2,
        NMap := 2, Timestamp := 1, Task := none } ∧
    ∃ (job : Job) (i : Nat) (task : Task),
      jobsGet exTwoByTwo.jobs 0 = some job ∧ job.MapTasks[i]? = some task ∧
      task.Status = TaskStatusIdle ∧ i = 0 := by
  refine ⟨by decide, ?_⟩
  obtain ⟨job, i, task, h1, _, _, _, h5, h6, _, h8, _⟩ :=
    GetTask_assignment_fidelity exTwoByTwo reachable_exTwoByTwo [0] { WorkerID := "w1" }
      TaskReply.zero 1 1 (Or.inl (by decide))
  have hr : (GetTask exTwoByTwo [0] { WorkerID := "w1" } TaskReply.zero 1 1).reply =
      { JobID := 0, TaskType := TaskTypeMap, TaskID := 0, FileName := "a.txt", NReduce := 2,
        NMap := 2, Timestamp := 1, Task := none } := by decide
  rw [hr] at h1 h5 h8
  refine ⟨job, i, task, h1, h5, h6, ?_⟩
  have : (0 : Int) = (i : Int) := h8
  omega

end coordinator

/-! ## Job IDs -/

namespace coordinator

open common

/-- The states reached from `NewCoordinator` by calls of `SubmitJob`, `GetTask`,
`ReportTask` and `Done`, with the number of calls of `SubmitJob` made. -/
inductive ReachableAfter : Nat → Coordinator → Prop
  | init : ReachableAfter 0 NewCoordinator
  | submit (n : Nat) (c : Coordinator) (files : List String) (nReduce : Int) (now : Nat) :
      ReachableAfter n c → ReachableAfter (n + 1) (SubmitJob c files nReduce now).1
  | getTask (n : Nat) (c : Coordinator) (order : List Int) (args : TaskArgs)
      (reply : TaskReply) (now now2 : Nat) :
      ReachableAfter n c → order.Perm (jobsKeys c.jobs) →
      ReachableAfter n (GetTask c order args reply now now2).c
  | report (n : Nat) (c : Coordinator) (args : ReportTaskArgs) (reply : ReportTaskReply) :
      ReachableAfter n c → ReachableAfter n (ReportTask c args reply).c
  | done (n : Nat) (c : Coordinator) (order : List Int) :
      ReachableAfter n c → order.Perm (jobsKeys c.jobs) → ReachableAfter n (Done c order).1

theorem Done_state (c : Coordinator) (order : List Int) : (Done c order).1 = c := by
  unfold Done; split <;> rfl

theorem nextJob_GetTask (c : Coordinator) (order : List Int) (args : TaskArgs)
    (reply : TaskReply) (now now2 : Nat) :
    (GetTask c order args reply now now2).c.nextJob = c.nextJob := by
  rcases GetTask_spec order c args reply now now2 with
    ⟨_, _, hm, _⟩ | ⟨pre, k, post, cm, job, i, task, _, _, hm, _, _, _, _, hcase⟩
  · exact hm.1
  · rcases hcase with ⟨_, hr⟩ | ⟨_, _, _, hr⟩
    · rw [hr]; exact hm.1
    · rw [hr]; exact hm.1

theorem nextJob_ReportTask (c : Coordinator) (args : ReportTaskArgs)
    (reply : ReportTaskReply) : (ReportTask c args reply).c.nextJob = c.nextJob := by
  unfold ReportTask
  cases hj : jobsGet c.jobs args.JobID with
  | none => rfl
  | some job =>
    simp only
    split
    · rfl
    · cases ht : (tasksOf job args.TaskType)[args.TaskID.toNat]? with
      | none => rfl
      | some task =>
        simp only
        split <;> rfl

theorem ReachableAfter.reachable {n : Nat} {c : Coordinator} (h : ReachableAfter n c) :
    Reachable c ∧ c.nextJob = (n : Int) := by
  induction h with
  | init => exact ⟨Reachable.init, rfl⟩
  | submit n c files nReduce now _ ih =>
    refine ⟨Reachable.submit _ _ _ _ ih.1, ?_⟩
    show c.nextJob + 1 = ((n + 1 : Nat) : Int)
    rw [ih.2]; simp
  | getTask n c order args reply now now2 _ hp ih =>
    exact ⟨Reachable.getTask _ _ _ _ _ _ ih.1 hp, by rw [nextJob_GetTask]; exact ih.2⟩
  | report n c args reply _ ih =>
    exact ⟨Reachable.report _ _ _ ih.1, by rw [nextJob_ReportTask]; exact ih.2⟩
  | done n c order _ _ ih => rw [Done_state]; exact ih

/-- C15 (job IDs are unique and increasing).  In a state reached from `NewCoordinator`
by calls among which `n` were calls of `SubmitJob`: the next call of `SubmitJob`
returns `n`; the keys of the stored jobs are exactly the IDs `0, ..., n - 1` returned
so far, each once, every stored job carries its key as `ID`, and all are smaller than
the next ID; a further `SubmitJob` leaves every stored job in place and unchanged;
`GetTask` and `ReportTask` leave the keys and the `ID` of each job as they were, and
`Done` changes nothing. -/
theorem SubmitJob_ids_increase (n : Nat) (c : Coordinator) (h : ReachableAfter n c) :
    (∀ (files : List String) (nReduce : Int) (now : Nat),
      (SubmitJob c files nReduce now).2 = (n : Int)) ∧
    jobsKeys c.jobs = (List.range n).map Int.ofNat ∧
    (jobsKeys c.jobs).Nodup ∧
    (∀ (k : Int) (job : Job), jobsGet c.jobs k = some job →
      job.ID = k ∧ 0 ≤ k ∧ k < (n : Int)) ∧
    (∀ (files : List String) (nReduce : Int) (now : Nat) (k : Int) (job : Job),
      jobsGet c.jobs k = some job →
      jobsGet (SubmitJob c files nReduce now).1.jobs k = some job) ∧
    (∀ (order : List Int) (args : TaskArgs) (reply : TaskReply) (now now2 : Nat),
      jobsKeys (GetTask c order args reply now now2).c.jobs = jobsKeys c.jobs ∧
      ∀ (k : Int) (job : Job), jobsGet c.jobs k = some job →
        ∃ job1 : Job, jobsGet (GetTask c order args reply now now2).c.jobs k = some job1 ∧
          job1.ID = job.ID) ∧
    (∀ (args : ReportTaskArgs) (reply : ReportTaskReply),
      jobsKeys (ReportTask c args reply).c.jobs = jobsKeys c.jobs ∧
      ∀ (k : Int) (job : Job), jobsGet c.jobs k = some job →
        ∃ job1 : Job, jobsGet (ReportTask c args reply).c.jobs k = some job1 ∧
          job1.ID = job.ID) ∧
    (∀ order : List Int, (Done c order).1 = c) := by
  obtain ⟨hr, hn⟩ := h.reachable
  have hinv := hr.inv
  have hkeys : jobsKeys c.jobs = (List.range n).map Int.ofNat := by
    rw [hinv.keys, hn]; rfl
  have hlt : ∀ (k : Int) (job : Job), jobsGet c.jobs k = some job → 0 ≤ k ∧ k < (n : Int) := by
    intro k job hj
    have hmem := jobsGet_some_mem_keys hj
    rw [hkeys] at hmem
    obtain ⟨m, hm, he⟩ := List.mem_map.1 hmem
    have hm2 := List.mem_range.1 hm
    have he2 : (m : Int) = k := he
    omega
  refine ⟨fun _ _ _ => hn, hkeys, ?_, ?_, ?_, ?_, ?_, fun order => Done_state c order⟩
  · rw [hkeys]
    exact (List.nodup_range n).map (fun a b hab => by
      have : (a : Int) = (b : Int) := hab
      omega)
  · intro k job hj
    exact ⟨(hinv.jobs_ok k job hj).id_eq, hlt k job hj⟩
  · intro files nReduce now k job hj
    have hne : k ≠ c.nextJob := by
      intro hk
      rw [hk, hinv.get_none] at hj
      simp at hj
    show jobsGet (jobsSet c.jobs c.nextJob _) k = some job
    rw [jobsGet_jobsSet_ne _ _ _ _ hne]; exact hj
  · intro order args reply now now2
    refine ⟨jobsKeys_GetTask c order args reply now now2, ?_⟩
    intro k job hj
    have hmem : k ∈ jobsKeys (GetTask c order args reply now now2).c.jobs := by
      rw [jobsKeys_GetTask]; exact jobsGet_some_mem_keys hj
    obtain ⟨job1, hj1⟩ := mem_keys_jobsGet hmem
    refine ⟨job1, hj1, ?_⟩
    rw [((hinv.getTask order args reply now now2).jobs_ok k job1 hj1).id_eq,
      (hinv.jobs_ok k job hj).id_eq]
  · intro args reply
    refine ⟨jobsKeys_ReportTask c args reply, ?_⟩
    intro k job hj
    have hmem : k ∈ jobsKeys (ReportTask c args reply).c.jobs := by
      rw [jobsKeys_ReportTask]; exact jobsGet_some_mem_keys hj
    obtain ⟨job1, hj1⟩ := mem_keys_jobsGet hmem
    refine ⟨job1, hj1, ?_⟩
    rw [((hinv.report args reply).jobs_ok k job1 hj1).id_eq, (hinv.jobs_ok k job hj).id_eq]

/-- Witness of C15: after two submissions and a `GetTask`, the third submission
returns 2 and the stored keys are 0, 1. -/
theorem SubmitJob_ids_increase_witness :
    ReachableAfter 2 exTwoJobs ∧
    (SubmitJob exTwoJobs ["c.txt"] 3 7).2 = 2 ∧
    jobsKeys exTwoJobs.jobs = [0, 1] :=
  have hr : ReachableAfter 2 exTwoJobs :=
    ReachableAfter.getTask _ _ _ _ _ _ _
      (ReachableAfter.submit _ _ _ _ _ (ReachableAfter.submit _ _ _ _ _ ReachableAfter.init))
      (List.Perm.refl _)
  ⟨hr, (SubmitJob_ids_increase 2 exTwoJobs hr).1 ["c.txt"] 3 7,
    (SubmitJob_ids_increase 2 exTwoJobs hr).2.1⟩

end coordinator

/-! ## A run of one worker -/

namespace worker

open common coordinator

/-- The state after the first `n` iterations of the loop of one worker, the iteration
of index `i` reading the clock values `clock i`. -/
def rounds (order : List Int) (workerID : String) (clock : Nat → Nat × Nat) :
    Nat → Coordinator → Coordinator
  | 0, c => c
  | n + 1, c =>
    (iteration (rounds order workerID clock n c) order workerID (clock n).1 (clock n).2).1

end worker

namespace coordinator

open common

/-- The tasks of a list are numbered by their index, the first `p` are COMPLETED and
the others IDLE. -/
def Progressed (ts : List Task) (p : Nat) : Prop :=
  ∀ (j : Nat) (t : Task), ts[j]? = some t →
    t.ID = (j : Int) ∧ t.Status = if j < p then TaskStatusCompleted else TaskStatusIdle

/-- The state of a run of one worker on a single job stored under key 0, after `i`
iterations. -/
def RunState (files : List String) (nReduce : Int) (i : Nat) (c : Coordinator) : Prop :=
  ∃ job : Job, c.jobs = [(0, job)] ∧ job.ID = 0 ∧ job.Files = files ∧
    job.Status = "IN_PROGRESS" ∧ job.MapTasks.length = files.length ∧
    job.ReduceTasks.length = nReduce.toNat ∧
    (∀ (j : Nat) (t : Task), job.MapTasks[j]? = some t → files[j]? = some t.FileName) ∧
    Progressed job.MapTasks (min i files.length) ∧
    Progressed job.ReduceTasks (i - files.length)

theorem findIdle_first (ts : List Task) (i : Nat) (t : Task) (hget : ts[i]? = some t)
    (hidle : t.Status = TaskStatusIdle)
    (hbefore : ∀ (j : Nat) (u : Task), j < i → ts[j]? = some u → u.Status ≠ TaskStatusIdle) :
    findIdle ts 0 = some (i, t) := by
  cases h : findIdle ts 0 with
  | none =>
    have := (findIdle_none ts 0).1 h t (List.mem_iff_getElem?.2 ⟨i, hget⟩)
    exact absurd hidle this
  | some p =>
    obtain ⟨i1, t1⟩ := p
    obtain ⟨_, hget1, hidle1, hbefore1⟩ := findIdle_some _ _ _ _ h
    simp only [Nat.sub_zero] at hget1 hbefore1
    have hi : i1 = i := by
      rcases Nat.lt_trichotomy i1 i with hlt | heq | hgt
      · exact absurd hidle1 (hbefore i1 t1 hlt hget1)
      · exact heq
      · exact absurd hidle (hbefore1 i t hgt hget)
    subst hi
    rw [hget] at hget1
    simp at hget1
    subst hget1
    rfl

theorem GetTask_head_map (c : Coordinator) (k : Int) (rest : List Int) (args : TaskArgs)
    (reply : TaskReply) (now now2 : Nat) (job : Job) (i : Nat) (task : Task)
    (hj : jobsGet c.jobs k = some job) (hs1 : job.Status ≠ "COMPLETED")
    (hs2 : job.Status ≠ "FAILED") (hf : findIdle job.MapTasks 0 = some (i, task)) :
    GetTask c (k :: rest) args reply now now2 =
      mapOutcome c k job i task args reply now now2 := by
  rw [GetTask, hj]
  simp only
  rw [if_neg (by rintro (h | h); exact hs1 h; exact hs2 h), hf]
  rfl

theorem GetTask_head_reduce (c : Coordinator) (k : Int) (rest : List Int) (args : TaskArgs)
    (reply : TaskReply) (now now2 : Nat) (job : Job) (i : Nat) (task : Task)
    (hj : jobsGet c.jobs k = some job) (hs1 : job.Status ≠ "COMPLETED")
    (hs2 : job.Status ≠ "FAILED") (hm : findIdle job.MapTasks 0 = none)
    (hd : allDone job.MapTasks = true) (hf : findIdle job.ReduceTasks 0 = some (i, task)) :
    GetTask c (k :: rest) args reply now now2 =
      reduceOutcome c k job i task args reply now := by
  rw [GetTask, hj]
  simp only
  rw [if_neg (by rintro (h | h); exact hs1 h; exact hs2 h), hm]
  simp only
  rw [if_neg (by rw [hd]; decide), hf]
  rfl

theorem ReportTask_match (c : Coordinator) (args : ReportTaskArgs) (reply : ReportTaskReply)
    (job : Job) (task : Task) (hj : jobsGet c.jobs args.JobID = some job)
    (h0 : 0 ≤ args.TaskID) (ht : (tasksOf job args.TaskType)[args.TaskID.toNat]? = some task)
    (hw : task.WorkerID = args.WorkerID) :
    ReportTask c args reply =
      { c := { c with jobs := jobsSet c.jobs args.JobID
                        (complete job args.TaskType args.TaskID.toNat task) },
        reply := { reply with Ack := true }, err := none } := by
  obtain ⟨hl, _⟩ := List.getElem?_eq_some.1 ht
  have hrange : ¬ (args.TaskID < 0 ∨ args.TaskID ≥ ((tasksOf job args.TaskType).length : Int)) := by
    have := Int.toNat_of_nonneg h0
    omega
  unfold ReportTask
  simp only [hj, if_neg hrange, ht, if_pos hw]

theorem Progressed.next {ts : List Task} {p : Nat} (h : Progressed ts p) (hp : p < ts.length)
    (w : String) (now : Nat) :
    ∃ task : Task, ts[p]? = some task ∧ task.ID = (p : Int) ∧
      findIdle ts 0 = some (p, task) ∧
      Progressed ((assign ts p task w now).set p
        { task with Status := TaskStatusCompleted, WorkerID := w, StartTime := now }) (p + 1) := by
  have hget : ts[p]? = some ts[p] := List.getElem?_eq_getElem hp
  obtain ⟨hid, hst⟩ := h p _ hget
  rw [if_neg (Nat.lt_irrefl p)] at hst
  refine ⟨ts[p], hget, hid, ?_, ?_⟩
  · refine findIdle_first ts p _ hget hst ?_
    intro j u hj hu
    rw [(h j u hu).2, if_pos hj]; decide
  · intro j t hjt
    simp only [assign, List.set_set, List.getElem?_set] at hjt
    by_cases hpj : p = j
    · subst hpj
      rw [if_pos rfl, if_pos hp] at hjt
      simp at hjt
      rw [← hjt]
      exact ⟨hid, by rw [if_pos (Nat.lt_succ_self p)]⟩
    · rw [if_neg hpj] at hjt
      obtain ⟨h1, h2⟩ := h j t hjt
      refine ⟨h1, ?_⟩
      rw [h2]
      by_cases hlt : j < p
      · rw [if_pos hlt, if_pos (by omega)]
      · rw [if_neg hlt, if_neg (by omega)]

theorem Progressed.done {ts : List Task} {p : Nat} (h : Progressed ts p) (hp : ts.length ≤ p) :
    allDone ts = true ∧ findIdle ts 0 = none := by
  have hall : allDone ts = true := by
    rw [allDone_iff]
    intro t ht
    obtain ⟨j, hj⟩ := List.mem_iff_getElem?.1 ht
    obtain ⟨hl, _⟩ := List.getElem?_eq_some.1 hj
    rw [(h j t hj).2, if_pos (by omega)]
  exact ⟨hall, allDone_findIdle ts hall⟩

theorem RunState.start (files : List String) (nReduce : Int) (now : Nat) :
    RunState files nReduce 0 (SubmitJob NewCoordinator files nReduce now).1 := by
  refine ⟨_, rfl, rfl, rfl, rfl, length_initMapTasks files, length_initReduceTasks nReduce,
    ?_, ?_, ?_⟩
  · intro j t ht
    exact (JobOK.submitted 0 files nReduce now).map_file j t ht
  · intro j t ht
    refine ⟨(JobOK.submitted 0 files nReduce now).map_ids j t ht, ?_⟩
    rw [if_neg (by simp)]
    exact status_initMapTasks files t (List.mem_iff_getElem?.2 ⟨j, ht⟩)
  · intro j t ht
    refine ⟨(JobOK.submitted 0 files nReduce now).red_ids j t ht, ?_⟩
    rw [if_neg (by simp)]
    exact status_initReduceTasks nReduce t (List.mem_iff_getElem?.2 ⟨j, ht⟩)

end coordinator

namespace coordinator

open common

/-- A job after map task `i` was handed to `w` at time `t1` and reported by `w`. -/
def mapReported (job : Job) (i : Nat) (task : Task) (w : String) (t1 : Nat) : Job :=
  let reported : Task :=
    { task with Status := TaskStatusCompleted, WorkerID := w, StartTime := t1 }
  { job with MapTasks := (assign job.MapTasks i task w t1).set i reported }

/-- A job after reduce task `i` was handed to `w` at time `t1` and reported by `w`. -/
def reduceReported (job : Job) (i : Nat) (task : Task) (w : String) (t1 : Nat) : Job :=
  let reported : Task :=
    { task with Status := TaskStatusCompleted, WorkerID := w, StartTime := t1 }
  { job with ReduceTasks := (assign job.ReduceTasks i task w t1).set i reported }

theorem jobsSet_jobsSet (js : List (Int × Job)) (k : Int) (a b : Job) :
    jobsSet (jobsSet js k a) k b = jobsSet js k b := by
  induction js with
  | nil => simp [jobsSet]
  | cons e rest ih =>
    obtain ⟨k1, v⟩ := e
    by_cases h : k1 = k
    · simp [jobsSet, h]
    · simp [jobsSet, h, ih]

theorem iteration_map (c : Coordinator) (order : List Int) (k : Int) (job : Job) (i : Nat)
    (task : Task) (w : String) (t1 t2 : Nat)
    (hG : GetTask c order { WorkerID := w } TaskReply.zero t1 t2 =
      mapOutcome c k job i task { WorkerID := w } TaskReply.zero t1 t2)
    (hid : job.ID = k) (htid : task.ID = (i : Int)) (hget : job.MapTasks[i]? = some task) :
    worker.iteration c order w t1 t2 =
      ({ c with jobs := jobsSet c.jobs k (mapReported job i task w t1) },
       (mapOutcome c k job i task { WorkerID := w } TaskReply.zero t1 t2).reply,
       some { c := { c with jobs := jobsSet c.jobs k (mapReported job i task w t1) },
              reply := { Ack := true }, err := none }) := by
  have hR := ReportTask_match
    (mapOutcome c k job i task { WorkerID := w } TaskReply.zero t1 t2).c
    { JobID := k, TaskID := (i : Int), TaskType := TaskTypeMap, WorkerID := w }
    ReportTaskReply.zero
    { job with MapTasks := assign job.MapTasks i task w t1 }
    { task with Status := TaskStatusInProgress, WorkerID := w, StartTime := t1 }
    (jobsGet_jobsSet_self _ _ _) (Int.ofNat_nonneg i)
    (by
      show (assign job.MapTasks i task w t1)[((i : Nat) : Int).toNat]? = _
      rw [Int.toNat_ofNat]
      exact getElem?_assign_self _ _ _ _ _ _ hget)
    rfl
  have hty : (mapOutcome c k job i task { WorkerID := w } TaskReply.zero t1 t2).reply.TaskType
      = TaskTypeMap := rfl
  unfold worker.iteration
  simp only [hG]
  rw [if_pos (Or.inl hty)]
  have hargs : ReportTaskArgs.mk
      (mapOutcome c k job i task { WorkerID := w } TaskReply.zero t1 t2).reply.JobID
      (mapOutcome c k job i task { WorkerID := w } TaskReply.zero t1 t2).reply.TaskID
      (mapOutcome c k job i task { WorkerID := w } TaskReply.zero t1 t2).reply.TaskType
      w = ReportTaskArgs.mk k (i : Int) TaskTypeMap w := by
    simp only [mapOutcome, hid, htid]
  rw [hargs, hR]
  simp only [mapOutcome, jobsSet_jobsSet, Int.toNat_ofNat, coordinator.complete, if_true,
    ReportTaskReply.zero, mapReported]

theorem iteration_reduce (c : Coordinator) (order : List Int) (k : Int) (job : Job) (i : Nat)
    (task : Task) (w : String) (t1 t2 : Nat)
    (hG : GetTask c order { WorkerID := w } TaskReply.zero t1 t2 =
      reduceOutcome c k job i task { WorkerID := w } TaskReply.zero t1)
    (hid : job.ID = k) (htid : task.ID = (i : Int)) (hget : job.ReduceTasks[i]? = some task) :
    worker.iteration c order w t1 t2 =
      ({ c with jobs := jobsSet c.jobs k (reduceReported job i task w t1) },
       (reduceOutcome c k job i task { WorkerID := w } TaskReply.zero t1).reply,
       some { c := { c with jobs := jobsSet c.jobs k (reduceReported job i task w t1) },
              reply := { Ack := true }, err := none }) := by
  have hne : ¬ (TaskTypeReduce = TaskTypeMap) := by decide
  have hR := ReportTask_match
    (reduceOutcome c k job i task { WorkerID := w } TaskReply.zero t1).c
    { JobID := k, TaskID := (i : Int), TaskType := TaskTypeReduce, WorkerID := w }
    ReportTaskReply.zero
    { job with ReduceTasks := assign job.ReduceTasks i task w t1 }
    { task with Status := TaskStatusInProgress, WorkerID := w, StartTime := t1 }
    (jobsGet_jobsSet_self _ _ _) (Int.ofNat_nonneg i)
    (by
      show (assign job.ReduceTasks i task w t1)[((i : Nat) : Int).toNat]? = _
      rw [Int.toNat_ofNat]
      exact getElem?_assign_self _ _ _ _ _ _ hget)
    rfl
  have hty : (reduceOutcome c k job i task { WorkerID := w } TaskReply.zero t1).reply.TaskType
      = TaskTypeReduce := rfl
  unfold worker.iteration
  simp only [hG]
  rw [if_pos (Or.inr hty)]
  have hargs : ReportTaskArgs.mk
      (reduceOutcome c k job i task { WorkerID := w } TaskReply.zero t1).reply.JobID
      (reduceOutcome c k job i task { WorkerID := w } TaskReply.zero t1).reply.TaskID
      (reduceOutcome c k job i task { WorkerID := w } TaskReply.zero t1).reply.TaskType
      w = ReportTaskArgs.mk k (i : Int) TaskTypeReduce w := by
    simp only [reduceOutcome, hid, htid]
  rw [hargs, hR]
  simp only [reduceOutcome, jobsSet_jobsSet, Int.toNat_ofNat, coordinator.complete, if_neg hne,
    ReportTaskReply.zero, reduceReported]

end coordinator

namespace coordinator

open common

theorem RunState.step {files : List String} {nReduce : Int} {i : Nat} {c : Coordinator}
    (h : RunState files nReduce i c) (hi : i < files.length + nReduce.toNat) (w : String)
    (t1 t2 : Nat) :
    RunState files nReduce (i + 1) (worker.iteration c [0] w t1 t2).1 ∧
    (worker.iteration c [0] w t1 t2).2.1.JobID = 0 ∧
    (i < files.length →
      (worker.iteration c [0] w t1 t2).2.1.TaskType = TaskTypeMap ∧
      (worker.iteration c [0] w t1 t2).2.1.TaskID = (i : Int) ∧
      files[i]? = some (worker.iteration c [0] w t1 t2).2.1.FileName) ∧
    (files.length ≤ i →
      (worker.iteration c [0] w t1 t2).2.1.TaskType = TaskTypeReduce ∧
      (worker.iteration c [0] w t1 t2).2.1.TaskID = ((i - files.length : Nat) : Int)) ∧
    ∃ r : ReportTaskResult, (worker.iteration c [0] w t1 t2).2.2 = some r ∧ r.err = none ∧
      r.reply.Ack = true := by
  obtain ⟨job, hjobs, hid, hfiles, hst, hml, hrl, hmf, hpm, hpr⟩ := h
  have hj : jobsGet c.jobs 0 = some job := by rw [hjobs]; simp [jobsGet]
  have hs1 : job.Status ≠ "COMPLETED" := by rw [hst]; decide
  have hs2 : job.Status ≠ "FAILED" := by rw [hst]; decide
  by_cases hlt : i < files.length
  · rw [Nat.min_eq_left (Nat.le_of_lt hlt)] at hpm
    obtain ⟨task, hget, htid, hfind, hnext⟩ := hpm.next (by omega) w t1
    have hG := GetTask_head_map c 0 [] { WorkerID := w } TaskReply.zero t1 t2 job i task hj
      hs1 hs2 hfind
    rw [iteration_map c [0] 0 job i task w t1 t2 hG hid htid hget]
    refine ⟨⟨mapReported job i task w t1, ?_, hid, hfiles, hst, ?_, hrl, ?_, ?_, ?_⟩, hid,
      fun _ => ⟨rfl, htid, hmf i task hget⟩, fun hge => absurd hlt (by omega),
      ⟨_, rfl, rfl, rfl⟩⟩
    · show jobsSet c.jobs 0 _ = _
      rw [hjobs]; simp [jobsSet]
    · simp only [mapReported, assign, List.length_set]; exact hml
    · intro j t hjt
      simp only [mapReported, assign, List.set_set, List.getElem?_set] at hjt
      by_cases hij : i = j
      · subst hij
        rw [if_pos rfl] at hjt
        by_cases hl : i < job.MapTasks.length
        · rw [if_pos hl] at hjt; simp at hjt; rw [← hjt]; exact hmf i task hget
        · rw [if_neg hl] at hjt; simp at hjt
      · rw [if_neg hij] at hjt; exact hmf j t hjt
    · rw [Nat.min_eq_left (by omega : i + 1 ≤ files.length)]
      exact hnext
    · have h0 : i + 1 - files.length = i - files.length := by omega
      rw [h0]; exact hpr
  · have hge : files.length ≤ i := by omega
    rw [Nat.min_eq_right hge] at hpm
    obtain ⟨hdone, hnone⟩ := hpm.done (by omega)
    obtain ⟨task, hget, htid, hfind, hnext⟩ := hpr.next (by omega) w t1
    have hG := GetTask_head_reduce c 0 [] { WorkerID := w } TaskReply.zero t1 t2 job
      (i - files.length) task hj hs1 hs2 hnone hdone hfind
    rw [iteration_reduce c [0] 0 job (i - files.length) task w t1 t2 hG hid htid hget]
    refine ⟨⟨reduceReported job (i - files.length) task w t1, ?_, hid, hfiles, hst, hml, ?_,
      hmf, ?_, ?_⟩, hid, fun h => absurd h hlt, fun _ => ⟨rfl, htid⟩, ⟨_, rfl, rfl, rfl⟩⟩
    · show jobsSet c.jobs 0 _ = _
      rw [hjobs]; simp [jobsSet]
    · simp only [reduceReported, assign, List.length_set]; exact hrl
    · rw [Nat.min_eq_right (by omega : files.length ≤ i + 1)]
      exact hpm
    · have h0 : i + 1 - files.length = i - files.length + 1 := by omega
      rw [h0]; exact hnext

theorem RunState.rounds (files : List String) (nReduce : Int) (now0 : Nat) (w : String)
    (clock : Nat → Nat × Nat) (i : Nat) (hi : i ≤ files.length + nReduce.toNat) :
    RunState files nReduce i
      (worker.rounds [0] w clock i (SubmitJob NewCoordinator files nReduce now0).1) := by
  induction i with
  | zero => exact RunState.start files nReduce now0
  | succ i ih =>
    exact ((ih (by omega)).step (by omega) w (clock i).1 (clock i).2).1

/-- C13 (single-worker run).  On a new coordinator with one submitted job of `n`
partitions and fan-out `m`, let one worker run its loop, whatever the clock.  In each
of the first `n + m` iterations the reply carries the job's ID 0 and is never Wait:
iteration `i < n` receives MAP task `i` with the `i`-th partition as `FileName`,
iteration `n + j` with `j < m` receives REDUCE task `j`; and each time the report is
made and returns no error and `Ack = true`. -/
theorem single_worker_run (files : List String) (nReduce : Int) (now0 : Nat) (w : String)
    (clock : Nat → Nat × Nat) (i : Nat) (hi : i < files.length + nReduce.toNat) :
    (worker.iteration
      (worker.rounds [0] w clock i (SubmitJob NewCoordinator files nReduce now0).1)
      [0] w (clock i).1 (clock i).2).2.1.JobID
        = (SubmitJob NewCoordinator files nReduce now0).2 ∧
    (worker.iteration
      (worker.rounds [0] w clock i (SubmitJob NewCoordinator files nReduce now0).1)
      [0] w (clock i).1 (clock i).2).2.1.TaskType ≠ -1 ∧
    (i < files.length →
      (worker.iteration
        (worker.rounds [0] w clock i (SubmitJob NewCoordinator files nReduce now0).1)
        [0] w (clock i).1 (clock i).2).2.1.TaskType = TaskTypeMap ∧
      (worker.iteration
        (worker.rounds [0] w clock i (SubmitJob NewCoordinator files nReduce now0).1)
        [0] w (clock i).1 (clock i).2).2.1.TaskID = (i : Int) ∧
      files[i]? = some (worker.iteration
        (worker.rounds [0] w clock i (SubmitJob NewCoordinator files nReduce now0).1)
        [0] w (clock i).1 (clock i).2).2.1.FileName) ∧
    (files.length ≤ i →
      (worker.iteration
        (worker.rounds [0] w clock i (SubmitJob NewCoordinator files nReduce now0).1)
        [0] w (clock i).1 (clock i).2).2.1.TaskType = TaskTypeReduce ∧
      (worker.iteration
        (worker.rounds [0] w clock i (SubmitJob NewCoordinator files nReduce now0).1)
        [0] w (clock i).1 (clock i).2).2.1.TaskID = ((i - files.length : Nat) : Int)) ∧
    ∃ r : ReportTaskResult,
      (worker.iteration
        (worker.rounds [0] w clock i (SubmitJob NewCoordinator files nReduce now0).1)
        [0] w (clock i).1 (clock i).2).2.2 = some r ∧
      r.err = none ∧ r.reply.Ack = true := by
  have hstep := (RunState.rounds files nReduce now0 w clock i (Nat.le_of_lt hi)).step hi w
    (clock i).1 (clock i).2
  obtain ⟨_, hid, hmap, hred, hrep⟩ := hstep
  refine ⟨hid, ?_, hmap, hred, hrep⟩
  by_cases hlt : i < files.length
  · rw [(hmap hlt).1]; decide
  · rw [(hred (by omega)).1]; decide

/-- Witness of C13: files `[file1.txt, file2.txt]`, `nReduce` 2, worker "w1": the
iterations 0 and 1 receive MAP tasks 0 and 1, the iteration 2 receives REDUCE task 0. -/
theorem single_worker_run_witness :
    (worker.iteration
      (worker.rounds [0] "w1" (fun i => (i, i)) 0
        (SubmitJob NewCoordinator ["file1.txt", "file2.txt"] 2 0).1)
      [0] "w1" 0 0).2.1.TaskType = TaskTypeMap ∧
    (worker.iteration
      (worker.rounds [0] "w1" (fun i => (i, i)) 1
        (SubmitJob NewCoordinator ["file1.txt", "file2.txt"] 2 0).1)
      [0] "w1" 1 1).2.1.TaskType = TaskTypeMap ∧
    (worker.iteration
      (worker.rounds [0] "w1" (fun i => (i, i)) 1
        (SubmitJob NewCoordinator ["file1.txt", "file2.txt"] 2 0).1)
      [0] "w1" 1 1).2.1.TaskID = 1 ∧
    (worker.iteration
      (worker.rounds [0] "w1" (fun i => (i, i)) 2
        (SubmitJob NewCoordinator ["file1.txt", "file2.txt"] 2 0).1)
      [0] "w1" 2 2).2.1.TaskType = TaskTypeReduce ∧
    (worker.iteration
      (worker.rounds [0] "w1" (fun i => (i, i)) 2
        (SubmitJob NewCoordinator ["file1.txt", "file2.txt"] 2 0).1)
      [0] "w1" 2 2).2.1.TaskID = 0 :=
  ⟨((single_worker_run ["file1.txt", "file2.txt"] 2 0 "w1" (fun i => (i, i)) 0
      (by decide)).2.2.1 (by decide)).1,
   ((single_worker_run ["file1.txt", "file2.txt"] 2 0 "w1" (fun i => (i, i)) 1
      (by decide)).2.2.1 (by decide)).1,
   ((single_worker_run ["file1.txt", "file2.txt"] 2 0 "w1" (fun i => (i, i)) 1
      (by decide)).2.2.1 (by decide)).2.1,
   ((single_worker_run ["file1.txt", "file2.txt"] 2 0 "w1" (fun i => (i, i)) 2
      (by decide)).2.2.2.1 (by decide)).1,
   ((single_worker_run ["file1.txt", "file2.txt"] 2 0 "w1" (fun i => (i, i)) 2
      (by decide)).2.2.2.1 (by decide)).2⟩

end coordinator

/-! ## The worker: hashing and map-side partitioning

Go strings are modelled as `String`, that is, as valid UTF-8: `range` over a string and
`strings.FieldsFunc` see its code points (`String.data`), `hash.Write([]byte(key))`
sees its UTF-8 bytes.  Keys read back by `encoding/json` are always valid UTF-8.  The
standard library functions that the worker calls (`hash/fnv`, `strings.FieldsFunc`,
`sort.Strings`, `fmt.Sprintf`) are modelled from their documented behaviour. -/

namespace worker

/-- The struct `KeyValue`. -/
structure KeyValue where
  Key : String
  Value : String
  deriving DecidableEq, Repr

/-- The conversion `[]byte(key)`: the UTF-8 bytes of the string. -/
def bytesOf (s : String) : List UInt8 := s.data.flatMap String.utf8EncodeChar

/-- One step of `fnv.New32a().Write`: xor the byte in, multiply by the 32-bit FNV prime
16777619, keep 32 bits. -/
def fnvStep (h : Nat) (b : UInt8) : Nat := ((h ^^^ b.toNat) * 16777619) % 4294967296

/-- The value `h.Sum32()` of a 32-bit FNV-1a hasher after `Write(bytes)`, started at the
offset basis 2166136261. -/
def fnv32a (bytes : List UInt8) : Nat := bytes.foldl fnvStep 2166136261

/-- The function `ihash`: `int(h.Sum32() & 0x7fffffff)`. -/
def ihash (key : String) : Int := ((fnv32a (bytesOf key) &&& 0x7fffffff : Nat) : Int)

/-- The expression `ihash(kv.Key) % nReduce`, Go's remainder truncating toward zero
(`nReduce` not 0). -/
def bucketOf (key : String) (nReduce : Int) : Int := Int.tmod (ihash key) nReduce

/-- The partitioning loop of `doMap` over the records still to place; `none` stands
for a run-time panic (division by zero, index out of range). -/
def partitionLoop (nReduce : Int) : List KeyValue → List (List KeyValue) →
    Option (List (List KeyValue))
  | [], buckets => some buckets
  | kv :: rest, buckets =>
    if nReduce = 0 then none
    else
      let bucket := bucketOf kv.Key nReduce
      if bucket < 0 then none
      else
        match buckets[bucket.toNat]? with
        | none => none
        | some b => partitionLoop nReduce rest (buckets.set bucket.toNat (b ++ [kv]))

/-- The buckets built by `doMap`: `make([][]KeyValue, nReduce)` (a panic for a
negative length) followed by the partitioning loop. -/
def partition (kva : List KeyValue) (nReduce : Int) : Option (List (List KeyValue)) :=
  if nReduce < 0 then none
  else partitionLoop nReduce kva (List.replicate nReduce.toNat [])

theorem bytesOf_eq_toUTF8 (s : String) : s.toUTF8 = ⟨⟨bytesOf s⟩⟩ := rfl

theorem ihash_range (key : String) : 0 ≤ ihash key ∧ ihash key < 2 ^ 31 := by
  unfold ihash
  have h : fnv32a (bytesOf key) &&& 0x7fffffff < 2 ^ 31 :=
    Nat.and_lt_two_pow _ (by norm_num)
  constructor
  · exact Int.ofNat_nonneg _
  · exact_mod_cast h

theorem bucketOf_range (key : String) (nReduce : Int) (hn : 1 ≤ nReduce) :
    0 ≤ bucketOf key nReduce ∧ bucketOf key nReduce < nReduce := by
  unfold bucketOf
  exact ⟨Int.tmod_nonneg _ (ihash_range key).1, Int.tmod_lt_of_pos _ (by omega)⟩

/-- C16 (the bucket index is well defined).  For every key, `ihash key` lies in
`[0, 2^31)`; for every fan-out `nReduce >= 1` the bucket `ihash key % nReduce` lies in
`[0, nReduce)`, so it is a valid index into the `nReduce` buckets of `doMap`, and it
is the same for the truncating and the flooring remainder; equal keys and fan-outs
give equal hashes and buckets. -/
theorem bucket_well_defined (key : String) (nReduce : Int) (hn : 1 ≤ nReduce) :
    0 ≤ ihash key ∧ ihash key < 2 ^ 31 ∧
    0 ≤ bucketOf key nReduce ∧ bucketOf key nReduce < nReduce ∧
    (bucketOf key nReduce).toNat < (List.replicate nReduce.toNat ([] : List KeyValue)).length ∧
    bucketOf key nReduce = ihash key % nReduce ∧
    (∀ (key2 : String) (nReduce2 : Int), key2 = key → nReduce2 = nReduce →
      ihash key2 = ihash key ∧ bucketOf key2 nReduce2 = bucketOf key nReduce) := by
  obtain ⟨h1, h2⟩ := ihash_range key
  obtain ⟨h3, h4⟩ := bucketOf_range key nReduce hn
  refine ⟨h1, h2, h3, h4, ?_, ?_, ?_⟩
  · rw [List.length_replicate]
    omega
  · unfold bucketOf
    exact Int.tmod_eq_emod h1 (by omega)
  · intro key2 nReduce2 hk hr
    subst hk; subst hr
    exact ⟨rfl, rfl⟩

/-- Witness of C16: `ihash "hello"` is 1335831723 (0x4f9f2cab, the FNV-1a hash of
"hello", whose top bit is clear) on every computation, and its bucket for fan-out 10
is 3. -/
theorem bucket_well_defined_witness :
    ihash "hello" = ihash "hello" ∧ ihash "hello" = 1335831723 ∧
    bucketOf "hello" 10 = 3 ∧ 0 ≤ bucketOf "hello" 10 ∧ bucketOf "hello" 10 < 10 :=
  ⟨rfl, by decide, by decide,
    (bucket_well_defined "hello" 10 (by decide)).2.2.1,
    (bucket_well_defined "hello" 10 (by decide)).2.2.2.1⟩

end worker

namespace worker

/-- The records of `kva` whose key falls into bucket `i`, in their order in `kva`. -/
def bucketRecords (kva : List KeyValue) (nReduce : Int) (i : Nat) : List KeyValue :=
  kva.filter fun kv => decide (bucketOf kv.Key nReduce = (i : Int))

theorem partitionLoop_spec (nReduce : Int) (hn : 1 ≤ nReduce) (kva : List KeyValue) :
    ∀ buckets : List (List KeyValue), buckets.length = nReduce.toNat →
      ∃ bs : List (List KeyValue), partitionLoop nReduce kva buckets = some bs ∧
        bs.length = nReduce.toNat ∧
        ∀ i : Nat, bs[i]? = (buckets[i]?).map fun b => b ++ bucketRecords kva nReduce i := by
  induction kva with
  | nil =>
    intro buckets hlen
    refine ⟨buckets, rfl, hlen, ?_⟩
    intro i
    cases buckets[i]? <;> simp [bucketRecords]
  | cons kv rest ih =>
    intro buckets hlen
    obtain ⟨h0, hlt⟩ := bucketOf_range kv.Key nReduce hn
    have hne : ¬ nReduce = 0 := by omega
    have hnn : ¬ bucketOf kv.Key nReduce < 0 := by omega
    have hk : (bucketOf kv.Key nReduce).toNat < buckets.length := by
      rw [hlen]; omega
    have hcast : (((bucketOf kv.Key nReduce).toNat : Nat) : Int) = bucketOf kv.Key nReduce :=
      Int.toNat_of_nonneg h0
    rw [partitionLoop, if_neg hne]
    simp only
    rw [if_neg hnn, List.getElem?_eq_getElem hk]
    simp only
    obtain ⟨bs, hbs, hl, hget⟩ := ih (buckets.set (bucketOf kv.Key nReduce).toNat
      (buckets[(bucketOf kv.Key nReduce).toNat] ++ [kv])) (by rw [List.length_set]; exact hlen)
    refine ⟨bs, hbs, hl, ?_⟩
    intro i
    rw [hget i, List.getElem?_set]
    by_cases hi : (bucketOf kv.Key nReduce).toNat = i
    · subst hi
      rw [if_pos rfl, if_pos hk, List.getElem?_eq_getElem hk]
      simp [bucketRecords, hcast]
    · rw [if_neg hi]
      have hp : ¬ bucketOf kv.Key nReduce = (i : Int) := by
        intro h; apply hi
        rw [h]; exact Int.toNat_ofNat i
      cases buckets[i]? with
      | none => rfl
      | some b => simp [bucketRecords, hp]

theorem partition_eq (kva : List KeyValue) (nReduce : Int) (hn : 1 ≤ nReduce) :
    partition kva nReduce =
      some ((List.range nReduce.toNat).map fun i => bucketRecords kva nReduce i) := by
  unfold partition
  rw [if_neg (by omega)]
  obtain ⟨bs, hbs, hl, hget⟩ := partitionLoop_spec nReduce hn kva
    (List.replicate nReduce.toNat []) (List.length_replicate _ _)
  rw [hbs]
  congr 1
  apply List.ext_getElem?
  intro i
  rw [hget i, List.getElem?_replicate, List.getElem?_map]
  by_cases hi : i < nReduce.toNat
  · rw [if_pos hi, List.getElem?_range hi]; simp
  · rw [if_neg hi, List.getElem?_eq_none (by simpa using hi)]; rfl

theorem filter_append_perm {α : Type} (p q r : α → Bool) (l : List α)
    (hr : ∀ a ∈ l, r a = (p a || q a)) (hd : ∀ a ∈ l, ¬ (p a = true ∧ q a = true)) :
    (l.filter p ++ l.filter q).Perm (l.filter r) := by
  induction l with
  | nil => simp
  | cons x xs ih =>
    have ih1 := ih (fun a ha => hr a (List.mem_cons_of_mem _ ha))
      (fun a ha => hd a (List.mem_cons_of_mem _ ha))
    have hx := hr x (List.mem_cons_self _ _)
    have hdx := hd x (List.mem_cons_self _ _)
    cases hp : p x <;> cases hq : q x
    · simp [List.filter_cons, hp, hq, hx]; exact ih1
    · simp only [List.filter_cons, hp, hq, hx, Bool.or_true, Bool.false_eq_true, if_false,
        if_true]
      exact List.perm_middle.trans (List.Perm.cons _ ih1)
    · simp only [List.filter_cons, hp, hq, hx, Bool.or_false, Bool.false_eq_true, if_false,
        if_true, List.cons_append]
      exact List.Perm.cons _ ih1
    · exact absurd ⟨hp, hq⟩ hdx

theorem bucketOf_nonneg (key : String) (nReduce : Int) : 0 ≤ bucketOf key nReduce :=
  Int.tmod_nonneg _ (ihash_range key).1

theorem flatten_buckets_perm (kva : List KeyValue) (nReduce : Int) (m : Nat) :
    (((List.range m).map fun i => bucketRecords kva nReduce i).flatten).Perm
      (kva.filter fun kv => decide (bucketOf kv.Key nReduce < (m : Int))) := by
  induction m with
  | zero =>
    have hnil : (kva.filter fun kv => decide (bucketOf kv.Key nReduce < ((0 : Nat) : Int))) = [] := by
      rw [List.filter_eq_nil_iff]
      intro kv _
      have := bucketOf_nonneg kv.Key nReduce
      simp only [decide_eq_true_eq, Int.Nat.cast_ofNat_Int]
      omega
    rw [hnil]
    simp
  | succ m ih =>
    rw [List.range_succ, List.map_append, List.flatten_append, List.map_singleton,
      List.flatten_singleton]
    refine (List.Perm.append ih (List.Perm.refl _)).trans ?_
    unfold bucketRecords
    refine filter_append_perm _ _ _ kva ?_ ?_
    · intro kv _
      by_cases h1 : bucketOf kv.Key nReduce < (m : Int)
      · have h3 : bucketOf kv.Key nReduce < (m : Int) + 1 := by omega
        simp [h1, h3]
      · by_cases h2 : bucketOf kv.Key nReduce = (m : Int)
        · have h3 : bucketOf kv.Key nReduce < (m : Int) + 1 := by omega
          simp [h1, h2, h3]
        · have h3 : (m : Int) + 1 ≤ bucketOf kv.Key nReduce := by omega
          simp [h1, h2, h3]
    · intro kv _ h
      simp only [decide_eq_true_eq] at h
      omega

/-- C17 (map-side partitioning loses and duplicates nothing).  For every list of
records `kva` and every `nReduce >= 1`, the partitioning of `doMap` does not panic
and builds `nReduce` buckets; bucket `i` is exactly the sub-list of `kva`, in the
original order, of the records whose key has `ihash(key) % nReduce = i`.  Hence the
buckets taken together are a rearrangement of `kva`, their lengths sum to `len(kva)`,
every record of `kva` is in the bucket of its key and in no other, and records with
equal keys are in the same bucket. -/
theorem partition_exact (kva : List KeyValue) (nReduce : Int) (hn : 1 ≤ nReduce) :
    ∃ buckets : List (List KeyValue),
      partition kva nReduce = some buckets ∧
      buckets.length = nReduce.toNat ∧
      (∀ i : Nat, i < nReduce.toNat →
        buckets[i]? = some (kva.filter fun kv => decide (ihash kv.Key % nReduce = (i : Int)))) ∧
      buckets.flatten.Perm kva ∧
      (buckets.map List.length).sum = kva.length ∧
      (∀ kv ∈ kva, ∃ i : Nat, i < nReduce.toNat ∧ (i : Int) = ihash kv.Key % nReduce ∧
        ∃ b : List KeyValue, buckets[i]? = some b ∧ kv ∈ b) ∧
      (∀ (i : Nat) (b : List KeyValue) (kv : KeyValue), buckets[i]? = some b → kv ∈ b →
        kv ∈ kva ∧ (i : Int) = ihash kv.Key % nReduce) ∧
      (∀ (i j : Nat) (b1 b2 : List KeyValue) (kv1 kv2 : KeyValue),
        buckets[i]? = some b1 → buckets[j]? = some b2 → kv1 ∈ b1 → kv2 ∈ b2 →
        kv1.Key = kv2.Key → i = j) := by
  have hmod : ∀ key : String, bucketOf key nReduce = ihash key % nReduce := by
    intro key
    unfold bucketOf
    exact Int.tmod_eq_emod (ihash_range key).1 (by omega)
  have hrec : ∀ i : Nat, bucketRecords kva nReduce i =
      kva.filter fun kv => decide (ihash kv.Key % nReduce = (i : Int)) := by
    intro i
    unfold bucketRecords
    congr 1
    funext kv
    rw [hmod]
  have hget : ∀ i : Nat, i < nReduce.toNat →
      ((List.range nReduce.toNat).map fun i => bucketRecords kva nReduce i)[i]? =
        some (kva.filter fun kv => decide (ihash kv.Key % nReduce = (i : Int))) := by
    intro i hi
    rw [List.getElem?_map, List.getElem?_range hi]
    simp [hrec]
  have hin : ∀ (i : Nat) (b : List KeyValue) (kv : KeyValue),
      ((List.range nReduce.toNat).map fun i => bucketRecords kva nReduce i)[i]? = some b →
      kv ∈ b → kv ∈ kva ∧ (i : Int) = ihash kv.Key % nReduce := by
    intro i b kv hb hkv
    have hi : i < nReduce.toNat := by
      obtain ⟨hl, _⟩ := List.getElem?_eq_some.1 hb
      simpa using hl
    rw [hget i hi] at hb
    simp only [Option.some.injEq] at hb
    rw [← hb, List.mem_filter] at hkv
    exact ⟨hkv.1, (of_decide_eq_true hkv.2).symm⟩
  have hperm : (((List.range nReduce.toNat).map
      fun i => bucketRecords kva nReduce i).flatten).Perm kva := by
    have h := flatten_buckets_perm kva nReduce nReduce.toNat
    have hall : (kva.filter fun kv => decide (bucketOf kv.Key nReduce < (nReduce.toNat : Int)))
        = kva := by
      rw [List.filter_eq_self]
      intro kv _
      have := (bucketOf_range kv.Key nReduce hn).2
      have h2 : ((nReduce.toNat : Nat) : Int) = nReduce := Int.toNat_of_nonneg (by omega)
      simp only [decide_eq_true_eq]
      omega
    rw [hall] at h
    exact h
  refine ⟨_, partition_eq kva nReduce hn, by simp, hget, hperm, ?_, ?_, hin, ?_⟩
  · rw [← List.length_flatten]
    exact hperm.length_eq
  · intro kv hkv
    obtain ⟨h0, hlt⟩ := bucketOf_range kv.Key nReduce hn
    have hcast : (((bucketOf kv.Key nReduce).toNat : Nat) : Int) = bucketOf kv.Key nReduce :=
      Int.toNat_of_nonneg h0
    have hi : (bucketOf kv.Key nReduce).toNat < nReduce.toNat := by omega
    refine ⟨(bucketOf kv.Key nReduce).toNat, hi, by rw [hcast, hmod], _, hget _ hi, ?_⟩
    rw [List.mem_filter]
    refine ⟨hkv, ?_⟩
    rw [decide_eq_true_eq, hcast, hmod]
  · intro i j b1 b2 kv1 kv2 h1 h2 hk1 hk2 hkey
    have e1 := (hin i b1 kv1 h1 hk1).2
    have e2 := (hin j b2 kv2 h2 hk2).2
    rw [hkey] at e1
    have : (i : Int) = (j : Int) := by rw [e1, e2]
    exact_mod_cast this

/-- Witness of C17: three records and fan-out 2; "hello" falls into bucket 1 and "a"
into bucket 0, and the two records of "hello" keep their order. -/
theorem partition_exact_witness :
    partition [{ Key := "hello", Value := "1" }, { Key := "a", Value := "2" },
               { Key := "hello", Value := "3" }] 2 =
      some [[{ Key := "a", Value := "2" }],
            [{ Key := "hello", Value := "1" }, { Key := "hello", Value := "3" }]] ∧
    ∃ buckets : List (List KeyValue),
      partition [{ Key := "hello", Value := "1" }, { Key := "a", Value := "2" },
                 { Key := "hello", Value := "3" }] 2 = some buckets ∧
      buckets.length = 2 ∧ (buckets.map List.length).sum = 3 := by
  refine ⟨by decide, ?_⟩
  obtain ⟨buckets, h1, h2, _, _, h5, _⟩ :=
    partition_exact [{ Key := "hello", Value := "1" }, { Key := "a", Value := "2" },
                     { Key := "hello", Value := "3" }] 2 (by decide)
  exact ⟨buckets, h1, h2, h5⟩

end worker

/-! ## The worker: shuffle files -/

namespace worker

/-- The verb `%d` of `fmt.Sprintf` on an `int`: decimal digits, with a minus sign for
a negative number. -/
def formatInt (i : Int) : String :=
  if i < 0 then "-" ++ Nat.repr (-i).toNat else Nat.repr i.toNat

/-- The name `fmt.Sprintf("mr-%d-%d-%d", jobID, taskID, bucket)` of an intermediate
file. -/
def intermediateName (jobID taskID bucket : Int) : String :=
  "mr-" ++ formatInt jobID ++ "-" ++ formatInt taskID ++ "-" ++ formatInt bucket

/-- The names of the files written by `doMap(jobID, taskID, _, nReduce, _)`: one for
each `i` of `for i := 0; i < nReduce; i++`. -/
def outputNames (jobID taskID nReduce : Int) : List String :=
  (List.range nReduce.toNat).map fun (i : Nat) => intermediateName jobID taskID (i : Int)

/-- The names of the files opened by `doReduce(jobID, taskID, nMap, _)`: one for each
`i` of `for i := 0; i < nMap; i++`. -/
def inputNames (jobID taskID nMap : Int) : List String :=
  (List.range nMap.toNat).map fun (i : Nat) => intermediateName jobID (i : Int) taskID

/-- The function `doMap`.  `content` is the outcome of `os.ReadFile(filename)` (`none`
for an error, on which the worker exits); the result is the list of the files written,
each with its name and the records encoded into it, or `none` when the process exits
or panics. -/
def doMap (jobID taskID : Int) (filename : String) (content : Option String) (nReduce : Int)
    (mapF : String → String → List KeyValue) : Option (List (String × List KeyValue)) :=
  match content with
  | none => none
  | some text =>
    match partition (mapF filename text) nReduce with
    | none => none
    | some buckets =>
      some ((List.range nReduce.toNat).map fun (i : Nat) =>
        (intermediateName jobID taskID (i : Int), buckets.getD i []))

/-- The number that a list of decimal digit characters stands for. -/
def digitsValue (cs : List Char) : Nat :=
  cs.foldl (fun a c => 10 * a + (c.toNat - 48)) 0

theorem digitChar_props (k : Nat) (h : k < 10) :
    Nat.digitChar k ≠ '-' ∧ (Nat.digitChar k).toNat - 48 = k := by
  interval_cases k <;> exact ⟨by decide, by decide⟩

theorem toDigitsCore_spec (fuel : Nat) : ∀ (n : Nat) (ds : List Char), n < fuel →
    ∃ pre : List Char, Nat.toDigitsCore 10 fuel n ds = pre ++ ds ∧ digitsValue pre = n ∧
      ∀ c ∈ pre, c ≠ '-' := by
  induction fuel with
  | zero => intro n ds h; omega
  | succ fuel ih =>
    intro n ds h
    obtain ⟨hd1, hd2⟩ := digitChar_props (n % 10) (Nat.mod_lt _ (by decide))
    by_cases h0 : n / 10 = 0
    · refine ⟨[Nat.digitChar (n % 10)], by simp [Nat.toDigitsCore, h0], ?_, by simpa using hd1⟩
      simp only [digitsValue, List.foldl_cons, List.foldl_nil]
      omega
    · obtain ⟨pre, hpre, hval, hdash⟩ := ih (n / 10) (Nat.digitChar (n % 10) :: ds) (by omega)
      refine ⟨pre ++ [Nat.digitChar (n % 10)], ?_, ?_, ?_⟩
      · simp [Nat.toDigitsCore, h0, hpre]
      · unfold digitsValue at hval ⊢
        rw [List.foldl_append, hval]
        simp only [List.foldl_cons, List.foldl_nil]
        omega
      · intro c hc
        rcases List.mem_append.1 hc with hc | hc
        · exact hdash c hc
        · simp at hc; rw [hc]; exact hd1

theorem repr_spec (n : Nat) :
    digitsValue (Nat.repr n).data = n ∧ ∀ c ∈ (Nat.repr n).data, c ≠ '-' := by
  obtain ⟨pre, hpre, hval, hdash⟩ := toDigitsCore_spec (n + 1) n [] (Nat.lt_succ_self n)
  have hdata : (Nat.repr n).data = pre := by
    show Nat.toDigitsCore 10 (n + 1) n [] = pre
    rw [hpre, List.append_nil]
  rw [hdata]
  exact ⟨hval, hdash⟩

theorem repr_injective (a b : Nat) (h : Nat.repr a = Nat.repr b) : a = b := by
  rw [← (repr_spec a).1, ← (repr_spec b).1, h]

theorem formatInt_of_nonneg (i : Int) (h : 0 ≤ i) : formatInt i = Nat.repr i.toNat := by
  unfold formatInt
  rw [if_neg (by omega)]

theorem formatInt_inj (a b : Int) (ha : 0 ≤ a) (hb : 0 ≤ b) (h : formatInt a = formatInt b) :
    a = b := by
  rw [formatInt_of_nonneg a ha, formatInt_of_nonneg b hb] at h
  have := repr_injective _ _ h
  omega

theorem formatInt_no_dash (a : Int) (ha : 0 ≤ a) : '-' ∉ (formatInt a).data := by
  rw [formatInt_of_nonneg a ha]
  intro hmem
  exact (repr_spec a.toNat).2 '-' hmem rfl

theorem split_at_dash : ∀ (A B X Y : List Char), '-' ∉ A → '-' ∉ B →
    A ++ '-' :: X = B ++ '-' :: Y → A = B ∧ X = Y := by
  intro A
  induction A with
  | nil =>
    intro B X Y _ hB h
    cases B with
    | nil => simp at h; exact ⟨rfl, h⟩
    | cons b B =>
      simp only [List.nil_append, List.cons_append, List.cons.injEq] at h
      exact absurd (List.mem_cons.2 (Or.inl h.1)) hB
  | cons a A ih =>
    intro B X Y hA hB h
    cases B with
    | nil =>
      simp only [List.nil_append, List.cons_append, List.cons.injEq] at h
      exact absurd (List.mem_cons.2 (Or.inl h.1.symm)) hA
    | cons b B =>
      simp only [List.cons_append, List.cons.injEq] at h
      obtain ⟨h1, h2⟩ := ih B X Y (fun hm => hA (List.mem_cons_of_mem _ hm))
        (fun hm => hB (List.mem_cons_of_mem _ hm)) h.2
      exact ⟨by rw [h.1, h1], h2⟩

theorem intermediateName_data (j t b : Int) :
    (intermediateName j t b).data =
      'm' :: 'r' :: '-' ::
        ((formatInt j).data ++ '-' :: ((formatInt t).data ++ '-' :: (formatInt b).data)) := by
  simp [intermediateName, String.data_append]

theorem intermediateName_inj (j t b j2 t2 b2 : Int) (hj : 0 ≤ j) (ht : 0 ≤ t) (hb : 0 ≤ b)
    (hj2 : 0 ≤ j2) (ht2 : 0 ≤ t2) (hb2 : 0 ≤ b2)
    (h : intermediateName j t b = intermediateName j2 t2 b2) :
    j = j2 ∧ t = t2 ∧ b = b2 := by
  have hd := congrArg String.data h
  rw [intermediateName_data, intermediateName_data] at hd
  simp only [List.cons.injEq, true_and] at hd
  obtain ⟨e1, r1⟩ := split_at_dash _ _ _ _ (formatInt_no_dash j hj) (formatInt_no_dash j2 hj2) hd
  obtain ⟨e2, e3⟩ := split_at_dash _ _ _ _ (formatInt_no_dash t ht) (formatInt_no_dash t2 ht2) r1
  exact ⟨formatInt_inj j j2 hj hj2 (String.ext e1), formatInt_inj t t2 ht ht2 (String.ext e2),
    formatInt_inj b b2 hb hb2 (String.ext e3)⟩

end worker

namespace worker

theorem mem_outputNames (j t n : Int) (x : String) :
    x ∈ outputNames j t n ↔ ∃ i : Nat, i < n.toNat ∧ x = intermediateName j t (i : Int) := by
  unfold outputNames
  simp only [List.mem_map, List.mem_range]
  constructor
  · rintro ⟨i, hi, h⟩; exact ⟨i, hi, h.symm⟩
  · rintro ⟨i, hi, h⟩; exact ⟨i, hi, h.symm⟩

theorem mem_inputNames (j b n : Int) (x : String) :
    x ∈ inputNames j b n ↔ ∃ i : Nat, i < n.toNat ∧ x = intermediateName j (i : Int) b := by
  unfold inputNames
  simp only [List.mem_map, List.mem_range]
  constructor
  · rintro ⟨i, hi, h⟩; exact ⟨i, hi, h.symm⟩
  · rintro ⟨i, hi, h⟩; exact ⟨i, hi, h.symm⟩

theorem doMap_names (j t : Int) (filename : String) (content : Option String) (nReduce : Int)
    (mapF : String → String → List KeyValue) (files : List (String × List KeyValue))
    (h : doMap j t filename content nReduce mapF = some files) :
    files.map Prod.fst = outputNames j t nReduce := by
  unfold doMap at h
  cases content with
  | none => simp at h
  | some text =>
    simp only at h
    cases hp : partition (mapF filename text) nReduce with
    | none => rw [hp] at h; simp at h
    | some buckets =>
      rw [hp] at h
      simp only [Option.some.injEq] at h
      rw [← h]
      simp [outputNames]

/-- C19 (shuffle file identity).  For non-negative job IDs, map-task IDs and bucket
numbers: two intermediate file names are equal only for equal triples; the names that
`doMap` writes are those of `outputNames`; the names that `doReduce` of job `j` and
bucket `b < nReduce` opens are exactly the names written for bucket `b` by the map
tasks `0 .. nMap-1` of job `j`; a name opened by that reduce task and written by a
map task `t2` of a job `j2` has `j2 = j`, `t2 < nMap` and is the file of bucket `b`;
and map tasks of different jobs write no file of the same name. -/
theorem shuffle_file_identity (j t b j2 t2 b2 : Int) (hj : 0 ≤ j) (ht : 0 ≤ t) (hb : 0 ≤ b)
    (hj2 : 0 ≤ j2) (ht2 : 0 ≤ t2) (hb2 : 0 ≤ b2) :
    (intermediateName j t b = intermediateName j2 t2 b2 ↔ j = j2 ∧ t = t2 ∧ b = b2) ∧
    (∀ (filename : String) (content : Option String) (nReduce : Int)
        (mapF : String → String → List KeyValue) (files : List (String × List KeyValue)),
      doMap j t filename content nReduce mapF = some files →
      files.map Prod.fst = outputNames j t nReduce) ∧
    (∀ (nMap nReduce : Int) (x : String), b < nReduce →
      (x ∈ inputNames j b nMap ↔
        ∃ i : Nat, (i : Int) < nMap ∧ x ∈ outputNames j (i : Int) nReduce ∧
          x = intermediateName j (i : Int) b)) ∧
    (∀ (nMap nReduce2 : Int) (x : String), x ∈ inputNames j b nMap →
      x ∈ outputNames j2 t2 nReduce2 →
      j2 = j ∧ t2 < nMap ∧ x = intermediateName j2 t2 b) ∧
    (j ≠ j2 → ∀ (n n2 : Int) (x : String), x ∈ outputNames j t n → x ∉ outputNames j2 t2 n2) := by
  refine ⟨?_, ?_, ?_, ?_, ?_⟩
  · constructor
    · exact intermediateName_inj j t b j2 t2 b2 hj ht hb hj2 ht2 hb2
    · rintro ⟨h1, h2, h3⟩; rw [h1, h2, h3]
  · intro filename content nReduce mapF files h
    exact doMap_names j t filename content nReduce mapF files h
  · intro nMap nReduce x hbn
    rw [mem_inputNames]
    constructor
    · rintro ⟨i, hi, hx⟩
      refine ⟨i, by omega, ?_, hx⟩
      rw [mem_outputNames]
      refine ⟨b.toNat, by omega, ?_⟩
      rw [hx, Int.toNat_of_nonneg hb]
    · rintro ⟨i, hi, _, hx⟩
      exact ⟨i, by omega, hx⟩
  · intro nMap nReduce2 x hin hout
    obtain ⟨i, hi, hx⟩ := (mem_inputNames j b nMap x).1 hin
    obtain ⟨i2, _, hx2⟩ := (mem_outputNames j2 t2 nReduce2 x).1 hout
    rw [hx] at hx2
    obtain ⟨e1, e2, e3⟩ := intermediateName_inj j i b j2 t2 i2 hj (Int.ofNat_nonneg i) hb hj2 ht2
      (Int.ofNat_nonneg i2) hx2
    refine ⟨e1.symm, by omega, ?_⟩
    rw [hx, e1, e2]
  · intro hne n n2 x h1 h2
    obtain ⟨i, _, hx⟩ := (mem_outputNames j t n x).1 h1
    obtain ⟨i2, _, hx2⟩ := (mem_outputNames j2 t2 n2 x).1 h2
    rw [hx] at hx2
    exact hne (intermediateName_inj j t i j2 t2 i2 hj ht (Int.ofNat_nonneg i) hj2 ht2
      (Int.ofNat_nonneg i2) hx2).1

/-- Witness of C19: job 1, map tasks 0 and 1, bucket 2 of 3: the reduce task opens
"mr-1-0-2" and "mr-1-1-2", and the name of (1, 2, 3) differs from that of (12, 3, 0)
and of (1, 23, 0). -/
theorem shuffle_file_identity_witness :
    inputNames 1 2 2 = ["mr-1-0-2", "mr-1-1-2"] ∧
    outputNames 1 0 3 = ["mr-1-0-0", "mr-1-0-1", "mr-1-0-2"] ∧
    intermediateName 12 3 0 = "mr-12-3-0" ∧
    (intermediateName 1 2 3 = intermediateName 12 3 0 ↔ (1 : Int) = 12 ∧ (2 : Int) = 3 ∧
      (3 : Int) = 0) :=
  ⟨by decide, by decide, by decide,
    (shuffle_file_identity 1 2 3 12 3 0 (by decide) (by decide) (by decide) (by decide)
      (by decide) (by decide)).1⟩

end worker

/-! ## The worker: the word-count map function -/

namespace worker

/-- The predicate that `MapFunc` passes to `strings.FieldsFunc`:
`!('a' <= r && r <= 'z' || 'A' <= r && r <= 'Z')`. -/
def isSeparator (r : Char) : Bool := !(('a' ≤ r && r ≤ 'z') || ('A' ≤ r && r ≤ 'Z'))

/-- The loop of `strings.FieldsFunc` over the runes of the string: `cur` holds the
runes of the field that has begun and not ended (it is empty when no field has
begun); a rune satisfying `f` ends the field, any other rune begins or extends it; the
last field may end at the end of the string. -/
def fieldsLoop (f : Char → Bool) : List Char → List Char → List String
  | [], cur => if cur.isEmpty then [] else [String.mk cur]
  | r :: rest, cur =>
    if f r then
      if cur.isEmpty then fieldsLoop f rest [] else String.mk cur :: fieldsLoop f rest []
    else fieldsLoop f rest (cur ++ [r])

/-- The function `strings.FieldsFunc(s, f)`. -/
def FieldsFunc (s : String) (f : Char → Bool) : List String := fieldsLoop f s.data []

/-- The function `MapFunc`: one record `(w, "1")` for each token `w` of
`FieldsFunc(contents, isSeparator)` with `len(w) > 0`. -/
def MapFunc (filename : String) (contents : String) : List KeyValue :=
  let tokens := FieldsFunc contents isSeparator
  (tokens.filter fun w => decide ((bytesOf w).length > 0)).map fun w =>
    { Key := w, Value := "1" }

/-- An ASCII letter: `a`-`z` or `A`-`Z`. -/
def isLetter (c : Char) : Bool := ('a' ≤ c && c ≤ 'z') || ('A' ≤ c && c ≤ 'Z')

/-- `MaximalRuns s ws`: `ws` lists, in order of occurrence, the maximal runs of ASCII
letters of `s`.  A character that is not a letter belongs to no run; a run is a
non-empty sequence of letters that is followed by the end of `s` or by a character that
is not a letter, and what follows it is decomposed in the same way (so the run is also
preceded by the start of `s` or by a character that is not a letter). -/
inductive MaximalRuns : List Char → List (List Char) → Prop
  | nil : MaximalRuns [] []
  | sep (c : Char) (s : List Char) (ws : List (List Char)) :
      isLetter c = false → MaximalRuns s ws → MaximalRuns (c :: s) ws
  | run (w s : List Char) (ws : List (List Char)) :
      w ≠ [] → (∀ c ∈ w, isLetter c = true) →
      (∀ c : Char, s.head? = some c → isLetter c = false) →
      MaximalRuns s ws → MaximalRuns (w ++ s) (w :: ws)

theorem isSeparator_eq (r : Char) : isSeparator r = !isLetter r := rfl

theorem fieldsLoop_spec (s : List Char) : ∀ cur : List Char,
    (∀ c ∈ cur, isLetter c = true) →
    (cur = [] → MaximalRuns s ((fieldsLoop isSeparator s []).map String.data)) ∧
    (cur ≠ [] → ∃ (w s1 : List Char) (ws : List (List Char)),
      s = w ++ s1 ∧ (∀ c ∈ w, isLetter c = true) ∧
      (∀ c : Char, s1.head? = some c → isLetter c = false) ∧
      (fieldsLoop isSeparator s cur).map String.data = (cur ++ w) :: ws ∧
      MaximalRuns s1 ws) := by
  induction s with
  | nil =>
    intro cur _
    refine ⟨fun _ => ?_, fun hne => ?_⟩
    · simp [fieldsLoop]; exact MaximalRuns.nil
    · refine ⟨[], [], [], rfl, by simp, by simp, ?_, MaximalRuns.nil⟩
      have : cur.isEmpty = false := by
        cases cur with
        | nil => exact absurd rfl hne
        | cons a l => rfl
      simp [fieldsLoop, this]
  | cons r rest ih =>
    intro cur hcur
    have ihnil := (ih [] (by simp)).1 rfl
    by_cases hr : isLetter r = true
    · have hsep : isSeparator r = false := by rw [isSeparator_eq, hr]; rfl
      have hcur2 : ∀ c ∈ cur ++ [r], isLetter c = true := by
        intro c hc
        rcases List.mem_append.1 hc with h | h
        · exact hcur c h
        · simp at h; rw [h]; exact hr
      obtain ⟨w, s1, ws, hs, hw, hnext, hres, hruns⟩ := (ih (cur ++ [r]) hcur2).2 (by simp)
      have hw2 : ∀ c ∈ r :: w, isLetter c = true := by
        intro c hc
        rcases List.mem_cons.1 hc with h | h
        · rw [h]; exact hr
        · exact hw c h
      refine ⟨fun hnil => ?_, fun _ => ?_⟩
      · subst hnil
        have hres2 : (fieldsLoop isSeparator (r :: rest) []).map String.data
            = (r :: w) :: ws := by
          rw [fieldsLoop]
          simp only [hsep, Bool.false_eq_true, if_false]
          rw [hres]; simp
        rw [hres2, hs]
        exact MaximalRuns.run (r :: w) s1 ws (by simp) hw2 hnext hruns
      · refine ⟨r :: w, s1, ws, by rw [hs]; rfl, hw2, hnext, ?_, hruns⟩
        rw [fieldsLoop]
        simp only [hsep, Bool.false_eq_true, if_false]
        rw [hres]; simp
    · have hr2 : isLetter r = false := by simpa using hr
      have hsep : isSeparator r = true := by rw [isSeparator_eq, hr2]; rfl
      refine ⟨fun hnil => ?_, fun hne => ?_⟩
      · rw [fieldsLoop]
        simp only [hsep, if_true, List.isEmpty_nil]
        exact MaximalRuns.sep r rest _ hr2 ihnil
      · have hemp : cur.isEmpty = false := by
          cases cur with
          | nil => exact absurd rfl hne
          | cons a l => rfl
        refine ⟨[], r :: rest, _, rfl, by simp, ?_, ?_, MaximalRuns.sep r rest _ hr2 ihnil⟩
        · intro c hc
          simp at hc; rw [← hc]; exact hr2
        · rw [fieldsLoop]
          simp [hsep, hemp]

theorem MaximalRuns.runs_letters {s : List Char} {ws : List (List Char)}
    (h : MaximalRuns s ws) : ∀ w ∈ ws, w ≠ [] ∧ ∀ c ∈ w, isLetter c = true := by
  induction h with
  | nil => intro w hw; simp at hw
  | sep c s ws _ _ ih => exact ih
  | run w s ws hne hl _ _ ih =>
    intro w2 hw2
    rcases List.mem_cons.1 hw2 with h | h
    · rw [h]; exact ⟨hne, hl⟩
    · exact ih w2 h

theorem bytesOf_length_pos (w : String) (h : w.data ≠ []) : (bytesOf w).length > 0 := by
  unfold bytesOf
  cases hd : w.data with
  | nil => exact absurd hd h
  | cons c cs =>
    simp only [List.flatMap_cons, List.length_append, String.length_utf8EncodeChar]
    have := Char.utf8Size_pos c
    omega

theorem MapFunc_keys (filename contents : String) :
    MapFunc filename contents =
      (FieldsFunc contents isSeparator).map fun w => { Key := w, Value := "1" } := by
  have hruns := (fieldsLoop_spec contents.data [] (by simp)).1 rfl
  unfold MapFunc
  simp only
  congr 1
  rw [List.filter_eq_self]
  intro w hw
  have hmem : w.data ∈ (fieldsLoop isSeparator contents.data []).map String.data :=
    List.mem_map.2 ⟨w, hw, rfl⟩
  have := (hruns.runs_letters w.data hmem).1
  simpa using bytesOf_length_pos w this

/-- C20 (the word-count map function).  For every file name and contents, the keys
of the records returned by `MapFunc` are, in order of occurrence, the maximal runs of
ASCII letters of the contents, one record for each; every key is non-empty and made
of ASCII letters only; every value is "1"; and the result is the same for every file
name. -/
theorem MapFunc_maximal_runs (filename contents : String) :
    MaximalRuns contents.data ((MapFunc filename contents).map fun kv => kv.Key.data) ∧
    (∀ kv ∈ MapFunc filename contents,
      kv.Value = "1" ∧ kv.Key ≠ "" ∧ ∀ c ∈ kv.Key.data, isLetter c = true) ∧
    (∀ filename2 : String, MapFunc filename2 contents = MapFunc filename contents) := by
  have hruns := (fieldsLoop_spec contents.data [] (by simp)).1 rfl
  have hkeys : ((MapFunc filename contents).map fun kv => kv.Key.data) =
      (fieldsLoop isSeparator contents.data []).map String.data := by
    rw [MapFunc_keys, List.map_map]
    rfl
  refine ⟨by rw [hkeys]; exact hruns, ?_, ?_⟩
  · intro kv hkv
    have hmem : kv.Key.data ∈ (fieldsLoop isSeparator contents.data []).map String.data := by
      rw [← hkeys]
      exact List.mem_map.2 ⟨kv, hkv, rfl⟩
    obtain ⟨hne, hl⟩ := hruns.runs_letters kv.Key.data hmem
    rw [MapFunc_keys] at hkv
    obtain ⟨w, _, hw⟩ := List.mem_map.1 hkv
    refine ⟨by rw [← hw], ?_, hl⟩
    intro h
    rw [h] at hne
    exact hne rfl
  · intro filename2
    rw [MapFunc_keys, MapFunc_keys]

/-- Witness of C20: the inputs of `TestMapFunc` and `TestMapFunc_SpecialCharacters`. -/
theorem MapFunc_maximal_runs_witness :
    MapFunc "test.txt" "hello world hello" =
      [{ Key := "hello", Value := "1" }, { Key := "world", Value := "1" },
       { Key := "hello", Value := "1" }] ∧
    MapFunc "test.txt" "hello, world! hello." =
      [{ Key := "hello", Value := "1" }, { Key := "world", Value := "1" },
       { Key := "hello", Value := "1" }] ∧
    (MapFunc "test.txt" "hello, world! hello.").length = 3 ∧
    MapFunc "other.txt" "hello, world! hello." = MapFunc "test.txt" "hello, world! hello." :=
  ⟨by decide, by decide, by decide,
    (MapFunc_maximal_runs "test.txt" "hello, world! hello.").2.2 "other.txt"⟩

end worker

/-! ## The worker: the reduce side -/

namespace worker

/-- The comparison `a < b` of Go strings, which compares the bytes; on valid UTF-8
that is the comparison of the code points, first difference first, a proper prefix
being smaller. -/
def stringLess : List Char → List Char → Bool
  | _, [] => false
  | [], _ :: _ => true
  | a :: as, b :: bs =>
    if a < b then true else if b < a then false else stringLess as bs

/-- The order `a <= b` of Go strings: not `b < a`. -/
def stringLE (a b : String) : Prop := stringLess b.data a.data = false

instance : DecidableRel stringLE := fun a b => by
  unfold stringLE; infer_instance

/-- The function `sort.Strings`: the strings in increasing order.  The result does not
depend on the sorting algorithm; insertion is used here. -/
def sortStrings (keys : List String) : List String := List.insertionSort stringLE keys

/-- The read `intermediate[k]` of the map `map[string][]string`: the empty slice for
an absent key. -/
def groupGet : List (String × List String) → String → List String
  | [], _ => []
  | (k1, vs) :: rest, k => if k1 = k then vs else groupGet rest k

/-- The statement `intermediate[k] = append(intermediate[k], v)`. -/
def groupAdd : List (String × List String) → String → String → List (String × List String)
  | [], k, v => [(k, [v])]
  | (k1, vs) :: rest, k, v =>
    if k1 = k then (k1, vs ++ [v]) :: rest else (k1, vs) :: groupAdd rest k v

/-- The decoding loop of `doReduce` on one file: every record read is added to the
map. -/
def groupRecords (m : List (String × List String)) (recs : List KeyValue) :
    List (String × List String) :=
  recs.foldl (fun m kv => groupAdd m kv.Key kv.Value) m

/-- The reading loop of `doReduce` over the files of the map tasks, in index order;
a file that cannot be opened (`none`) is skipped. -/
def groupFiles (m : List (String × List String)) :
    List (Option (List KeyValue)) → List (String × List String)
  | [] => m
  | none :: rest => groupFiles m rest
  | some recs :: rest => groupFiles (groupRecords m recs) rest

/-- What `doReduce` does: the name of the output file, the lines written to it, and
the arguments of the calls of `reduceF`, in order. -/
structure ReduceOutput where
  name : String
  lines : List String
  calls : List (String × List String)
  deriving DecidableEq, Repr

/-- The function `doReduce`.  `fs` gives, for a file name, the records that the
decoder reads from the file (`none` when the file cannot be opened); `order` is the
order in which `range intermediate` visits the keys of the map. -/
def doReduce (jobID taskID nMap : Int) (reduceF : String → List String → String)
    (fs : String → Option (List KeyValue)) (order : List String) : ReduceOutput :=
  let intermediate := groupFiles [] ((inputNames jobID taskID nMap).map fs)
  let keys := sortStrings order
  { name := "mr-out-" ++ formatInt jobID ++ "-" ++ formatInt taskID,
    lines := keys.map fun k => k ++ " " ++ reduceF k (groupGet intermediate k) ++ "\n",
    calls := keys.map fun k => (k, groupGet intermediate k) }

/-- The function `ReduceFunc`: `fmt.Sprintf("%d", len(values))`. -/
def ReduceFunc (key : String) (values : List String) : String :=
  formatInt (values.length : Int)

/-- The records that `doReduce` reads, by map-task index and then by position in the
file; a file that cannot be opened contributes none. -/
def recordsRead (jobID taskID nMap : Int) (fs : String → Option (List KeyValue)) :
    List KeyValue :=
  ((inputNames jobID taskID nMap).map fun n => (fs n).getD []).flatten

/-- The values recorded for key `k` in a list of records, in order. -/
def valuesOf (recs : List KeyValue) (k : String) : List String :=
  (recs.filter fun kv => decide (kv.Key = k)).map KeyValue.Value

/-- A file system with the two intermediate files of bucket 0 of job 0. -/
def exFiles (n : String) : Option (List KeyValue) :=
  if n = "mr-0-0-0" then some [{ Key := "b", Value := "x" }, { Key := "a", Value := "y" }]
  else if n = "mr-0-1-0" then some [{ Key := "b", Value := "z" }]
  else none

end worker

namespace worker

theorem stringLess_iff_lex : ∀ a b : List Char,
    stringLess a b = true ↔ List.Lex (fun x y : Char => x < y) a b := by
  intro a
  induction a with
  | nil =>
    intro b
    cases b with
    | nil => simp [stringLess, List.Lex.not_nil_right]
    | cons y ys => simp [stringLess, List.Lex.nil]
  | cons x xs ih =>
    intro b
    cases b with
    | nil => simp [stringLess, List.Lex.not_nil_right]
    | cons y ys =>
      rw [stringLess]
      by_cases h1 : x < y
      · rw [if_pos h1]
        exact ⟨fun _ => List.Lex.rel h1, fun _ => rfl⟩
      · rw [if_neg h1]
        by_cases h2 : y < x
        · rw [if_pos h2]
          constructor
          · intro h; simp at h
          · intro h
            cases h with
            | cons h3 => exact absurd h2 (lt_irrefl _)
            | rel h3 => exact absurd h3 h1
        · rw [if_neg h2]
          have hxy : x = y := le_antisymm (not_lt.1 h2) (not_lt.1 h1)
          subst hxy
          rw [ih ys, List.Lex.cons_iff]

theorem stringLess_trans (a b c : List Char) (h1 : stringLess a b = true)
    (h2 : stringLess b c = true) : stringLess a c = true := by
  rw [stringLess_iff_lex] at h1 h2 ⊢
  exact IsTrans.trans _ _ _ h1 h2

theorem stringLess_asymm (a b : List Char) (h1 : stringLess a b = true) :
    stringLess b a = false := by
  cases h : stringLess b a with
  | false => rfl
  | true =>
    rw [stringLess_iff_lex] at h1 h
    exact absurd h (IsAsymm.asymm _ _ h1)

theorem stringLess_trichotomy (a b : List Char) (h1 : stringLess a b = false)
    (h2 : stringLess b a = false) : a = b := by
  have n1 : ¬ List.Lex (fun x y : Char => x < y) a b := by
    rw [← stringLess_iff_lex, h1]; simp
  have n2 : ¬ List.Lex (fun x y : Char => x < y) b a := by
    rw [← stringLess_iff_lex, h2]; simp
  rcases trichotomous_of (List.Lex (fun x y : Char => x < y)) a b with h | h | h
  · exact absurd h n1
  · exact h
  · exact absurd h n2

theorem stringLE_total (a b : String) : stringLE a b ∨ stringLE b a := by
  unfold stringLE
  cases h : stringLess b.data a.data with
  | false => exact Or.inl rfl
  | true => exact Or.inr (stringLess_asymm _ _ h)

theorem stringLE_trans (a b c : String) (h1 : stringLE a b) (h2 : stringLE b c) :
    stringLE a c := by
  unfold stringLE at *
  cases h : stringLess c.data a.data with
  | false => rfl
  | true =>
    cases hab : stringLess a.data b.data with
    | false =>
      have e := stringLess_trichotomy _ _ hab h1
      rw [e] at h
      rw [h] at h2
      exact absurd h2 (by simp)
    | true =>
      have := stringLess_trans _ _ _ h hab
      rw [this] at h2
      exact absurd h2 (by simp)

instance : IsTotal String stringLE := ⟨stringLE_total⟩

instance : IsTrans String stringLE := ⟨stringLE_trans⟩

theorem sortStrings_perm (keys : List String) : (sortStrings keys).Perm keys :=
  List.perm_insertionSort stringLE keys

theorem sortStrings_strict (keys : List String) (hn : keys.Nodup) :
    (sortStrings keys).Pairwise fun a b => stringLess a.data b.data = true := by
  have hs : List.Sorted stringLE (sortStrings keys) := List.sorted_insertionSort stringLE keys
  have hn2 : (sortStrings keys).Nodup := (sortStrings_perm keys).nodup_iff.2 hn
  refine (List.Pairwise.and hs hn2).imp ?_
  intro a b h
  obtain ⟨hle, hne⟩ := h
  cases hlt : stringLess a.data b.data with
  | true => rfl
  | false =>
    have := stringLess_trichotomy _ _ hlt hle
    exact absurd (String.ext this) hne

theorem groupGet_groupAdd (m : List (String × List String)) (k v k2 : String) :
    groupGet (groupAdd m k v) k2 =
      if k2 = k then groupGet m k ++ [v] else groupGet m k2 := by
  induction m with
  | nil =>
    by_cases h : k2 = k
    · simp [groupAdd, groupGet, h]
    · have h2 : ¬ k = k2 := fun e => h e.symm
      simp [groupAdd, groupGet, h, h2]
  | cons e rest ih =>
    obtain ⟨k1, vs⟩ := e
    by_cases h1 : k1 = k
    · subst h1
      by_cases h : k2 = k1
      · subst h; simp [groupAdd, groupGet]
      · have h2 : ¬ k1 = k2 := fun e => h e.symm
        simp [groupAdd, groupGet, h, h2]
    · by_cases h : k1 = k2
      · subst h
        have h3 : ¬ k1 = k := h1
        simp [groupAdd, groupGet, h1]
      · simp only [groupAdd, if_neg h1, groupGet, if_neg h, ih]

theorem keys_groupAdd (m : List (String × List String)) (k v : String) :
    (groupAdd m k v).map Prod.fst =
      if k ∈ m.map Prod.fst then m.map Prod.fst else m.map Prod.fst ++ [k] := by
  induction m with
  | nil => simp [groupAdd]
  | cons e rest ih =>
    obtain ⟨k1, vs⟩ := e
    by_cases h1 : k1 = k
    · subst h1; simp [groupAdd]
    · have h2 : ¬ k = k1 := fun e => h1 e.symm
      simp only [groupAdd, if_neg h1, List.map_cons, ih, List.mem_cons, h2, false_or]
      split <;> simp

theorem groupAdd_keys_props (m : List (String × List String)) (k v : String)
    (hn : (m.map Prod.fst).Nodup) :
    ((groupAdd m k v).map Prod.fst).Nodup ∧
    ∀ k2 : String, k2 ∈ (groupAdd m k v).map Prod.fst ↔ (k2 ∈ m.map Prod.fst ∨ k2 = k) := by
  rw [keys_groupAdd]
  by_cases h : k ∈ m.map Prod.fst
  · rw [if_pos h]
    refine ⟨hn, fun k2 => ⟨fun h2 => Or.inl h2, ?_⟩⟩
    rintro (h2 | h2)
    · exact h2
    · rw [h2]; exact h
  · rw [if_neg h]
    refine ⟨?_, fun k2 => by simp⟩
    rw [List.nodup_append]
    refine ⟨hn, List.nodup_singleton k, ?_⟩
    intro x hx hx2
    simp at hx2
    rw [hx2] at hx
    exact h hx

theorem groupRecords_spec (recs : List KeyValue) : ∀ m : List (String × List String),
    (m.map Prod.fst).Nodup →
    ((groupRecords m recs).map Prod.fst).Nodup ∧
    (∀ k : String, k ∈ (groupRecords m recs).map Prod.fst ↔
      (k ∈ m.map Prod.fst ∨ ∃ kv ∈ recs, kv.Key = k)) ∧
    (∀ k : String, groupGet (groupRecords m recs) k = groupGet m k ++ valuesOf recs k) := by
  induction recs with
  | nil =>
    intro m hn
    exact ⟨hn, by simp [groupRecords], by simp [groupRecords, valuesOf]⟩
  | cons kv rest ih =>
    intro m hn
    obtain ⟨hn1, hmem1⟩ := groupAdd_keys_props m kv.Key kv.Value hn
    obtain ⟨hn2, hmem2, hget2⟩ := ih (groupAdd m kv.Key kv.Value) hn1
    have hstep : groupRecords m (kv :: rest) = groupRecords (groupAdd m kv.Key kv.Value) rest :=
      rfl
    rw [hstep]
    refine ⟨hn2, ?_, ?_⟩
    · intro k
      rw [hmem2, hmem1]
      constructor
      · rintro ((h | h) | ⟨kv2, h1, h2⟩)
        · exact Or.inl h
        · exact Or.inr ⟨kv, List.mem_cons_self _ _, h.symm⟩
        · exact Or.inr ⟨kv2, List.mem_cons_of_mem _ h1, h2⟩
      · rintro (h | ⟨kv2, h1, h2⟩)
        · exact Or.inl (Or.inl h)
        · rcases List.mem_cons.1 h1 with h3 | h3
          · subst h3; exact Or.inl (Or.inr h2.symm)
          · exact Or.inr ⟨kv2, h3, h2⟩
    · intro k
      rw [hget2, groupGet_groupAdd]
      by_cases hk : kv.Key = k
      · subst hk
        simp [valuesOf, List.filter_cons]
      · have hk2 : ¬ k = kv.Key := fun e => hk e.symm
        simp [valuesOf, List.filter_cons, hk, hk2]

theorem groupFiles_eq (files : List (Option (List KeyValue))) :
    ∀ m : List (String × List String),
      groupFiles m files = groupRecords m (files.map fun f => f.getD []).flatten := by
  induction files with
  | nil => intro m; rfl
  | cons f rest ih =>
    intro m
    cases f with
    | none =>
      rw [groupFiles, ih]
      simp
    | some recs =>
      rw [groupFiles, ih]
      simp [groupRecords, List.foldl_append]

end worker

namespace worker

theorem groupFiles_read (jobID taskID nMap : Int) (fs : String → Option (List KeyValue)) :
    groupFiles [] ((inputNames jobID taskID nMap).map fs) =
      groupRecords [] (recordsRead jobID taskID nMap fs) := by
  rw [groupFiles_eq, List.map_map]
  rfl

/-- C18 (reduce output).  Let `doReduce` read the records of the `nMap` intermediate
files of its bucket, in map-task index order, and let `order` be the order in which
the keys of the grouping map are visited.  Then `reduceF` is called once for each
distinct key occurring in the records and for nothing else, the calls are in strictly
ascending key order, the call for key `k` gets the list of all values recorded for
`k`, ordered by map-task index and then by position in the file, and the lines
written are, call by call, the key, a blank, the result of `reduceF` and a newline;
so there is exactly one line for each distinct key. -/
theorem doReduce_output (jobID taskID nMap : Int) (reduceF : String → List String → String)
    (fs : String → Option (List KeyValue)) (order : List String)
    (horder : order.Perm
      ((groupFiles [] ((inputNames jobID taskID nMap).map fs)).map Prod.fst)) :
    (doReduce jobID taskID nMap reduceF fs order).lines =
      (doReduce jobID taskID nMap reduceF fs order).calls.map
        (fun p => p.1 ++ " " ++ reduceF p.1 p.2 ++ "\n") ∧
    ((doReduce jobID taskID nMap reduceF fs order).calls.map Prod.fst).Pairwise
      (fun a b => stringLess a.data b.data = true) ∧
    ((doReduce jobID taskID nMap reduceF fs order).calls.map Prod.fst).Nodup ∧
    (∀ k : String, k ∈ (doReduce jobID taskID nMap reduceF fs order).calls.map Prod.fst ↔
      ∃ kv ∈ recordsRead jobID taskID nMap fs, kv.Key = k) ∧
    (∀ p ∈ (doReduce jobID taskID nMap reduceF fs order).calls,
      p.2 = valuesOf (recordsRead jobID taskID nMap fs) p.1) ∧
    (doReduce jobID taskID nMap reduceF fs order).lines.length =
      ((recordsRead jobID taskID nMap fs).map KeyValue.Key).dedup.length ∧
    (doReduce jobID taskID nMap reduceF fs order).name =
      "mr-out-" ++ formatInt jobID ++ "-" ++ formatInt taskID := by
  have hcalls : (doReduce jobID taskID nMap reduceF fs order).calls =
      (sortStrings order).map fun k =>
        (k, groupGet (groupFiles [] ((inputNames jobID taskID nMap).map fs)) k) := rfl
  have hlines : (doReduce jobID taskID nMap reduceF fs order).lines =
      (sortStrings order).map fun k =>
        k ++ " " ++ reduceF k (groupGet (groupFiles [] ((inputNames jobID taskID nMap).map fs)) k)
          ++ "\n" := rfl
  have hkeys : (doReduce jobID taskID nMap reduceF fs order).calls.map Prod.fst =
      sortStrings order := by
    rw [hcalls, List.map_map]
    exact List.map_id _
  rw [groupFiles_read] at horder hcalls hlines
  obtain ⟨hn, hmem, hget⟩ := groupRecords_spec (recordsRead jobID taskID nMap fs) []
    List.nodup_nil
  have hnorder : order.Nodup := horder.nodup_iff.2 hn
  have hmemkeys : ∀ k : String, k ∈ sortStrings order ↔
      ∃ kv ∈ recordsRead jobID taskID nMap fs, kv.Key = k := by
    intro k
    rw [(sortStrings_perm order).mem_iff, horder.mem_iff, hmem]
    simp
  refine ⟨?_, ?_, ?_, ?_, ?_, ?_, rfl⟩
  · rw [hlines, hcalls, List.map_map]
    rfl
  · rw [hkeys]; exact sortStrings_strict order hnorder
  · rw [hkeys]; exact (sortStrings_perm order).nodup_iff.2 hnorder
  · rw [hkeys]; exact hmemkeys
  · intro p hp
    rw [hcalls] at hp
    obtain ⟨k, _, hk⟩ := List.mem_map.1 hp
    rw [← hk]
    simp only
    rw [hget]
    rfl
  · rw [hlines, List.length_map]
    apply List.Perm.length_eq
    rw [List.perm_ext_iff_of_nodup ((sortStrings_perm order).nodup_iff.2 hnorder)
      (List.nodup_dedup _)]
    intro k
    rw [hmemkeys, List.mem_dedup, List.mem_map]

/-- Witness of C18: bucket 0 of job 0 with two map tasks; the first file holds
(b, x), (a, y), the second (b, z).  With `reduceF` the word count, the lines are
"a 1" and "b 2", and `reduceF` is called on (a, [y]) and (b, [x, z]). -/
theorem doReduce_output_witness :
    (doReduce 0 0 2 ReduceFunc exFiles ["b", "a"]).lines = ["a 1\n", "b 2\n"] ∧
    (doReduce 0 0 2 ReduceFunc exFiles ["b", "a"]).calls = [("a", ["y"]), ("b", ["x", "z"])] ∧
    (doReduce 0 0 2 ReduceFunc exFiles ["b", "a"]).name = "mr-out-0-0" ∧
    ((doReduce 0 0 2 ReduceFunc exFiles ["b", "a"]).calls.map Prod.fst).Nodup :=
  ⟨by decide, by decide, by decide,
    (doReduce_output 0 0 2 ReduceFunc exFiles ["b", "a"] (by decide)).2.2.1⟩

end worker

/-! ## The order of the scan -/

namespace coordinator

open common

/-- Two jobs of one partition each, both with their map task IDLE. -/
def exTwoIdleJobs : Coordinator :=
  (SubmitJob (SubmitJob NewCoordinator ["a.txt"] 1 0).1 ["b.txt"] 1 0).1

theorem mapOutcome_jobID (cm : Coordinator) (k : Int) (job : Job) (i : Nat) (task : Task)
    (args : TaskArgs) (reply : TaskReply) (now now2 : Nat) :
    (mapOutcome cm k job i task args reply now now2).reply.JobID = job.ID ∧
    (mapOutcome cm k job i task args reply now now2).reply.TaskType = TaskTypeMap := ⟨rfl, rfl⟩

theorem reduceOutcome_jobID (cm : Coordinator) (k : Int) (job : Job) (i : Nat) (task : Task)
    (args : TaskArgs) (reply : TaskReply) (now : Nat) :
    (reduceOutcome cm k job i task args reply now).reply.JobID = job.ID ∧
    (reduceOutcome cm k job i task args reply now).reply.TaskType = TaskTypeReduce := ⟨rfl, rfl⟩

/-- C21 as the code has it.  `GetTask` visits the jobs in the order in which the
iteration over the job map yields them, an order the language leaves open.  When
`order` is that order and some stored non-terminal job has an assignable task, the
call hands out a task of the first job of `order` that is non-terminal and has an
assignable task; every job visited before it is terminal or has none.  The result is
thus a function of the state, the worker and the visiting order; and if the visiting
order is ascending in the keys, the chosen key is the smallest among the non-terminal
jobs with an assignable task. -/
theorem GetTask_first_in_order (c : Coordinator) (order : List Int) (args : TaskArgs)
    (reply : TaskReply) (now now2 : Nat) (hp : order.Perm (jobsKeys c.jobs))
    (hex : ∃ (k : Int) (job : Job), jobsGet c.jobs k = some job ∧
      job.Status ≠ "COMPLETED" ∧ job.Status ≠ "FAILED" ∧ HasAssignableTask job) :
    ∃ (pre : List Int) (k : Int) (post : List Int) (job : Job),
      order = pre ++ k :: post ∧ jobsGet c.jobs k = some job ∧
      job.Status ≠ "COMPLETED" ∧ job.Status ≠ "FAILED" ∧ HasAssignableTask job ∧
      (∀ k1 ∈ pre, ∀ job1 : Job, jobsGet c.jobs k1 = some job1 →
        job1.Status = "COMPLETED" ∨ job1.Status = "FAILED" ∨ ¬ HasAssignableTask job1) ∧
      (GetTask c order args reply now now2).reply.JobID = job.ID ∧
      ((GetTask c order args reply now now2).reply.TaskType = TaskTypeMap ∨
        (GetTask c order args reply now now2).reply.TaskType = TaskTypeReduce) ∧
      (order.Pairwise (fun a b => a < b) →
        ∀ (k2 : Int) (job2 : Job), jobsGet c.jobs k2 = some job2 →
          job2.Status ≠ "COMPLETED" → job2.Status ≠ "FAILED" → HasAssignableTask job2 →
          k ≤ k2) := by
  rcases GetTask_spec order c args reply now now2 with
    ⟨_, _, _, hall⟩ | ⟨pre, k, post, cm, job, i, task, ho, hpre, _, hj, _, hs1, hs2, hcase⟩
  · obtain ⟨k, job, hj, hs1, hs2, ha⟩ := hex
    have hk : k ∈ order := hp.mem_iff.2 (jobsGet_some_mem_keys hj)
    rcases (notAssignable_iff job).1 (hall k hk job hj) with h | h | h
    · exact absurd h hs1
    · exact absurd h hs2
    · exact absurd ha h
  · have hassign : HasAssignableTask job := by
      by_contra hna
      have : NotAssignable job := (notAssignable_iff job).2 (Or.inr (Or.inr hna))
      rcases this with h | h | ⟨h1, h2⟩
      · exact hs1 h
      · exact hs2 h
      · rcases hcase with ⟨hf, _⟩ | ⟨_, hd, hf, _⟩
        · rw [h1] at hf; simp at hf
        · rcases h2 with h2 | h2
          · rw [hd] at h2; simp at h2
          · rw [h2] at hf; simp at hf
    have hid : (GetTask c order args reply now now2).reply.JobID = job.ID ∧
        ((GetTask c order args reply now now2).reply.TaskType = TaskTypeMap ∨
          (GetTask c order args reply now now2).reply.TaskType = TaskTypeReduce) := by
      rcases hcase with ⟨_, hr⟩ | ⟨_, _, _, hr⟩
      · rw [hr]; exact ⟨rfl, Or.inl rfl⟩
      · rw [hr]; exact ⟨rfl, Or.inr rfl⟩
    refine ⟨pre, k, post, job, ho, hj, hs1, hs2, hassign, ?_, hid.1, hid.2, ?_⟩
    · intro k1 hk1 job1 hj1
      exact (notAssignable_iff job1).1 (hpre k1 hk1 job1 hj1)
    · intro hsorted k2 job2 hj2 h1 h2 ha2
      have hk2 : k2 ∈ order := hp.mem_iff.2 (jobsGet_some_mem_keys hj2)
      rw [ho] at hk2 hsorted
      rcases List.mem_append.1 hk2 with hin | hin
      · rcases (notAssignable_iff job2).1 (hpre k2 hin job2 hj2) with h | h | h
        · exact absurd h h1
        · exact absurd h h2
        · exact absurd ha2 h
      · rcases List.mem_cons.1 hin with heq | hpost
        · rw [heq]
        · have hpw := (List.pairwise_append.1 hsorted).2.1
          exact le_of_lt ((List.pairwise_cons.1 hpw).1 k2 hpost)

/-- Witness of `GetTask_first_in_order`: in `exTwoIdleJobs`, visited in the order
1, 0, the task handed out is of job 1. -/
theorem GetTask_first_in_order_witness :
    ∃ (pre : List Int) (k : Int) (post : List Int),
      ([1, 0] : List Int) = pre ++ k :: post ∧
      (GetTask exTwoIdleJobs [1, 0] { WorkerID := "w1" } TaskReply.zero 1 1).reply.JobID = 1 := by
  obtain ⟨pre, k, post, job, ho, _⟩ :=
    GetTask_first_in_order exTwoIdleJobs [1, 0] { WorkerID := "w1" } TaskReply.zero 1 1
      (by decide)
      ⟨0, _, rfl, by decide, by decide, Or.inl ⟨_, List.mem_cons_self _ _, rfl⟩⟩
  exact ⟨pre, k, post, ho, by decide⟩

/-- Counterexample to C21: in `exTwoIdleJobs` the jobs 0 and 1 are both non-terminal
with an IDLE map task.  Both 0, 1 and 1, 0 are orders in which the iteration over the
job map may visit them; visited as 1, 0, `GetTask` hands out a task of job 1, not of
job 0, and the two orders give different replies for the same state and worker. -/
theorem GetTask_scan_order_counterexample :
    jobsKeys exTwoIdleJobs.jobs = [0, 1] ∧
    ([1, 0] : List Int).Perm (jobsKeys exTwoIdleJobs.jobs) ∧
    (GetTask exTwoIdleJobs [1, 0] { WorkerID := "w1" } TaskReply.zero 1 1).reply.JobID = 1 ∧
    (GetTask exTwoIdleJobs [1, 0] { WorkerID := "w1" } TaskReply.zero 1 1).reply.TaskType
      = TaskTypeMap ∧
    (GetTask exTwoIdleJobs [0, 1] { WorkerID := "w1" } TaskReply.zero 1 1).reply.JobID = 0 ∧
    (GetTask exTwoIdleJobs [1, 0] { WorkerID := "w1" } TaskReply.zero 1 1).reply ≠
      (GetTask exTwoIdleJobs [0, 1] { WorkerID := "w1" } TaskReply.zero 1 1).reply := by
  decide

end coordinator

/-! ## Reports on tasks that were never handed out -/

namespace coordinator

open common

/-- One job of one input file and one partition, just submitted: its map task and its
reduce task are IDLE and their recorded worker is the empty string, the zero value
`SubmitJob` leaves in the field. -/
def exFresh : Coordinator := (SubmitJob NewCoordinator ["a.txt"] 1 0).1

/-- The statuses of the map tasks and of the reduce tasks of the job stored under `k`. -/
def taskStatuses (c : Coordinator) (k : Int) : Option (List Int × List Int) :=
  (jobsGet c.jobs k).map fun job =>
    (job.MapTasks.map fun t => t.Status, job.ReduceTasks.map fun t => t.Status)

/-- The recorded workers of the map tasks and of the reduce tasks of the job stored
under `k`. -/
def taskWorkers (c : Coordinator) (k : Int) : Option (List String × List String) :=
  (jobsGet c.jobs k).map fun job =>
    (job.MapTasks.map fun t => t.WorkerID, job.ReduceTasks.map fun t => t.WorkerID)

/-- A job in which every IDLE task has the empty string as its recorded worker. -/
def IdleUnowned (job : Job) : Prop :=
  (∀ t ∈ job.MapTasks, t.Status = TaskStatusIdle → t.WorkerID = "") ∧
  (∀ t ∈ job.ReduceTasks, t.Status = TaskStatusIdle → t.WorkerID = "")

theorem idleUnowned_assign (ts : List Task) (i : Nat) (task : Task) (w : String) (now : Nat)
    (h : ∀ t ∈ ts, t.Status = TaskStatusIdle → t.WorkerID = "") :
    ∀ t ∈ assign ts i task w now, t.Status = TaskStatusIdle → t.WorkerID = "" := by
  intro t ht hs
  unfold assign at ht
  rcases List.mem_or_eq_of_mem_set ht with hm | he
  · exact h t hm hs
  · rw [he] at hs
    have hs2 : TaskStatusInProgress = TaskStatusIdle := hs
    exact absurd hs2 (by decide)

theorem idleUnowned_complete (job : Job) (taskType : Int) (i : Nat) (task : Task)
    (h : IdleUnowned job) : IdleUnowned (complete job taskType i task) := by
  unfold complete
  split
  · refine ⟨?_, h.2⟩
    intro t ht hs
    rcases List.mem_or_eq_of_mem_set ht with hm | he
    · exact h.1 t hm hs
    · rw [he] at hs
      have hs2 : TaskStatusCompleted = TaskStatusIdle := hs
      exact absurd hs2 (by decide)
  · refine ⟨h.1, ?_⟩
    intro t ht hs
    rcases List.mem_or_eq_of_mem_set ht with hm | he
    · exact h.2 t hm hs
    · rw [he] at hs
      have hs2 : TaskStatusCompleted = TaskStatusIdle := hs
      exact absurd hs2 (by decide)

theorem idleUnowned_ofMarked {c cm : Coordinator} (hm : Marked c cm)
    (h : ∀ (k : Int) (job : Job), jobsGet c.jobs k = some job → IdleUnowned job) :
    ∀ (k : Int) (job : Job), jobsGet cm.jobs k = some job → IdleUnowned job := by
  intro k job hj
  rcases hm.2.2.2 k with ⟨_, hb⟩ | ⟨j, j1, ha, hb, hmj⟩
  · rw [hj] at hb; cases hb
  · rw [hj] at hb
    injection hb with hb
    subst hb
    have hu := h k j ha
    obtain ⟨e1, e2⟩ := hmj.tasks
    unfold IdleUnowned
    rw [e1, e2]
    exact hu

theorem idleUnowned_set (c : Coordinator) (k : Int) (job1 : Job)
    (h : ∀ (k : Int) (job : Job), jobsGet c.jobs k = some job → IdleUnowned job)
    (h1 : IdleUnowned job1) :
    ∀ (k2 : Int) (job : Job), jobsGet (jobsSet c.jobs k job1) k2 = some job →
      IdleUnowned job := by
  intro k2 job hj
  rw [jobsGet_jobsSet] at hj
  by_cases hk : k2 = k
  · rw [if_pos hk] at hj
    injection hj with hj
    rw [← hj]
    exact h1
  · rw [if_neg hk] at hj
    exact h k2 job hj

theorem idleUnowned_reachable {c : Coordinator} (h : Reachable c) :
    ∀ (k : Int) (job : Job), jobsGet c.jobs k = some job → IdleUnowned job := by
  induction h with
  | init =>
    intro k job hj
    cases hj
  | submit c files nReduce now _ ih =>
    apply idleUnowned_set c c.nextJob _ ih
    constructor
    · intro t ht _
      simp only [initMapTasks, List.mem_map] at ht
      obtain ⟨p, _, rfl⟩ := ht
      rfl
    · intro t ht _
      simp only [initReduceTasks, List.mem_map] at ht
      obtain ⟨p, _, rfl⟩ := ht
      rfl
  | getTask c order args reply now now2 _ _ ih =>
    rcases GetTask_spec order c args reply now now2 with
      ⟨_, _, hm, _⟩ | ⟨pre, k, post, cm, job, i, task, _, _, hm, _, hj, _, _, hcase⟩
    · exact idleUnowned_ofMarked hm ih
    · have hcm := idleUnowned_ofMarked hm ih
      have hu := hcm k job hj
      rcases hcase with ⟨_, hr⟩ | ⟨_, _, _, hr⟩
      · rw [hr]
        exact idleUnowned_set cm k _ hcm ⟨idleUnowned_assign _ _ _ _ _ hu.1, hu.2⟩
      · rw [hr]
        exact idleUnowned_set cm k _ hcm ⟨hu.1, idleUnowned_assign _ _ _ _ _ hu.2⟩
  | report c args reply _ ih =>
    unfold ReportTask
    cases hj : jobsGet c.jobs args.JobID with
    | none => exact ih
    | some job =>
      simp only
      split
      · exact ih
      · cases ht : (tasksOf job args.TaskType)[args.TaskID.toNat]? with
        | none => exact ih
        | some task =>
          simp only
          split
          · exact idleUnowned_set c _ _ ih (idleUnowned_complete job _ _ task (ih _ job hj))
          · exact ih

/-- The reach of the defect shown by `exFresh`: in a reachable state a report whose
worker ID is not the empty string leaves the state as it is when the task it names is
IDLE, and is not acknowledged. -/
theorem ReportTask_idle_named_worker {c : Coordinator} (hc : Reachable c)
    (args : ReportTaskArgs) (reply : ReportTaskReply) (job : Job) (task : Task)
    (hj : jobsGet c.jobs args.JobID = some job)
    (ht : (tasksOf job args.TaskType)[args.TaskID.toNat]? = some task)
    (hidle : task.Status = TaskStatusIdle) (hw : args.WorkerID ≠ "") :
    (ReportTask c args reply).c = c ∧ (ReportTask c args reply).reply = reply := by
  have hu := idleUnowned_reachable hc args.JobID job hj
  have hmem : task ∈ tasksOf job args.TaskType := List.mem_iff_getElem?.2 ⟨_, ht⟩
  have hwid : task.WorkerID = "" := by
    unfold tasksOf at hmem
    split at hmem
    · exact hu.1 task hmem hidle
    · exact hu.2 task hmem hidle
  have hne : ¬ task.WorkerID = args.WorkerID := by
    rw [hwid]
    exact fun h => hw h.symm
  unfold ReportTask
  rw [hj]
  simp only
  split
  · exact ⟨rfl, rfl⟩
  · rw [ht]
    simp only
    rw [if_neg hne]
    exact ⟨rfl, rfl⟩

/-- C22 at a failing input.  `exFresh` is reachable and no `GetTask` was ever called;
its two tasks are IDLE.  A report on the reduce task 0 of job 0 whose worker ID is the
empty string is acknowledged and sets that reduce task to COMPLETED, while the map task
of the job is still IDLE; the same report on the map task sets the map task to
COMPLETED.  The comparison of the recorded worker with the reporting worker is the
only test `ReportTask` makes, and the recorded worker of a task that was never handed
out is the empty string. -/
theorem ReportTask_completes_idle_task :
    Reachable exFresh ∧
    taskStatuses exFresh 0 = some ([TaskStatusIdle], [TaskStatusIdle]) ∧
    taskWorkers exFresh 0 = some ([""], [""]) ∧
    (ReportTask exFresh (ReportTaskArgs.mk 0 0 TaskTypeReduce "") ReportTaskReply.zero).err
      = none ∧
    (ReportTask exFresh (ReportTaskArgs.mk 0 0 TaskTypeReduce "") ReportTaskReply.zero).reply.Ack
      = true ∧
    taskStatuses
      (ReportTask exFresh (ReportTaskArgs.mk 0 0 TaskTypeReduce "") ReportTaskReply.zero).c 0
      = some ([TaskStatusIdle], [TaskStatusCompleted]) ∧
    (ReportTask exFresh (ReportTaskArgs.mk 0 0 TaskTypeMap "") ReportTaskReply.zero).reply.Ack
      = true ∧
    taskStatuses
      (ReportTask exFresh (ReportTaskArgs.mk 0 0 TaskTypeMap "") ReportTaskReply.zero).c 0
      = some ([TaskStatusCompleted], [TaskStatusIdle]) :=
  ⟨Reachable.submit _ _ _ _ Reachable.init, by decide, by decide, by decide, by decide,
    by decide, by decide, by decide⟩

end coordinator

/-! ## The word count, from the input files to the output files -/

namespace worker

/-- The map phase of a job whose map task `s + i` has the `i`-th element of the list as
its input file (name and contents): `doMap` with `MapFunc` on every task, in index
order.  The result lists the files written, in the order of writing, or is `none` when
a task exits or panics. -/
def mapPhaseFrom (jobID nReduce : Int) :
    List (String × String) → Nat → Option (List (String × List KeyValue))
  | [], _ => some []
  | (filename, contents) :: rest, s =>
    match doMap jobID (s : Int) filename (some contents) nReduce MapFunc with
    | none => none
    | some files =>
      match mapPhaseFrom jobID nReduce rest (s + 1) with
      | none => none
      | some more => some (files ++ more)

/-- The map phase of a job with the map tasks 0, 1, ... on `inputs`. -/
def mapPhase (jobID : Int) (inputs : List (String × String)) (nReduce : Int) :
    Option (List (String × List KeyValue)) :=
  mapPhaseFrom jobID nReduce inputs 0

/-- The file system after a list of writes, each the `os.Create` of a name followed by
the encoding of the records: a file holds the records of the last write to its name,
and every record is read back as it was written. -/
def writeFiles (fs : String → Option (List KeyValue)) :
    List (String × List KeyValue) → String → Option (List KeyValue)
  | [], n => fs n
  | (n1, recs) :: rest, n => writeFiles (fun x => if x = n1 then some recs else fs x) rest n

/-- The reduce phase: `doReduce` with `ReduceFunc` on every bucket 0, ..., nReduce - 1;
`orders b` is the order in which the reduce task of bucket `b` visits the keys of its
map. -/
def reducePhase (jobID nMap nReduce : Int) (fs : String → Option (List KeyValue))
    (orders : Nat → List String) : List ReduceOutput :=
  (List.range nReduce.toNat).map fun (b : Nat) =>
    doReduce jobID (b : Int) nMap ReduceFunc fs (orders b)

/-- The word count of a job: the map phase on the inputs, then the reduce phase on the
files that the map phase wrote into an empty directory. -/
def wordCount (jobID : Int) (inputs : List (String × String)) (nReduce : Int)
    (orders : Nat → List String) : Option (List ReduceOutput) :=
  match mapPhase jobID inputs nReduce with
  | none => none
  | some files =>
    some (reducePhase jobID (inputs.length : Int) nReduce
      (writeFiles (fun _ => none) files) orders)

/-- The keys of the map `intermediate` that the reduce task of bucket `b` builds after
the map phase on `inputs`, in the order of their first insertion. -/
def intermediateKeys (jobID : Int) (inputs : List (String × String)) (nReduce : Int)
    (b : Nat) : List String :=
  (groupFiles [] ((inputNames jobID (b : Int) (inputs.length : Int)).map
    (writeFiles (fun _ => none) ((mapPhase jobID inputs nReduce).getD [])))).map Prod.fst

/-- The records that `MapFunc` emits on all the inputs, input after input. -/
def allRecords : List (String × String) → List KeyValue
  | [] => []
  | (filename, contents) :: rest => MapFunc filename contents ++ allRecords rest

/-- The total number of occurrences of the word `w` in the inputs: the sum, over the
inputs, of the number of records with key `w` that `MapFunc` emits on the input. -/
def occurrences (inputs : List (String × String)) (w : String) : Nat :=
  (inputs.map fun inp => ((MapFunc inp.1 inp.2).map KeyValue.Key).count w).sum

/-- Two inputs for a word count: "hello world hello" and "world a". -/
def exInputs : List (String × String) :=
  [("f0.txt", "hello world hello"), ("f1.txt", "world a")]

/-- An order of visit of the keys for the two buckets of `exInputs`. -/
def exOrders (b : Nat) : List String :=
  if b = 0 then ["a"] else ["world", "hello"]

theorem doMap_eq (j t : Int) (filename text : String) (nReduce : Int)
    (mapF : String → String → List KeyValue) (hn : 1 ≤ nReduce) :
    doMap j t filename (some text) nReduce mapF =
      some ((List.range nReduce.toNat).map fun (b : Nat) =>
        (intermediateName j t (b : Int), bucketRecords (mapF filename text) nReduce b)) := by
  unfold doMap
  simp only [partition_eq _ _ hn]
  congr 1
  apply List.map_congr_left
  intro b hb
  have hb1 : b < nReduce.toNat := List.mem_range.1 hb
  congr 1
  rw [List.getD_eq_getElem?_getD, List.getElem?_map, List.getElem?_range hb1]
  rfl

theorem mapPhaseFrom_spec (j nReduce : Int) (hn : 1 ≤ nReduce) :
    ∀ (inputs : List (String × String)) (s : Nat),
      ∃ files : List (String × List KeyValue),
        mapPhaseFrom j nReduce inputs s = some files ∧
        ∀ e : String × List KeyValue, e ∈ files ↔
          ∃ (i : Nat) (inp : String × String) (b : Nat),
            inputs[i]? = some inp ∧ b < nReduce.toNat ∧
            e = (intermediateName j ((s + i : Nat) : Int) (b : Int),
                 bucketRecords (MapFunc inp.1 inp.2) nReduce b) := by
  intro inputs
  induction inputs with
  | nil =>
    intro s
    exact ⟨[], rfl, by simp⟩
  | cons inp rest ih =>
    intro s
    obtain ⟨more, hmore, hmem⟩ := ih (s + 1)
    obtain ⟨filename, contents⟩ := inp
    refine ⟨((List.range nReduce.toNat).map fun (b : Nat) =>
        (intermediateName j (s : Int) (b : Int),
          bucketRecords (MapFunc filename contents) nReduce b)) ++ more, by
      simp only [mapPhaseFrom, doMap_eq _ _ _ _ _ _ hn, hmore], ?_⟩
    intro e
    rw [List.mem_append, hmem, List.mem_map]
    constructor
    · rintro (⟨b, hb, rfl⟩ | ⟨i, inp, b, hi, hb, rfl⟩)
      · exact ⟨0, (filename, contents), b, List.getElem?_cons_zero, List.mem_range.1 hb, rfl⟩
      · refine ⟨i + 1, inp, b, by simpa using hi, hb, ?_⟩
        have : s + 1 + i = s + (i + 1) := by omega
        rw [this]
    · rintro ⟨i, inp, b, hi, hb, rfl⟩
      cases i with
      | zero =>
        simp only [List.getElem?_cons_zero, Option.some.injEq] at hi
        subst hi
        exact Or.inl ⟨b, List.mem_range.2 hb, rfl⟩
      | succ i =>
        refine Or.inr ⟨i, inp, b, by simpa using hi, hb, ?_⟩
        have : s + 1 + i = s + (i + 1) := by omega
        rw [this]

theorem writeFiles_other (files : List (String × List KeyValue)) (x : String) :
    ∀ fs : String → Option (List KeyValue),
      (∀ e ∈ files, e.1 ≠ x) → writeFiles fs files x = fs x := by
  induction files with
  | nil => intro fs _; rfl
  | cons e rest ih =>
    intro fs h
    obtain ⟨n1, recs⟩ := e
    simp only [writeFiles]
    rw [ih _ (fun e he => h e (List.mem_cons_of_mem _ he))]
    have : x ≠ n1 := fun hx => h (n1, recs) (List.mem_cons_self _ _) hx.symm
    simp [this]

theorem writeFiles_unique (files : List (String × List KeyValue)) (x : String)
    (recs : List KeyValue) :
    ∀ fs : String → Option (List KeyValue),
      (∃ e ∈ files, e.1 = x) → (∀ e ∈ files, e.1 = x → e.2 = recs) →
      writeFiles fs files x = some recs := by
  induction files with
  | nil => intro fs h; obtain ⟨e, he, _⟩ := h; cases he
  | cons e rest ih =>
    intro fs hex hall
    obtain ⟨n1, r1⟩ := e
    simp only [writeFiles]
    by_cases hrest : ∃ e ∈ rest, e.1 = x
    · exact ih _ hrest (fun e he => hall e (List.mem_cons_of_mem _ he))
    · have hno : ∀ e ∈ rest, e.1 ≠ x := fun e he hx => hrest ⟨e, he, hx⟩
      rw [writeFiles_other rest x _ hno]
      obtain ⟨e, he, hx⟩ := hex
      rcases List.mem_cons.1 he with h | h
      · subst h
        simp only at hx
        have := hall (n1, r1) (List.mem_cons_self _ _) hx
        simp only at this
        simp [hx, this]
      · exact absurd hx (hno e h)

theorem intermediateName_inj_same_job (j t b t2 b2 : Int) (ht : 0 ≤ t) (hb : 0 ≤ b)
    (ht2 : 0 ≤ t2) (hb2 : 0 ≤ b2)
    (h : intermediateName j t b = intermediateName j t2 b2) : t = t2 ∧ b = b2 := by
  have hd := congrArg String.data h
  rw [intermediateName_data, intermediateName_data] at hd
  simp only [List.cons.injEq, true_and] at hd
  have r1 := List.cons_injective (List.append_cancel_left hd)
  obtain ⟨e2, e3⟩ := split_at_dash _ _ _ _ (formatInt_no_dash t ht) (formatInt_no_dash t2 ht2) r1
  exact ⟨formatInt_inj t t2 ht ht2 (String.ext e2), formatInt_inj b b2 hb hb2 (String.ext e3)⟩

theorem mapPhase_read_back (j nReduce : Int) (hn : 1 ≤ nReduce)
    (inputs : List (String × String)) (files : List (String × List KeyValue))
    (h : mapPhase j inputs nReduce = some files) (i : Nat) (inp : String × String) (b : Nat)
    (hi : inputs[i]? = some inp) (hb : b < nReduce.toNat) :
    writeFiles (fun _ => none) files (intermediateName j (i : Int) (b : Int)) =
      some (bucketRecords (MapFunc inp.1 inp.2) nReduce b) := by
  obtain ⟨files2, h2, hmem⟩ := mapPhaseFrom_spec j nReduce hn inputs 0
  unfold mapPhase at h
  rw [h2] at h
  injection h with h
  subst h
  apply writeFiles_unique
  · refine ⟨_, (hmem _).2 ⟨i, inp, b, hi, hb, rfl⟩, ?_⟩
    simp only [Nat.zero_add]
  · intro e he hx
    obtain ⟨i2, inp2, b2, hi2, _, rfl⟩ := (hmem e).1 he
    simp only at hx ⊢
    obtain ⟨ht, hbb⟩ := intermediateName_inj_same_job _ _ _ _ _ (Int.ofNat_nonneg _)
      (Int.ofNat_nonneg _) (Int.ofNat_nonneg _) (Int.ofNat_nonneg _) hx
    have hi3 : i2 = i := by omega
    have hb3 : b2 = b := by omega
    subst hi3 hb3
    rw [hi2] at hi
    injection hi with hi
    rw [hi]

theorem bucketRecords_append (l1 l2 : List KeyValue) (nReduce : Int) (b : Nat) :
    bucketRecords (l1 ++ l2) nReduce b =
      bucketRecords l1 nReduce b ++ bucketRecords l2 nReduce b := by
  unfold bucketRecords
  exact List.filter_append _ _

theorem flatten_read (j : Int) (b : Nat) (nReduce : Int)
    (fs : String → Option (List KeyValue)) :
    ∀ (inputs : List (String × String)) (s : Nat),
      (∀ (i : Nat) (inp : String × String), inputs[i]? = some inp →
        fs (intermediateName j ((s + i : Nat) : Int) (b : Int)) =
          some (bucketRecords (MapFunc inp.1 inp.2) nReduce b)) →
      ((List.range' s inputs.length).map fun (i : Nat) =>
        (fs (intermediateName j (i : Int) (b : Int))).getD []).flatten =
        bucketRecords (allRecords inputs) nReduce b := by
  intro inputs
  induction inputs with
  | nil => intro s _; rfl
  | cons inp rest ih =>
    intro s h
    obtain ⟨filename, contents⟩ := inp
    have h0 := h 0 (filename, contents) List.getElem?_cons_zero
    rw [Nat.add_zero] at h0
    have hrest := ih (s + 1) (fun i inp hi => by
      have := h (i + 1) inp (by simpa using hi)
      have he : s + (i + 1) = s + 1 + i := by omega
      rw [he] at this
      exact this)
    simp only [List.length_cons, allRecords]
    rw [List.range'_succ, List.map_cons, List.flatten_cons, hrest, h0,
      bucketRecords_append]
    rfl

theorem recordsRead_mapPhase (j nReduce : Int) (hn : 1 ≤ nReduce)
    (inputs : List (String × String)) (files : List (String × List KeyValue))
    (h : mapPhase j inputs nReduce = some files) (b : Nat) (hb : b < nReduce.toNat) :
    recordsRead j (b : Int) (inputs.length : Int) (writeFiles (fun _ => none) files) =
      bucketRecords (allRecords inputs) nReduce b := by
  have := flatten_read j b nReduce (writeFiles (fun _ => none) files) inputs 0
    (fun i inp hi => by
      rw [Nat.zero_add]
      exact mapPhase_read_back j nReduce hn inputs files h i inp b hi hb)
  rw [← this]
  unfold recordsRead inputNames
  rw [List.map_map, Int.toNat_ofNat, List.range_eq_range']
  rfl

theorem mem_bucketRecords (recs : List KeyValue) (nReduce : Int) (b : Nat) (kv : KeyValue) :
    kv ∈ bucketRecords recs nReduce b ↔ kv ∈ recs ∧ bucketOf kv.Key nReduce = (b : Int) := by
  unfold bucketRecords
  simp [List.mem_filter]

theorem valuesOf_bucketRecords (recs : List KeyValue) (nReduce : Int) (b : Nat) (k : String)
    (hk : bucketOf k nReduce = (b : Int)) :
    valuesOf (bucketRecords recs nReduce b) k = valuesOf recs k := by
  unfold valuesOf bucketRecords
  rw [List.filter_filter]
  congr 1
  apply List.filter_congr
  intro kv _
  by_cases hkv : kv.Key = k
  · simp [hkv, hk]
  · simp [hkv]

theorem valuesOf_length (recs : List KeyValue) (k : String) :
    (valuesOf recs k).length = (recs.map KeyValue.Key).count k := by
  unfold valuesOf
  induction recs with
  | nil => rfl
  | cons kv rest ih =>
    rw [List.map_cons, List.count_cons, List.filter_cons]
    by_cases hkv : kv.Key = k
    · simp only [hkv, decide_True, if_true, List.map_cons, List.length_cons, beq_self_eq_true]
      rw [List.length_map] at ih ⊢
      rw [ih]
    · have hne : (kv.Key == k) = false := by simpa using hkv
      simp only [hkv, decide_False, hne]
      simpa using ih

theorem occurrences_eq (inputs : List (String × String)) (w : String) :
    occurrences inputs w = ((allRecords inputs).map KeyValue.Key).count w := by
  unfold occurrences
  induction inputs with
  | nil => rfl
  | cons inp rest ih =>
    obtain ⟨filename, contents⟩ := inp
    simp only [List.map_cons, List.sum_cons, allRecords, List.map_append, List.count_append]
    rw [ih]

theorem doReduce_calls_spec (jobID taskID nMap : Int)
    (reduceF : String → List String → String) (fs : String → Option (List KeyValue))
    (order : List String)
    (horder : order.Perm
      ((groupFiles [] ((inputNames jobID taskID nMap).map fs)).map Prod.fst)) :
    (doReduce jobID taskID nMap reduceF fs order).lines =
      (doReduce jobID taskID nMap reduceF fs order).calls.map
        (fun p => p.1 ++ " " ++ reduceF p.1 p.2 ++ "\n") ∧
    ((doReduce jobID taskID nMap reduceF fs order).calls.map Prod.fst).Nodup ∧
    (∀ k : String, k ∈ (doReduce jobID taskID nMap reduceF fs order).calls.map Prod.fst ↔
      ∃ kv ∈ recordsRead jobID taskID nMap fs, kv.Key = k) ∧
    (∀ p ∈ (doReduce jobID taskID nMap reduceF fs order).calls,
      p.2 = valuesOf (recordsRead jobID taskID nMap fs) p.1) := by
  have hcalls : (doReduce jobID taskID nMap reduceF fs order).calls =
      (sortStrings order).map fun k =>
        (k, groupGet (groupFiles [] ((inputNames jobID taskID nMap).map fs)) k) := rfl
  have hlines : (doReduce jobID taskID nMap reduceF fs order).lines =
      (sortStrings order).map fun k =>
        k ++ " " ++ reduceF k (groupGet (groupFiles [] ((inputNames jobID taskID nMap).map fs)) k)
          ++ "\n" := rfl
  have hkeys : (doReduce jobID taskID nMap reduceF fs order).calls.map Prod.fst =
      sortStrings order := by
    rw [hcalls, List.map_map]
    exact List.map_id _
  rw [groupFiles_read] at horder hcalls hlines
  obtain ⟨hn, hmem, hget⟩ := groupRecords_spec (recordsRead jobID taskID nMap fs) []
    List.nodup_nil
  have hnorder : order.Nodup := horder.nodup_iff.2 hn
  refine ⟨?_, ?_, ?_, ?_⟩
  · rw [hlines, hcalls, List.map_map]
    rfl
  · rw [hkeys]; exact (sortStrings_perm order).nodup_iff.2 hnorder
  · intro k
    rw [hkeys, (sortStrings_perm order).mem_iff, horder.mem_iff, hmem]
    simp
  · intro p hp
    rw [hcalls] at hp
    obtain ⟨k, _, hk⟩ := List.mem_map.1 hp
    rw [← hk]
    simp only
    rw [hget]
    rfl

theorem ReduceFunc_eq (key : String) (values : List String) :
    ReduceFunc key values = Nat.repr values.length := by
  unfold ReduceFunc
  rw [formatInt_of_nonneg _ (Int.ofNat_nonneg _), Int.toNat_ofNat]

theorem reduce_bucket_spec (jobID nReduce : Int) (hn : 1 ≤ nReduce)
    (inputs : List (String × String)) (files : List (String × List KeyValue))
    (h : mapPhase jobID inputs nReduce = some files) (order : List String) (b : Nat)
    (hb : b < nReduce.toNat) (horder : order.Perm (intermediateKeys jobID inputs nReduce b)) :
    (doReduce jobID (b : Int) (inputs.length : Int) ReduceFunc
        (writeFiles (fun _ => none) files) order).lines =
      (doReduce jobID (b : Int) (inputs.length : Int) ReduceFunc
        (writeFiles (fun _ => none) files) order).calls.map
        (fun p => p.1 ++ " " ++ Nat.repr (occurrences inputs p.1) ++ "\n") ∧
    ((doReduce jobID (b : Int) (inputs.length : Int) ReduceFunc
        (writeFiles (fun _ => none) files) order).calls.map Prod.fst).Nodup ∧
    (∀ p ∈ (doReduce jobID (b : Int) (inputs.length : Int) ReduceFunc
        (writeFiles (fun _ => none) files) order).calls,
      p.2.length = occurrences inputs p.1) ∧
    (∀ w : String, w ∈ (doReduce jobID (b : Int) (inputs.length : Int) ReduceFunc
        (writeFiles (fun _ => none) files) order).calls.map Prod.fst ↔
      (w ∈ (allRecords inputs).map KeyValue.Key ∧ bucketOf w nReduce = (b : Int))) := by
  have hperm : order.Perm ((groupFiles [] ((inputNames jobID (b : Int)
      (inputs.length : Int)).map (writeFiles (fun _ => none) files))).map Prod.fst) := by
    unfold intermediateKeys at horder
    rw [h] at horder
    exact horder
  obtain ⟨hl, hnd, hmem, hvals⟩ := doReduce_calls_spec jobID (b : Int) (inputs.length : Int)
    ReduceFunc (writeFiles (fun _ => none) files) order hperm
  rw [recordsRead_mapPhase jobID nReduce hn inputs files h b hb] at hmem hvals
  have hkeys : ∀ w : String, w ∈ (doReduce jobID (b : Int) (inputs.length : Int) ReduceFunc
        (writeFiles (fun _ => none) files) order).calls.map Prod.fst ↔
      (w ∈ (allRecords inputs).map KeyValue.Key ∧ bucketOf w nReduce = (b : Int)) := by
    intro w
    rw [hmem]
    constructor
    · rintro ⟨kv, hkv, rfl⟩
      obtain ⟨h1, h2⟩ := (mem_bucketRecords _ _ _ _).1 hkv
      exact ⟨List.mem_map.2 ⟨kv, h1, rfl⟩, h2⟩
    · rintro ⟨hw, hbw⟩
      obtain ⟨kv, hkv, rfl⟩ := List.mem_map.1 hw
      exact ⟨kv, (mem_bucketRecords _ _ _ _).2 ⟨hkv, hbw⟩, rfl⟩
  have hlen : ∀ p ∈ (doReduce jobID (b : Int) (inputs.length : Int) ReduceFunc
        (writeFiles (fun _ => none) files) order).calls,
      p.2.length = occurrences inputs p.1 := by
    intro p hp
    have hb1 := ((hkeys p.1).1 (List.mem_map.2 ⟨p, hp, rfl⟩)).2
    rw [hvals p hp, valuesOf_bucketRecords _ _ _ _ hb1, valuesOf_length, occurrences_eq]
  refine ⟨?_, hnd, hlen, hkeys⟩
  rw [hl]
  apply List.map_congr_left
  intro p hp
  rw [ReduceFunc_eq, hlen p hp]

/-- C23 (the word count from end to end).  For every job ID, every list of inputs (the
`i`-th is the file of map task `i`) and every `nReduce ≥ 1`, with every intermediate
file read back as written and whatever the order in which each reduce task visits
the keys of its map: the map phase and the reduce phase run through and give one output
per bucket 0, ..., nReduce - 1.  In the output of bucket `b` the line at each position
is the key of the call of `ReduceFunc` at that position, a space, the decimal
representation of the total number of occurrences of that key in the inputs, and a
newline; the keys are pairwise distinct, and they are the words of the inputs whose
bucket is `b`.  So every word of the inputs has its line in exactly one bucket's
output, exactly once.  The words of an input are its maximal runs of ASCII letters,
and `ReduceFunc key values` is the decimal representation of the length of `values`. -/
theorem wordCount_end_to_end (jobID : Int) (inputs : List (String × String)) (nReduce : Int)
    (orders : Nat → List String) (hn : 1 ≤ nReduce)
    (horders : ∀ b : Nat, b < nReduce.toNat →
      (orders b).Perm (intermediateKeys jobID inputs nReduce b)) :
    ∃ outs : List ReduceOutput,
      wordCount jobID inputs nReduce orders = some outs ∧ outs.length = nReduce.toNat ∧
      (∀ (b : Nat) (out : ReduceOutput), outs[b]? = some out →
        out.lines = out.calls.map
          (fun p => p.1 ++ " " ++ Nat.repr (occurrences inputs p.1) ++ "\n") ∧
        (out.calls.map Prod.fst).Nodup ∧
        (∀ p ∈ out.calls, p.2.length = occurrences inputs p.1) ∧
        (∀ w : String, w ∈ out.calls.map Prod.fst ↔
          (w ∈ (allRecords inputs).map KeyValue.Key ∧ bucketOf w nReduce = (b : Int)))) ∧
      (∀ w ∈ (allRecords inputs).map KeyValue.Key,
        ∃ (b : Nat) (out : ReduceOutput), outs[b]? = some out ∧
          (out.calls.map Prod.fst).count w = 1 ∧
          (w ++ " " ++ Nat.repr (occurrences inputs w) ++ "\n") ∈ out.lines ∧
          ∀ (b2 : Nat) (out2 : ReduceOutput), outs[b2]? = some out2 →
            w ∈ out2.calls.map Prod.fst → b2 = b) ∧
      (∀ inp ∈ inputs,
        MaximalRuns inp.2.data ((MapFunc inp.1 inp.2).map fun kv => kv.Key.data)) ∧
      (∀ w : String, occurrences inputs w =
        (inputs.map fun inp => ((MapFunc inp.1 inp.2).map KeyValue.Key).count w).sum) ∧
      (∀ (key : String) (values : List String),
        ReduceFunc key values = Nat.repr values.length) := by
  obtain ⟨files, hfiles, _⟩ := mapPhaseFrom_spec jobID nReduce hn inputs 0
  have hmp : mapPhase jobID inputs nReduce = some files := hfiles
  have hwc : wordCount jobID inputs nReduce orders =
      some (reducePhase jobID (inputs.length : Int) nReduce
        (writeFiles (fun _ => none) files) orders) := by
    unfold wordCount
    rw [hmp]
  have hget : ∀ (b : Nat) (out : ReduceOutput),
      (reducePhase jobID (inputs.length : Int) nReduce
        (writeFiles (fun _ => none) files) orders)[b]? = some out →
      b < nReduce.toNat ∧
      out = doReduce jobID (b : Int) (inputs.length : Int) ReduceFunc
        (writeFiles (fun _ => none) files) (orders b) := by
    intro b out hout
    unfold reducePhase at hout
    rw [List.getElem?_map] at hout
    by_cases hb : b < nReduce.toNat
    · rw [List.getElem?_range hb] at hout
      simp only [Option.map_some', Option.some.injEq] at hout
      exact ⟨hb, hout.symm⟩
    · rw [List.getElem?_eq_none (by simpa using hb)] at hout
      simp at hout
  have hset : ∀ b : Nat, b < nReduce.toNat →
      (reducePhase jobID (inputs.length : Int) nReduce
        (writeFiles (fun _ => none) files) orders)[b]? =
      some (doReduce jobID (b : Int) (inputs.length : Int) ReduceFunc
        (writeFiles (fun _ => none) files) (orders b)) := by
    intro b hb
    unfold reducePhase
    rw [List.getElem?_map, List.getElem?_range hb]
    rfl
  refine ⟨_, hwc, by simp [reducePhase], ?_, ?_, ?_, fun _ => rfl, ReduceFunc_eq⟩
  · intro b out hout
    obtain ⟨hb, rfl⟩ := hget b out hout
    exact reduce_bucket_spec jobID nReduce hn inputs files hmp (orders b) b hb (horders b hb)
  · intro w hw
    obtain ⟨h0, h1⟩ := bucketOf_range w nReduce hn
    have hb : (bucketOf w nReduce).toNat < nReduce.toNat := by omega
    have hcast : bucketOf w nReduce = (((bucketOf w nReduce).toNat : Nat) : Int) := by omega
    obtain ⟨hl, hnd, _, hkeys⟩ := reduce_bucket_spec jobID nReduce hn inputs files hmp
      (orders (bucketOf w nReduce).toNat) (bucketOf w nReduce).toNat hb (horders _ hb)
    have hin := (hkeys w).2 ⟨hw, hcast⟩
    refine ⟨(bucketOf w nReduce).toNat, _, hset _ hb, List.count_eq_one_of_mem hnd hin, ?_, ?_⟩
    · rw [hl]
      obtain ⟨p, hp, hpw⟩ := List.mem_map.1 hin
      exact List.mem_map.2 ⟨p, hp, by rw [hpw]⟩
    · intro b2 out2 hout2 hw2
      obtain ⟨hb2, rfl⟩ := hget b2 out2 hout2
      obtain ⟨_, _, _, hkeys2⟩ := reduce_bucket_spec jobID nReduce hn inputs files hmp
        (orders b2) b2 hb2 (horders b2 hb2)
      have := ((hkeys2 w).1 hw2).2
      omega
  · intro inp _
    have hruns := (fieldsLoop_spec inp.2.data [] (by simp)).1 rfl
    have hk : ((MapFunc inp.1 inp.2).map fun kv => kv.Key.data) =
        (fieldsLoop isSeparator inp.2.data []).map String.data := by
      rw [MapFunc_keys, List.map_map]
      rfl
    rw [hk]
    exact hruns

/-- Witness of C23: the job 7 on `exInputs` with two buckets.  "a" falls into bucket 0,
"hello" and "world" into bucket 1; the outputs are "a 1" and "hello 2", "world 2".
And the case of `TestReduceFunc`: on "hello" and three values the result is "3". -/
theorem wordCount_end_to_end_witness :
    wordCount 7 exInputs 2 exOrders =
      some [{ name := "mr-out-7-0", lines := ["a 1\n"], calls := [("a", ["1"])] },
            { name := "mr-out-7-1", lines := ["hello 2\n", "world 2\n"],
              calls := [("hello", ["1", "1"]), ("world", ["1", "1"])] }] ∧
    ReduceFunc "hello" ["1", "1", "1"] = "3" ∧
    ∃ outs : List ReduceOutput,
      wordCount 7 exInputs 2 exOrders = some outs ∧ outs.length = 2 ∧
      ∀ w ∈ (allRecords exInputs).map KeyValue.Key,
        ∃ (b : Nat) (out : ReduceOutput), outs[b]? = some out ∧
          (out.calls.map Prod.fst).count w = 1 ∧
          (w ++ " " ++ Nat.repr (occurrences exInputs w) ++ "\n") ∈ out.lines := by
  refine ⟨by decide, by decide, ?_⟩
  obtain ⟨outs, h1, h2, _, h4, _⟩ := wordCount_end_to_end 7 exInputs 2 exOrders (by decide)
    (fun b hb => by
      have hb2 : b < 2 := hb
      interval_cases b
      · decide
      · decide)
  refine ⟨outs, h1, h2, ?_⟩
  intro w hw
  obtain ⟨b, out, ho, hc, hl, _⟩ := h4 w hw
  exact ⟨b, out, ho, hc, hl⟩

end worker
